import Mathlib

/-!
# go-path-value-trie: a shallow embedding and its verified properties

The Go package `trie` (files `trie.go`, `trie_group.go`) is embedded as pure
Lean functions.

* A Go `string` is its byte sequence (`GoString`).  `utf8.ValidString` and the
  `for _, r := range key` iteration are modelled after the Go standard
  library decoder (`utf8.DecodeRuneInString`).
* A `float32` score is an IEEE-754 single: a finite value, written as the
  integer number of units of `2^-149` it is made of (every finite single is
  such a multiple), an infinity, or a NaN.  Subtraction rounds to nearest-even
  on 24 significant bits and overflows to an infinity, the comparisons with a
  NaN are false, and the constant `1e-6` is the single nearest to it.
* A Go `int` is 64 bits wide: `trie.maxLen + 1` wraps around at `2^63 - 1`.
  Memory is not bounded in the model (a list may have any length, `make` and
  `append` never fail for lack of memory), and `cap(values) * 2`, twice the
  size of an allocated array, is computed exactly.
* `[]*T` slices are lists of payloads together with the capacity of the
  backing array; a run-time panic (index out of range, `makeslice`) is the
  result `none`.
* Nodes are mutated in place in Go; here every operation returns the new
  node, and `Put` writes the updated child back into its parent.
* `sort.Search` is embedded as the loop of the standard library, and
  `sort.Slice` as the insertion sort the standard library runs on short
  slices.  The general theorems use two facts about it only: the result is a
  permutation of the input, and it is sorted whenever the comparator orders
  the elements strictly and totally (then it is the only sorted
  permutation); the concrete evaluations sort at most five elements.
* A code-point prefix of a key is a rune sequence `p` with `p <+: runes key`.
* The `map[string]T` of the group `Get` is a list of entries with distinct keys;
  the unspecified iteration order of `range` over it is a parameter of `Get`.
-/

namespace trie

/-! ## Strings, runes and UTF-8 -/

/-- A Go string: an immutable sequence of bytes. -/
abbrev GoString := List (Fin 256)

/-- A Go `rune` (`int32`); every rune met here is a decoded code point or the
root's `0`, so it is never negative. -/
abbrev rune := Nat

/-- The constant `utf8.RuneError` (U+FFFD). -/
def utf8.RuneError : rune := 0xFFFD

/-- The table `first` of `unicode/utf8` for a non-ASCII lead byte: the size of
the sequence and the accepted range of its second byte; `none` is the entry
`xx` (invalid lead byte). -/
def utf8.first (s0 : Fin 256) : Option (Nat × Nat × Nat) :=
  if s0.val < 0xC2 then none
  else if s0.val < 0xE0 then some (2, 0x80, 0xBF)
  else if s0.val = 0xE0 then some (3, 0xA0, 0xBF)
  else if s0.val = 0xED then some (3, 0x80, 0x9F)
  else if s0.val < 0xF0 then some (3, 0x80, 0xBF)
  else if s0.val = 0xF0 then some (4, 0x90, 0xBF)
  else if s0.val < 0xF4 then some (4, 0x80, 0xBF)
  else if s0.val = 0xF4 then some (4, 0x80, 0x8F)
  else none

/-- The function `utf8.DecodeRuneInString`: the first rune of `s` and its width in
bytes; an invalid encoding gives `(RuneError, 1)`, the empty string
`(RuneError, 0)`. -/
def utf8.DecodeRuneInString (s : GoString) : rune × Nat :=
  match s with
  | [] => (utf8.RuneError, 0)
  | s0 :: t0 =>
    if s0.val < 0x80 then (s0.val, 1)
    else
      match utf8.first s0 with
      | none => (utf8.RuneError, 1)
      | some (sz, lo, hi) =>
        if s.length < sz then (utf8.RuneError, 1)
        else
          match t0 with
          | [] => (utf8.RuneError, 1)
          | s1 :: t1 =>
            if s1.val < lo ∨ hi < s1.val then (utf8.RuneError, 1)
            else if sz ≤ 2 then ((s0.val % 32) * 64 + s1.val % 64, 2)
            else
              match t1 with
              | [] => (utf8.RuneError, 1)
              | s2 :: t2 =>
                if s2.val < 0x80 ∨ 0xBF < s2.val then (utf8.RuneError, 1)
                else if sz ≤ 3 then
                  ((s0.val % 16) * 4096 + (s1.val % 64) * 64 + s2.val % 64, 3)
                else
                  match t2 with
                  | [] => (utf8.RuneError, 1)
                  | s3 :: _ =>
                    if s3.val < 0x80 ∨ 0xBF < s3.val then (utf8.RuneError, 1)
                    else
                      ((s0.val % 8) * 262144 + (s1.val % 64) * 4096
                        + (s2.val % 64) * 64 + s3.val % 64, 4)

/-- The runes of `for _, r := range s`, where `skip` bytes of `s` still belong
to the rune decoded last. -/
def rangeFrom : Nat → GoString → List rune
  | _, [] => []
  | skip + 1, _ :: t => rangeFrom skip t
  | 0, b :: t =>
    let d := utf8.DecodeRuneInString (b :: t)
    d.1 :: rangeFrom (d.2 - 1) t

/-- The sequence of runes that `for _, r := range s` iterates over. -/
def runes (s : GoString) : List rune := rangeFrom 0 s

/-- Validity of the remaining bytes, `skip` of which belong to a sequence
already checked. -/
def utf8.validFrom : Nat → GoString → Bool
  | _, [] => true
  | skip + 1, _ :: t => utf8.validFrom skip t
  | 0, b :: t =>
    let d := utf8.DecodeRuneInString (b :: t)
    if d.1 = utf8.RuneError ∧ d.2 = 1 then false else utf8.validFrom (d.2 - 1) t

/-- The function `utf8.ValidString`: `s` consists entirely of valid UTF-8 encoded runes. -/
def utf8.ValidString (s : GoString) : Bool := utf8.validFrom 0 s

/-! ## float32 scores -/

/-- A Go `float32`: a finite value, written as its integer number of units of `2^-149`
(every finite single is such a multiple; the two zeros are one value), an infinity with
its sign, or a NaN. -/
inductive Float32 where
  | finite (units : Int)
  | inf (negative : Bool)
  | nan
deriving DecidableEq

/-- Number of binary digits of `m` (with enough `fuel`). -/
def bitLen : Nat → Nat → Nat
  | 0, _ => 0
  | fuel + 1, m => if m = 0 then 0 else bitLen fuel (m / 2) + 1

/-- Rounding of a non-negative exact result to `float32` precision: the nearest
value with 24 significant bits, ties to the even one. -/
def Float32.roundNat (m : Nat) : Nat :=
  if m < 2 ^ 24 then m
  else
    let k := bitLen m m - 24
    let q := m / 2 ^ k
    let rem := m % 2 ^ k
    let q1 := if 2 ^ k < 2 * rem ∨ (2 * rem = 2 ^ k ∧ q % 2 = 1) then q + 1 else q
    q1 * 2 ^ k

/-- Rounding of an exact result to `float32`: sign and rounded magnitude; a rounded
magnitude of `2^128` (`2^277` units) or more overflows to the infinity of that sign. -/
def Float32.round (x : Int) : Float32 :=
  let r := Float32.roundNat x.natAbs
  if r < 2 ^ 128 * 2 ^ 149 then .finite (if x < 0 then -(r : Int) else (r : Int))
  else .inf (decide (x < 0))

/-- The `float32` subtraction `a - b` (IEEE 754). -/
def Float32.sub : Float32 → Float32 → Float32
  | .finite x, .finite y => Float32.round (x - y)
  | .finite _, .inf s => .inf (!s)
  | .inf s, .finite _ => .inf s
  | .inf s, .inf s2 => if s = s2 then .nan else .inf s
  | .nan, _ => .nan
  | .finite _, .nan => .nan
  | .inf _, .nan => .nan

/-- The `float32` negation `-a`. -/
def Float32.neg : Float32 → Float32
  | .finite x => .finite (-x)
  | .inf s => .inf (!s)
  | .nan => .nan

/-- The `float32` comparison `a < b`: false whenever an operand is a NaN. -/
def Float32.lt : Float32 → Float32 → Bool
  | .finite x, .finite y => decide (x < y)
  | .finite _, .inf s => !s
  | .inf s, .finite _ => s
  | .inf s, .inf s2 => s && !s2
  | .nan, _ => false
  | .finite _, .nan => false
  | .inf _, .nan => false

instance : Sub Float32 := ⟨Float32.sub⟩

instance : Neg Float32 := ⟨Float32.neg⟩

instance : LT Float32 := ⟨fun a b => Float32.lt a b = true⟩

instance (a b : Float32) : Decidable (a < b) := by
  show Decidable (Float32.lt a b = true); infer_instance

/-- The value `m * 2^e` units, i.e. the number `m * 2^(e-149)`. -/
def Float32.ofScaled (m : Int) (e : Nat) : Float32 := .finite (m * ((2 ^ e : Nat) : Int))

/-- A finite value that a `float32` holds exactly: at most 24 significant bits, below
`2^128`. -/
def Float32.IsFinite : Float32 → Prop
  | .finite x =>
    x.natAbs < 2 ^ 128 * 2 ^ 149 ∧ x.natAbs % 2 ^ (bitLen x.natAbs x.natAbs - 24) = 0
  | .inf _ => False
  | .nan => False

instance (x : Float32) : Decidable (Float32.IsFinite x) := by
  cases x <;> unfold Float32.IsFinite <;> infer_instance

/-- The constant `1e-6` converted to `float32`: `8796093 * 2^-43`. -/
def epsilon : Float32 := Float32.ofScaled 8796093 106

/-- The payload interface `Value`. -/
class Value (T : Type) where
  GetQ : T → GoString
  GetScore : T → Float32

export Value (GetQ GetScore)

/-- Go `floatEqual`. -/
def floatEqual (a b : Float32) : Bool :=
  let diff := a - b
  let diff := if diff < Float32.finite 0 then -diff else diff
  decide (diff < epsilon)

/-- Go `floatCompare`. -/
def floatCompare (a b : Float32) : Int :=
  if floatEqual a b then 0
  else if a < b then -1
  else 1

/-- Go `valueCompare`: `a` ranks strictly better than `b`. -/
def valueCompare {T : Type} [Value T] (a b : T) : Bool :=
  let c := floatCompare (GetScore a) (GetScore b)
  if c = 1 then true
  else if c = -1 then false
  else if c = 0 then decide (GetQ b < GetQ a)
  else false

/-- Go `min`. -/
def min (a b : Int) : Int := if a < b then a else b

/-! ## Slices and the standard library `sort` -/

/-- A slice `[]*T` of non-nil payload references: its contents and the capacity
of its backing array (`Put` never stores a nil reference). -/
structure Slice (T : Type) where
  elems : List T
  cap : Nat

/-- Contents after `append(s, v)`.  When the backing array is full the runtime
allocates a larger one; its exact capacity is the runtime's choice and is
modelled by doubling. -/
def Slice.append {T : Type} (s : Slice T) (v : T) : Slice T :=
  { elems := s.elems ++ [v],
    cap := if s.elems.length < s.cap then s.cap else Max.max (2 * s.cap) (s.elems.length + 1) }

/-- The loop of `sort.Search`: `i, j := 0, n; for i < j { h := (i+j)/2; ... }`. -/
def sort.searchLoop (f : Nat → Bool) : Nat → Nat → Nat → Nat
  | 0, i, _ => i
  | fuel + 1, i, j =>
    if i < j then
      let h := (i + j) / 2
      if !f h then sort.searchLoop f fuel (h + 1) j
      else sort.searchLoop f fuel i h
    else i

/-- The function `sort.Search(n, f)`; the interval halves at each turn, `n` turns are enough. -/
def sort.Search (n : Nat) (f : Nat → Bool) : Nat := sort.searchLoop f n 0 n

/-- Inner loop of the insertion sort: the element `x` at the end of the sorted
part moves left while `less x` its left neighbour.  `before` is the sorted
part in reverse (nearest neighbour first). -/
def sort.sink {T : Type} (less : T → T → Bool) (x : T) : List T → List T
  | [] => [x]
  | y :: ys => if less x y then y :: sort.sink less x ys else x :: y :: ys

/-- The function `sort.Slice` as the insertion sort (`insertionSortLessFunc`) that the standard
library runs on slices of at most 12 elements. -/
def sort.Slice {T : Type} (data : List T) (less : T → T → Bool) : List T :=
  (data.foldl (fun before x => sort.sink less x before) []).reverse

/-! ## The trie -/

/-- Go `pathValueTrieNode`. -/
inductive pathValueTrieNode (T : Type) where
  | mk (r : rune) (values : Slice T) (children : List (pathValueTrieNode T))

/-- Field `r`. -/
def pathValueTrieNode.r {T : Type} : pathValueTrieNode T → rune
  | .mk r _ _ => r

/-- Field `values`. -/
def pathValueTrieNode.values {T : Type} : pathValueTrieNode T → Slice T
  | .mk _ values _ => values

/-- Field `children`. -/
def pathValueTrieNode.children {T : Type} : pathValueTrieNode T → List (pathValueTrieNode T)
  | .mk _ _ children => children

/-- Go `PathValueTrie`. -/
structure PathValueTrie (T : Type) where
  root : pathValueTrieNode T
  maxLen : Int

/-- The node literal `&pathValueTrieNode[T]{r: r, values: make([]*T, 0, min(4, maxLen)),
children: make(..., 0, 8)}`; `make` panics on a negative capacity. -/
def newNode {T : Type} (maxLen : Int) (r : rune) : Option (pathValueTrieNode T) :=
  if min 4 maxLen < 0 then none
  else some (.mk r { elems := [], cap := (min 4 maxLen).toNat } [])

/-- Go `NewPathValueTrie`. -/
def NewPathValueTrie {T : Type} (maxLen : Int) : Option (PathValueTrie T) :=
  match newNode maxLen 0 with
  | none => none
  | some root => some { root := root, maxLen := maxLen }

/-- The value of an expression of Go type `int` (64 bits): two's complement
wrap-around of the exact result. -/
def wrapInt (x : Int) : Int := (x + 2 ^ 63) % 2 ^ 64 - 2 ^ 63

/-- Lines 98-107 of `updateValue` ("expand values slice"); `make` panics when the
requested capacity is negative or below the length.  `trie.maxLen + 1` is an `int`
and wraps around at `maxLen = 2^63 - 1`; `cap(values) * 2` is twice the size of an
allocated array and is computed exactly. -/
def expandValues {T : Type} (maxLen : Int) (values : Slice T) : Option (Slice T) :=
  if values.cap = values.elems.length then
    let newCap : Int := 2 * (values.cap : Int)
    let newCap : Int := if newCap > wrapInt (maxLen + 1) then wrapInt (maxLen + 1) else newCap
    if newCap < (values.elems.length : Int) then none
    else some { elems := values.elems, cap := newCap.toNat }
  else some values

/-- Go `updateValue`, as a function from the node's `values` to the slice stored
back into `node.values`; `none` is a panic. -/
def updateValue {T : Type} [Value T] (maxLen : Int) (values : Slice T) (value : T) :
    Option (Slice T) :=
  -- pre-filter: if the value already exists, return
  if values.elems.any (fun x => GetQ x == GetQ value) then some values
  else
    -- pre-filter: if values already full, return
    let full : Option Bool :=
      if (values.elems.length : Int) ≥ maxLen then
        -- values[len(values)-1]
        values.elems.getLast?.map (fun worst => valueCompare worst value)
      else some false
    match full with
    | none => none
    | some true => some values
    | some false =>
      match expandValues maxLen values with
      | none => none
      | some values =>
        -- main logic: insert the value in sorted order
        let fast : Bool :=
          match values.elems.getLast? with
          | none => true
          | some worst => valueCompare worst value
        if fast then some (values.append value)
        else
          -- bottom logic: new value is not smaller, insert and sort
          let values := values.append value
          let values : Slice T := { values with elems := sort.Slice values.elems valueCompare }
          if (values.elems.length : Int) > maxLen then
            if maxLen < 0 then none
            else some { values with elems := values.elems.take maxLen.toNat }
          else some values

/-- The index `sort.Search(len(children), func(i) { return children[i].r >= r })`. -/
def searchChild {T : Type} (children : List (pathValueTrieNode T)) (r : rune) : Nat :=
  sort.Search children.length (fun i => decide ((children.map pathValueTrieNode.r).getD i 0 ≥ r))

/-- The loop of `Put` from `node` over the remaining runes of the key, returning
the node as it is after the loop. -/
def putLoop {T : Type} [Value T] (maxLen : Int) (value : T) :
    List rune → pathValueTrieNode T → Option (pathValueTrieNode T)
  | [], node => some node
  | r :: rs, node =>
    let children := node.children
    let idx := searchChild children r
    let found : Option (pathValueTrieNode T) :=
      match children[idx]? with
      | some child => if child.r = r then some child else none
      | none => none
    match found with
    | some child =>
      (updateValue maxLen child.values value).bind fun values =>
      (putLoop maxLen value rs (.mk child.r values child.children)).bind fun child =>
      some (.mk node.r node.values (children.set idx child))
    | none =>
      (newNode maxLen r).bind fun child =>
      (updateValue maxLen child.values value).bind fun values =>
      (putLoop maxLen value rs (.mk child.r values child.children)).bind fun child =>
      some (.mk node.r node.values (children.take idx ++ child :: children.drop idx))

/-- Go `Put`; a nil `value` is `none`.  The result is the returned boolean and the
trie after the call, `none` when the call panics. -/
def PathValueTrie.Put {T : Type} [Value T] (trie : PathValueTrie T) (key : GoString)
    (value : Option T) : Option (Bool × PathValueTrie T) :=
  if !utf8.ValidString key then some (false, trie)
  else
    match value with
    | none => some (false, trie)
    | some v =>
      if (GetQ v).length = 0 then some (false, trie)
      else
        (putLoop trie.maxLen v (runes key) trie.root).bind fun root =>
        some (true, { trie with root := root })

/-- The loop of `Get`: the node reached from `node` along the runes, `none` when a
child is missing. -/
def getLoop {T : Type} : List rune → pathValueTrieNode T → Option (pathValueTrieNode T)
  | [], node => some node
  | r :: rs, node =>
    let children := node.children
    let idx := searchChild children r
    match children[idx]? with
    | some child => if child.r = r then getLoop rs child else none
    | none => none

/-- Go `Get`; the nil slice and the empty slice are both the empty list, and the
`v != nil` filter of the copy loop keeps every entry (no nil reference is stored). -/
def PathValueTrie.Get {T : Type} (trie : PathValueTrie T) (key : GoString) : List T :=
  match getLoop (runes key) trie.root with
  | none => []
  | some node => node.values.elems

/-- A sequence of `Put` calls, one after the other: the booleans returned and the
final trie; `none` when a call panics. -/
def PathValueTrie.PutAll {T : Type} [Value T] (trie : PathValueTrie T) :
    List (GoString × Option T) → Option (List Bool × PathValueTrie T)
  | [] => some ([], trie)
  | (key, value) :: calls =>
    (trie.Put key value).bind fun r =>
    (PathValueTrie.PutAll r.2 calls).bind fun rest =>
    some (r.1 :: rest.1, rest.2)

/-! ## The group of tries (`trie_group.go`) -/

/-- Go `PathValueTries`; the member references are taken non-nil (`Get` dereferences
each of them). -/
structure PathValueTries (T : Type) where
  pvTries : List (PathValueTrie T)
  maxResultsLen : Int

/-- Go `NewPathValueTries`; the nil result is `none`. -/
def NewPathValueTries {T : Type} (tries : List (PathValueTrie T)) (maxResultsLen : Int) :
    Option (PathValueTries T) :=
  if tries.length = 0 then none
  else some { pvTries := tries, maxResultsLen := maxResultsLen }

/-- The map read `existing, ok := resultsMap[q]` on a `map[string]T` kept as a list of
entries; `none` is `ok = false`. -/
def mapGet {T : Type} : List (GoString × T) → GoString → Option T
  | [], _ => none
  | (k, x) :: m, q => if k = q then some x else mapGet m q

/-- The map write `resultsMap[q] = value`. -/
def mapSet {T : Type} : List (GoString × T) → GoString → T → List (GoString × T)
  | [], q, v => [(q, v)]
  | (k, x) :: m, q, v => if k = q then (q, v) :: m else (k, x) :: mapSet m q v

/-- Body of the inner loop of the group `Get`:
`if existing, ok := resultsMap[q]; !ok || valueCompare(&value, &existing) { resultsMap[q] = value }`. -/
def mergeValue {T : Type} [Value T] (resultsMap : List (GoString × T)) (value : T) :
    List (GoString × T) :=
  let q := GetQ value
  match mapGet resultsMap q with
  | none => mapSet resultsMap q value
  | some existing =>
    if valueCompare value existing then mapSet resultsMap q value else resultsMap

/-- The two nested loops of the group `Get`: `resultsMap` after every value of every
member trie's `Get(key)` has been merged, in order. -/
def mergeTries {T : Type} [Value T] (pvTries : List (PathValueTrie T)) (key : GoString) :
    List (GoString × T) :=
  pvTries.foldl (fun resultsMap trie => (trie.Get key).foldl mergeValue resultsMap) []

/-- The end of the group `Get`: sort the collected results and truncate them to
`maxResultsLen`; `results[:maxResultsLen]` panics on a negative bound. -/
def rankResults {T : Type} [Value T] (maxResultsLen : Int) (results : List T) :
    Option (List T) :=
  let results := sort.Slice results valueCompare
  if (results.length : Int) > maxResultsLen then
    if maxResultsLen < 0 then none
    else some (results.take maxResultsLen.toNat)
  else some results

/-- Go `PathValueTries.Get`; a nil receiver is `none`.  The order in which
`for _, value := range resultsMap` yields the values of the map is not specified by
the language: `rangeOrder` is that order, a permutation chosen by the runtime.  The
result is `none` when the call panics. -/
def PathValueTries.Get {T : Type} [Value T] (tries : Option (PathValueTries T))
    (key : GoString) (rangeOrder : List T → List T) : Option (List T) :=
  match tries with
  | none => some []
  | some g =>
    if g.pvTries.length = 0 then some []
    else
      let resultsMap := mergeTries g.pvTries key
      let results := rangeOrder (resultsMap.map Prod.snd)
      rankResults g.maxResultsLen results

/-! ## A concrete payload type (`example/data_loader.go`) -/

/-- Go `MyValue`. -/
structure MyValue where
  Q : GoString
  Score : Float32
  GameId : Int
deriving DecidableEq

instance : Value MyValue where
  GetQ v := v.Q
  GetScore v := v.Score

/-! ## Vocabulary of the properties -/

/-- The children sequence is strictly ascending by code point. -/
def ChildrenSorted {T : Type} (children : List (pathValueTrieNode T)) : Prop :=
  (children.map pathValueTrieNode.r).Pairwise (· < ·)

/-- The property `P` holds of the node and of every node below it. -/
inductive pathValueTrieNode.All {T : Type} (P : pathValueTrieNode T → Prop) :
    pathValueTrieNode T → Prop
  | intro (node : pathValueTrieNode T) :
      P node → (∀ c, c ∈ node.children → pathValueTrieNode.All P c) →
      pathValueTrieNode.All P node

/-- Every node at or below `node` has a strictly ascending children sequence. -/
def AllSorted {T : Type} (node : pathValueTrieNode T) : Prop :=
  pathValueTrieNode.All (fun n => ChildrenSorted n.children) node

/-- The empty `values` slice of a node literal: `make([]*T, 0, min(4, maxLen))`. -/
def freshValues {T : Type} (maxLen : Int) : Slice T :=
  { elems := [], cap := (min 4 maxLen).toNat }

/-- The child that the binary search of `Put` and `Get` selects for `r`, if any. -/
def childAt {T : Type} (children : List (pathValueTrieNode T)) (r : rune) :
    Option (pathValueTrieNode T) :=
  match children[searchChild children r]? with
  | some child => if child.r = r then some child else none
  | none => none

/-- Two scores are finite (neither an infinity nor a NaN) and equal or at least `1e-6`
apart (as real numbers: the difference is `n` units of `2^-149`, and
`1e-6 ≤ n * 2^-149`). -/
def Separated : Float32 → Float32 → Prop
  | .finite x, .finite y => x = y ∨ 2 ^ 149 ≤ 10 ^ 6 * (x - y).natAbs
  | .finite _, .inf _ => False
  | .finite _, .nan => False
  | .inf _, _ => False
  | .nan, _ => False

instance (a b : Float32) : Decidable (Separated a b) := by
  cases a <;> cases b <;> unfold Separated <;> infer_instance

/-- The score is a number: neither an infinity nor a NaN. -/
def Float32.isFinite : Float32 → Bool
  | .finite _ => true
  | .inf _ => false
  | .nan => false

/-- The `float32` comparison `a <= b`: false whenever an operand is a NaN. -/
def Float32.le : Float32 → Float32 → Bool
  | .finite x, .finite y => decide (x ≤ y)
  | .finite _, .inf s => !s
  | .inf s, .finite _ => s
  | .inf s, .inf s2 => s || !s2
  | .nan, _ => false
  | .finite _, .nan => false
  | .inf _, .nan => false

instance : LE Float32 := ⟨fun a b => Float32.le a b = true⟩

instance (a b : Float32) : Decidable (a ≤ b) := by
  show Decidable (Float32.le a b = true); infer_instance

/-- The absolute value of a `float32`. -/
def Float32.abs : Float32 → Float32
  | .finite x => .finite |x|
  | .inf _ => .inf false
  | .nan => .nan

/-- The call `Put(key, value)` passes the validation at the head of `Put`. -/
def accepts {T : Type} [Value T] (key : GoString) (value : Option T) : Bool :=
  utf8.ValidString key &&
    match value with
    | none => false
    | some v => decide ((GetQ v).length ≠ 0)

/-- The payloads of the calls that pass the validation and whose key has the rune
sequence `p` as an initial segment, in call order. -/
def matching {T : Type} [Value T] (p : List rune) (calls : List (GoString × Option T)) :
    List T :=
  calls.filterMap fun c =>
    match c.2 with
    | none => none
    | some v => if accepts c.1 c.2 = true ∧ p <+: runes c.1 then some v else none

/-- The list a node holds after `updateValue` has been applied to it for each payload
of `vs` in turn, starting from `s`; `none` when one of the updates panics. -/
def replay {T : Type} [Value T] (maxLen : Int) : Slice T → List T → Option (Slice T)
  | s, [] => some s
  | s, v :: vs => (updateValue maxLen s v).bind fun s1 => replay maxLen s1 vs

/-- The `values` slice of the node that `Get` reaches along `p`, if there is one. -/
def slot {T : Type} (node : pathValueTrieNode T) (p : List rune) : Option (Slice T) :=
  (getLoop p node).map pathValueTrieNode.values

/-- The reference of the top-K claim, in the words of the specification: the
candidates sorted descending by the comparator, truncated to the first `maxLen`. -/
def rankedTop {T : Type} [Value T] (maxLen : Int) (candidates : List T) : List T :=
  (candidates.insertionSort (fun a b => valueCompare a b = true)).take maxLen.toNat

/-- The result of `Get` for the key whose code points are `p`
(`Get key = lookup (runes key)` by definition). -/
def PathValueTrie.lookup {T : Type} (trie : PathValueTrie T) (p : List rune) : List T :=
  match getLoop p trie.root with
  | none => []
  | some node => node.values.elems

/-- The invariant of the merge loop of the group `Get`, for the set `seen` of the
payloads merged so far: the keys of the map are distinct, every entry is a merged
payload stored under its query text, and every merged payload finds under its query
text an entry that, when the scores merged so far are all finite, it does not compare
better than. -/
def MergeInv {T : Type} [Value T] (resultsMap : List (GoString × T)) (seen : T → Prop) : Prop :=
  (resultsMap.map Prod.fst).Nodup ∧
  (∀ e, e ∈ resultsMap → GetQ e.2 = e.1 ∧ seen e.2) ∧
  (∀ c, seen c → ∃ x, mapGet resultsMap (GetQ c) = some x ∧
    ((∀ d, seen d → (GetScore d).isFinite = true) → valueCompare c x = false))

/-- The payload `c` is returned by the `Get(key)` of a member trie. -/
def Candidate {T : Type} (pvTries : List (PathValueTrie T)) (key : GoString) (c : T) : Prop :=
  ∃ t, t ∈ pvTries ∧ c ∈ t.Get key

/-- The ranking key of a payload: its query text and its score, which is all the
comparator reads of a payload. -/
def rankKey {T : Type} [Value T] (v : T) : GoString × Float32 := (GetQ v, GetScore v)

instance : Value (GoString × Float32) where
  GetQ p := p.1
  GetScore p := p.2

/-- The list of the merge specification for a group and a key: sorted descending by the
comparator, one entry per query text occurring among the candidates, each entry a best
candidate of its query text (no candidate with that query text compares better). -/
def RankedUnion {T : Type} [Value T] (pvTries : List (PathValueTrie T)) (key : GoString)
    (L : List T) : Prop :=
  L.Pairwise (fun a b => valueCompare a b = true) ∧
  (L.map GetQ).Nodup ∧
  (∀ q, q ∈ L.map GetQ ↔ ∃ c, Candidate pvTries key c ∧ GetQ c = q) ∧
  (∀ e, e ∈ L → Candidate pvTries key e ∧
    ∀ c, Candidate pvTries key c → GetQ c = GetQ e → valueCompare c e = false)

/-- The lists of a trie of capacity `2^63 - 1`: the backing array of four slots of the
node literal, never replaced, holding at most four entries with distinct query texts. -/
def FourSlots {T : Type} [Value T] (s : Slice T) : Prop :=
  s.cap = 4 ∧ s.elems.length ≤ 4 ∧ (s.elems.map GetQ).Nodup

/-- Every query text in the list of a child of the node is in the list of the node. -/
def ChildrenNested {T : Type} [Value T] (n : pathValueTrieNode T) : Prop :=
  ∀ c, c ∈ n.children → ∀ e, e ∈ c.values.elems →
    ∃ e2, e2 ∈ n.values.elems ∧ GetQ e2 = GetQ e

/-- The invariant of the nodes below the root of a trie of capacity `2^63 - 1`, where no
list is ever expanded, full or truncated. -/
def MaxIntInv {T : Type} [Value T] (node : pathValueTrieNode T) : Prop :=
  pathValueTrieNode.All (fun n => FourSlots n.values ∧ ChildrenNested n) node

/-- The invariant of a trie: a non-negative capacity, an untouched root list, sorted
children and lists within capacity everywhere, and no node at all below the root
when the capacity is zero. -/
def WellFormed {T : Type} (t : PathValueTrie T) : Prop :=
  0 ≤ t.maxLen ∧ t.root.values = freshValues t.maxLen ∧ AllSorted t.root ∧
  pathValueTrieNode.All (fun n => (n.values.elems.length : Int) ≤ t.maxLen) t.root ∧
  (1 ≤ t.maxLen ∨ t.root.children = [])

/-- A state reached from `NewPathValueTrie(maxLen)`, for a value `maxLen` of the 64-bit
Go type `int`, by a sequence of `Put` calls that all returned. -/
def Reachable {T : Type} [Value T] (t : PathValueTrie T) : Prop :=
  ∃ (maxLen : Int) (t0 : PathValueTrie T) (calls : List (GoString × Option T))
    (bs : List Bool),
    maxLen < 2 ^ 63 ∧ NewPathValueTrie maxLen = some t0 ∧ t0.PutAll calls = some (bs, t)

/-! ## Concrete inputs -/

/-- The key `"ab"`. -/
def keyAB : GoString := [0x61, 0x62]

/-- The key `"a"`. -/
def keyA : GoString := [0x61]

/-- Payload `(q = "x", score = 1.0)`. -/
def payloadX : MyValue := { Q := [0x78], Score := Float32.ofScaled 1 149, GameId := 1 }

/-- Payload `(q = "y", score = 2.0)`. -/
def payloadY : MyValue := { Q := [0x79], Score := Float32.ofScaled 1 150, GameId := 2 }

/-- Payload `(q = "z", score = 1.5)`. -/
def payloadZ : MyValue := { Q := [0x7A], Score := Float32.ofScaled 3 148, GameId := 3 }

/-- The calls of the capacity example: `x`, `y`, `z` at key `"ab"`. -/
def capacityCalls : List (GoString × MyValue) :=
  [(keyAB, payloadX), (keyAB, payloadY), (keyAB, payloadZ)]

/-- Payload `(q = "x", score = 3.0)`: the query text of `payloadX`, a higher score. -/
def payloadX3 : MyValue := { Q := [0x78], Score := Float32.ofScaled 3 149, GameId := 4 }

/-- The trie `NewPathValueTrie(1)`. -/
def trieEmpty1 : PathValueTrie MyValue :=
  { root := .mk 0 (freshValues 1) [], maxLen := 1 }

/-- The trie `NewPathValueTrie(1)` after `Put("a", x)`: one node `a` holding `[x]`. -/
def trieAX : PathValueTrie MyValue :=
  { root := .mk 0 (freshValues 1) [.mk 0x61 { elems := [payloadX], cap := 1 } []],
    maxLen := 1 }

/-- The trie `NewPathValueTrie(1)` after `Put("a", y)`: one node `a` holding `[y]`. -/
def trieAY : PathValueTrie MyValue :=
  { root := .mk 0 (freshValues 1) [.mk 0x61 { elems := [payloadY], cap := 1 } []],
    maxLen := 1 }

/-- The trie `trieAY` after `Put("a", (x, 3.0))`: the node `a` holds `[(x, 3.0)]`. -/
def trieAX3 : PathValueTrie MyValue :=
  { root := .mk 0 (freshValues 1) [.mk 0x61 { elems := [payloadX3], cap := 2 } []],
    maxLen := 1 }

/-- Payload `(q = "c", score = 0)`. -/
def payloadC0 : MyValue := { Q := [0x63], Score := Float32.finite 0, GameId := 5 }

/-- Payload `(q = "b", score = 2^-20)`, about `9.5e-7`. -/
def payloadB1 : MyValue := { Q := [0x62], Score := Float32.ofScaled 1 129, GameId := 6 }

/-- Payload `(q = "a", score = 2^-19)`, about `1.9e-6`. -/
def payloadA2 : MyValue := { Q := [0x61], Score := Float32.ofScaled 1 130, GameId := 7 }

/-- The final trie of a sequence of calls on `NewPathValueTrie(maxLen)`. -/
def build (maxLen : Int) (calls : List (GoString × Option MyValue)) :
    Option (PathValueTrie MyValue) :=
  (NewPathValueTrie maxLen).bind fun t0 => (t0.PutAll calls).map Prod.snd

/-- The key `"K"`. -/
def keyK : GoString := [0x4B]

/-- Payload `(q = "foo", score = 5)`. -/
def payloadFoo5 : MyValue :=
  { Q := [0x66, 0x6F, 0x6F], Score := Float32.ofScaled 5 149, GameId := 8 }

/-- Payload `(q = "foo", score = 8)`. -/
def payloadFoo8 : MyValue :=
  { Q := [0x66, 0x6F, 0x6F], Score := Float32.ofScaled 1 152, GameId := 9 }

/-- The trie `NewPathValueTrie(1)` after `Put("K", (foo, 5))`. -/
def trieFoo5 : PathValueTrie MyValue :=
  { root := .mk 0 (freshValues 1) [.mk 0x4B { elems := [payloadFoo5], cap := 1 } []],
    maxLen := 1 }

/-- The trie `NewPathValueTrie(1)` after `Put("K", (foo, 8))`. -/
def trieFoo8 : PathValueTrie MyValue :=
  { root := .mk 0 (freshValues 1) [.mk 0x4B { elems := [payloadFoo8], cap := 1 } []],
    maxLen := 1 }

/-- The group `NewPathValueTries([trieFoo5, trieFoo8], 2)`. -/
def groupFoo : PathValueTries MyValue :=
  { pvTries := [trieFoo5, trieFoo8], maxResultsLen := 2 }

/-- Payload `(q = "a", score = +Inf)`. -/
def payloadInfA : MyValue := { Q := [0x61], Score := Float32.inf false, GameId := 10 }

/-- Payload `(q = "b", score = +Inf)`. -/
def payloadInfB : MyValue := { Q := [0x62], Score := Float32.inf false, GameId := 11 }

/-- The trie `NewPathValueTrie(3)` after `Put("K", (a, +Inf))` and `Put("K", (b, +Inf))`:
one node `K` holding `[a, b]`. -/
def trieInf : PathValueTrie MyValue :=
  { root := .mk 0 (freshValues 3)
      [.mk 0x4B { elems := [payloadInfA, payloadInfB], cap := 3 } []],
    maxLen := 3 }

/-- The group `NewPathValueTries([trieInf], 2)`. -/
def groupInf : PathValueTries MyValue :=
  { pvTries := [trieInf], maxResultsLen := 2 }

/-- Payload `(q = "foo", score = +Inf)`, first of two. -/
def payloadFooInfA : MyValue :=
  { Q := [0x66, 0x6F, 0x6F], Score := Float32.inf false, GameId := 12 }

/-- Payload `(q = "foo", score = +Inf)`, second of two. -/
def payloadFooInfB : MyValue :=
  { Q := [0x66, 0x6F, 0x6F], Score := Float32.inf false, GameId := 13 }

/-- The trie `NewPathValueTrie(1)` after `Put("K", payloadFooInfA)`. -/
def trieFooInfA : PathValueTrie MyValue :=
  { root := .mk 0 (freshValues 1) [.mk 0x4B { elems := [payloadFooInfA], cap := 1 } []],
    maxLen := 1 }

/-- The trie `NewPathValueTrie(1)` after `Put("K", payloadFooInfB)`. -/
def trieFooInfB : PathValueTrie MyValue :=
  { root := .mk 0 (freshValues 1) [.mk 0x4B { elems := [payloadFooInfB], cap := 1 } []],
    maxLen := 1 }

/-- The group `NewPathValueTries([trieFooInfA, trieFooInfB], 2)`. -/
def groupFooInf : PathValueTries MyValue :=
  { pvTries := [trieFooInfA, trieFooInfB], maxResultsLen := 2 }

/-- Payload `(q = "a", score = float32(1e-6))`: the score is the constant of the source,
`8796093 * 2^-43`, which is less than the real number `1e-6`. -/
def payloadEps : MyValue := { Q := [0x61], Score := epsilon, GameId := 14 }

/-- The trie `NewPathValueTrie(3)` after the calls of `capacityCalls`: the nodes `a` and
`ab` hold `[y, z, x]`. -/
def trieCap3 : PathValueTrie MyValue :=
  { root := .mk 0 (freshValues 3)
      [.mk 0x61 { elems := [payloadY, payloadZ, payloadX], cap := 3 }
        [.mk 0x62 { elems := [payloadY, payloadZ, payloadX], cap := 3 } []]],
    maxLen := 3 }

/-- The trie `NewPathValueTrie(3)` after `Put("ab", (x, 3.0))`. -/
def trieABX3 : PathValueTrie MyValue :=
  { root := .mk 0 (freshValues 3)
      [.mk 0x61 { elems := [payloadX3], cap := 3 }
        [.mk 0x62 { elems := [payloadX3], cap := 3 } []]],
    maxLen := 3 }

/-- The group `NewPathValueTries([trieCap3, trieABX3], 2)`. -/
def groupRank : PathValueTries MyValue :=
  { pvTries := [trieCap3, trieABX3], maxResultsLen := 2 }

/-- Five calls at key `"a"` with five query texts. -/
def fiveCalls : List (GoString × Option MyValue) :=
  [(keyA, some payloadX), (keyA, some payloadY), (keyA, some payloadZ),
    (keyA, some payloadC0), (keyA, some payloadB1)]

/-! ## Scores and the comparator -/

theorem bitLen_spec : ∀ (fuel m : Nat), m ≤ fuel →
    m < 2 ^ bitLen fuel m ∧ (m ≠ 0 → 2 ^ (bitLen fuel m - 1) ≤ m) := by
  intro fuel
  induction fuel with
  | zero =>
    intro m hm
    have : m = 0 := by omega
    subst this
    simp [bitLen]
  | succ n ih =>
    intro m hm
    by_cases h0 : m = 0
    · subst h0; simp [bitLen]
    · have hdiv : m / 2 ≤ n := by omega
      obtain ⟨h1, h2⟩ := ih (m / 2) hdiv
      simp only [bitLen, h0, if_false, Nat.add_sub_cancel]
      constructor
      · rw [pow_succ]; omega
      · intro _
        by_cases h3 : m / 2 = 0
        · have : bitLen n (m / 2) = 0 := by
            rw [h3]; cases n <;> simp [bitLen]
          rw [this]; simp; omega
        · have h4 := h2 h3
          have h5 : 1 ≤ bitLen n (m / 2) := by
            cases n with
            | zero => omega
            | succ k => simp [bitLen, h3]
          have : 2 ^ bitLen n (m / 2) = 2 * 2 ^ (bitLen n (m / 2) - 1) := by
            rw [← pow_succ']; congr 1; omega
          rw [this]; omega

theorem epsilon_eq : epsilon = Float32.finite ((8796093 * 2 ^ 106 : Nat) : Int) := by
  simp [epsilon, Float32.ofScaled]

theorem roundNat_zero : Float32.roundNat 0 = 0 := by
  simp [Float32.roundNat]

theorem lt_finite (x y : Int) : Float32.finite x < Float32.finite y ↔ x < y := by
  show Float32.lt (Float32.finite x) (Float32.finite y) = true ↔ x < y
  simp [Float32.lt]

theorem isFinite_iff (s : Float32) : s.isFinite = true ↔ ∃ x, s = Float32.finite x := by
  cases s with
  | finite x => simp [Float32.isFinite]
  | inf b => simp [Float32.isFinite]
  | nan => simp [Float32.isFinite]

theorem separated_iff (a b : Float32) :
    Separated a b ↔ ∃ x y, a = Float32.finite x ∧ b = Float32.finite y ∧
      (x = y ∨ 2 ^ 149 ≤ 10 ^ 6 * (x - y).natAbs) := by
  cases a <;> cases b <;> simp [Separated]

theorem separated_isFinite (a b : Float32) (h : Separated a b) :
    a.isFinite = true ∧ b.isFinite = true := by
  obtain ⟨x, y, rfl, rfl, _⟩ := (separated_iff a b).mp h
  exact ⟨rfl, rfl⟩

theorem roundNat_ge_epsilon (m : Nat) (hm : 8796093 * 2 ^ 106 ≤ m) :
    8796093 * 2 ^ 106 ≤ Float32.roundNat m := by
  unfold Float32.roundNat
  have h24 : ¬ m < 2 ^ 24 := by
    have : (2:Nat) ^ 24 ≤ 8796093 * 2 ^ 106 := by norm_num
    omega
  rw [if_neg h24]
  obtain ⟨hb1, hb2⟩ := bitLen_spec m m le_rfl
  have hm0 : m ≠ 0 := by
    have : 0 < 8796093 * 2 ^ 106 := by norm_num
    omega
  have hb2 := hb2 hm0
  set b := bitLen m m with hb
  have hb130 : 130 ≤ b := by
    by_contra hlt
    have : b ≤ 129 := by omega
    have h2 : (2:Nat) ^ b ≤ 2 ^ 129 := Nat.pow_le_pow_right (by norm_num) this
    have h3 : (2:Nat) ^ 129 ≤ 8796093 * 2 ^ 106 := by norm_num
    omega
  have key : 8796093 * 2 ^ 106 ≤ m / 2 ^ (b - 24) * 2 ^ (b - 24) := by
    rcases Nat.eq_or_lt_of_le hb130 with h130 | hgt
    · have hk : b - 24 = 106 := by omega
      rw [hk]
      have : 8796093 ≤ m / 2 ^ 106 := by
        rw [Nat.le_div_iff_mul_le (by positivity)]; exact hm
      exact Nat.mul_le_mul_right _ this
    · have hq : 2 ^ 23 ≤ m / 2 ^ (b - 24) := by
        rw [Nat.le_div_iff_mul_le (by positivity), ← pow_add]
        have : 23 + (b - 24) = b - 1 := by omega
        rw [this]; exact hb2
      have h1 : 2 ^ 23 * 2 ^ (b - 24) ≤ m / 2 ^ (b - 24) * 2 ^ (b - 24) :=
        Nat.mul_le_mul_right _ hq
      have h2 : (2:Nat) ^ 23 * 2 ^ 107 ≤ 2 ^ 23 * 2 ^ (b - 24) :=
        Nat.mul_le_mul_left _ (Nat.pow_le_pow_right (by norm_num) (by omega))
      have h3 : 8796093 * 2 ^ 106 ≤ (2:Nat) ^ 23 * 2 ^ 107 := by norm_num
      omega
  refine le_trans key (Nat.mul_le_mul_right _ ?_)
  show m / 2 ^ (b - 24) ≤ if _ then _ else _
  split
  · exact Nat.le_succ _
  · exact le_rfl


theorem round_of_lt (x : Int) (h : Float32.roundNat x.natAbs < 2 ^ 128 * 2 ^ 149) :
    Float32.round x
      = Float32.finite (if x < 0 then -(Float32.roundNat x.natAbs : Int)
          else (Float32.roundNat x.natAbs : Int)) := by
  unfold Float32.round
  simp only []
  rw [if_pos h]

theorem round_of_ge (x : Int) (h : ¬ Float32.roundNat x.natAbs < 2 ^ 128 * 2 ^ 149) :
    Float32.round x = Float32.inf (decide (x < 0)) := by
  unfold Float32.round
  simp only []
  rw [if_neg h]

theorem sub_finite (x y : Int) :
    Float32.finite x - Float32.finite y = Float32.round (x - y) := rfl

/-- On finite scores `floatEqual` compares the rounded magnitude of the exact
difference with the constant. -/
theorem floatEqual_finite (x y : Int) :
    floatEqual (Float32.finite x) (Float32.finite y)
      = decide (Float32.roundNat (x - y).natAbs < 8796093 * 2 ^ 106) := by
  unfold floatEqual
  simp only [sub_finite]
  by_cases hr : Float32.roundNat (x - y).natAbs < 2 ^ 128 * 2 ^ 149
  · rw [round_of_lt _ hr]
    generalize Float32.roundNat (x - y).natAbs = R
    have habs : (if Float32.finite (if x - y < 0 then -(R : Int) else (R : Int)) < Float32.finite 0
          then -Float32.finite (if x - y < 0 then -(R : Int) else (R : Int))
          else Float32.finite (if x - y < 0 then -(R : Int) else (R : Int)))
        = Float32.finite (R : Int) := by
      by_cases hneg : x - y < 0
      · simp only [hneg, if_true]
        by_cases hR : -(R : Int) < 0
        · rw [if_pos ((lt_finite _ _).mpr hR)]
          show Float32.finite (- -(R : Int)) = _
          rw [neg_neg]
        · rw [if_neg (fun h => hR ((lt_finite _ _).mp h))]
          have : (R : Int) = 0 := by omega
          rw [this]; rfl
      · simp only [hneg, if_false]
        have hR : ¬ ((R : Int) < 0) := by omega
        rw [if_neg (fun h => hR ((lt_finite _ _).mp h))]
    rw [habs, epsilon_eq]
    congr 1
    apply propext
    rw [lt_finite]
    exact Nat.cast_lt
  · rw [round_of_ge _ hr]
    have hfalse : ¬ Float32.roundNat (x - y).natAbs < 8796093 * 2 ^ 106 := by
      have : (8796093 * 2 ^ 106 : Nat) ≤ 2 ^ 128 * 2 ^ 149 := by norm_num
      omega
    rw [decide_eq_false hfalse]
    cases decide (x - y < 0) <;> rfl

theorem floatEqual_not_finite (a b : Float32)
    (h : a.isFinite = false ∨ b.isFinite = false) : floatEqual a b = false := by
  cases a with
  | finite x =>
    cases b with
    | finite y => simp [Float32.isFinite] at h
    | inf s => cases s <;> rfl
    | nan => rfl
  | inf s =>
    cases b with
    | finite y => cases s <;> rfl
    | inf s2 => cases s <;> cases s2 <;> rfl
    | nan => rfl
  | nan => rfl

theorem floatEqual_comm (a b : Float32) : floatEqual a b = floatEqual b a := by
  by_cases ha : a.isFinite = true
  · by_cases hb : b.isFinite = true
    · obtain ⟨x, rfl⟩ := (isFinite_iff a).mp ha
      obtain ⟨y, rfl⟩ := (isFinite_iff b).mp hb
      rw [floatEqual_finite, floatEqual_finite]
      have : (x - y).natAbs = (y - x).natAbs := by omega
      rw [this]
    · have hb : b.isFinite = false := by simpa using hb
      rw [floatEqual_not_finite a b (Or.inr hb), floatEqual_not_finite b a (Or.inl hb)]
  · have ha : a.isFinite = false := by simpa using ha
    rw [floatEqual_not_finite a b (Or.inl ha), floatEqual_not_finite b a (Or.inr ha)]

theorem floatEqual_self (x : Int) :
    floatEqual (Float32.finite x) (Float32.finite x) = true := by
  rw [floatEqual_finite]
  simp [roundNat_zero]

theorem floatEqual_self_of (a : Float32) (ha : a.isFinite = true) : floatEqual a a = true := by
  obtain ⟨x, rfl⟩ := (isFinite_iff a).mp ha
  exact floatEqual_self x

theorem floatEqual_of_far (a b : Int) (h : 2 ^ 149 ≤ 10 ^ 6 * |a - b|) :
    floatEqual (Float32.finite a) (Float32.finite b) = false := by
  rw [floatEqual_finite]
  have h1 : 8796093 * 2 ^ 106 ≤ (a - b).natAbs := by
    have h2 : ((a - b).natAbs : Int) = |a - b| := Int.natCast_natAbs _
    rw [← h2] at h
    have h3 : 2 ^ 149 ≤ 10 ^ 6 * (a - b).natAbs := by exact_mod_cast h
    have h4 : (8796093 * 10 ^ 6 : Nat) ≤ 2 ^ 43 := by norm_num
    by_contra hlt
    push_neg at hlt
    have h5 : 10 ^ 6 * (a - b).natAbs < 10 ^ 6 * (8796093 * 2 ^ 106) :=
      Nat.mul_lt_mul_of_pos_left hlt (by norm_num)
    have h6 : 10 ^ 6 * (8796093 * 2 ^ 106) ≤ (2:Nat) ^ 149 := by norm_num
    omega
  have := roundNat_ge_epsilon _ h1
  simp only [decide_eq_false_iff_not, not_lt]
  exact this

theorem floatEqual_of_separated (a b : Float32) (h : Separated a b) :
    floatEqual a b = decide (a = b) := by
  obtain ⟨x, y, rfl, rfl, h⟩ := (separated_iff a b).mp h
  rcases h with h | h
  · subst h; simp [floatEqual_self]
  · have hne : x ≠ y := by
      intro hab; subst hab; simp at h
    rw [floatEqual_of_far x y]
    · simp [hne]
    · have h2 : ((x - y).natAbs : Int) = |x - y| := Int.natCast_natAbs _
      rw [← h2]; exact_mod_cast h

/-- The comparator on all scores, the infinities and NaN included. -/
theorem valueCompare_iff_all {T : Type} [Value T] (a b : T) :
    valueCompare a b = true ↔
      (floatEqual (GetScore a) (GetScore b) = false ∧ ¬ GetScore a < GetScore b) ∨
      (floatEqual (GetScore a) (GetScore b) = true ∧ GetQ b < GetQ a) := by
  unfold valueCompare floatCompare
  generalize GetScore a = sa
  generalize GetScore b = sb
  by_cases he : floatEqual sa sb = true
  · simp [he]
  · have he2 : floatEqual sa sb = false := by simpa using he
    by_cases hlt : sa < sb
    · simp [he2, hlt]
    · simp [he2, hlt]

theorem valueCompare_iff {T : Type} [Value T] (a b : T)
    (ha : (GetScore a).isFinite = true) (hb : (GetScore b).isFinite = true) :
    valueCompare a b = true ↔
      (floatEqual (GetScore a) (GetScore b) = false ∧ GetScore b < GetScore a) ∨
      (floatEqual (GetScore a) (GetScore b) = true ∧ GetQ b < GetQ a) := by
  rw [valueCompare_iff_all]
  obtain ⟨x, hx⟩ := (isFinite_iff _).mp ha
  obtain ⟨y, hy⟩ := (isFinite_iff _).mp hb
  rw [hx, hy, lt_finite, lt_finite]
  constructor
  · rintro (⟨h1, h2⟩ | h)
    · refine Or.inl ⟨h1, ?_⟩
      have hne : x ≠ y := by
        intro h; subst h; rw [floatEqual_self] at h1; exact Bool.noConfusion h1
      omega
    · exact Or.inr h
  · rintro (⟨h1, h2⟩ | h)
    · exact Or.inl ⟨h1, by omega⟩
    · exact Or.inr h

theorem valueCompare_irrefl {T : Type} [Value T] (a : T) (ha : (GetScore a).isFinite = true) :
    valueCompare a a = false := by
  by_contra h
  have h1 : valueCompare a a = true := by simpa using h
  rw [valueCompare_iff_all, floatEqual_self_of _ ha] at h1
  rcases h1 with ⟨h2, _⟩ | ⟨_, h2⟩
  · exact Bool.noConfusion h2
  · exact lt_irrefl _ h2

theorem valueCompare_asymm {T : Type} [Value T] (a b : T)
    (ha : (GetScore a).isFinite = true) (hb : (GetScore b).isFinite = true)
    (h : valueCompare a b = true) : valueCompare b a = false := by
  by_contra h2
  have h2 : valueCompare b a = true := by simpa using h2
  rw [valueCompare_iff a b ha hb] at h
  rw [valueCompare_iff b a hb ha, floatEqual_comm (GetScore b) (GetScore a)] at h2
  obtain ⟨x, hx⟩ := (isFinite_iff _).mp ha
  obtain ⟨y, hy⟩ := (isFinite_iff _).mp hb
  rw [hx, hy, lt_finite] at h h2
  rcases h with ⟨e1, l1⟩ | ⟨e1, l1⟩ <;> rcases h2 with ⟨e2, l2⟩ | ⟨e2, l2⟩
  · exact lt_asymm l1 l2
  · rw [e1] at e2; exact Bool.noConfusion e2
  · rw [e1] at e2; exact Bool.noConfusion e2
  · exact lt_asymm l1 l2

theorem lt_asymm_all (a b : Float32) (h : a < b) : ¬ b < a := by
  change Float32.lt a b = true at h
  change ¬ Float32.lt b a = true
  cases a <;> cases b <;> simp_all [Float32.lt]
  omega

/-- Totality on distinct query texts holds for all scores. -/
theorem valueCompare_total {T : Type} [Value T] (a b : T) (h : GetQ a ≠ GetQ b) :
    valueCompare a b = true ∨ valueCompare b a = true := by
  rw [valueCompare_iff_all, valueCompare_iff_all, floatEqual_comm (GetScore b) (GetScore a)]
  by_cases he : floatEqual (GetScore a) (GetScore b) = true
  · rcases lt_or_gt_of_ne h with hl | hl
    · right; right; exact ⟨he, hl⟩
    · left; right; exact ⟨he, hl⟩
  · have he2 : floatEqual (GetScore a) (GetScore b) = false := by simpa using he
    by_cases hlt : GetScore a < GetScore b
    · right; left; exact ⟨he2, lt_asymm_all _ _ hlt⟩
    · left; left; exact ⟨he2, hlt⟩

theorem valueCompare_iff_of_separated {T : Type} [Value T] (a b : T)
    (h : Separated (GetScore a) (GetScore b)) :
    valueCompare a b = true ↔
      GetScore b < GetScore a ∨ (GetScore a = GetScore b ∧ GetQ b < GetQ a) := by
  obtain ⟨ha, hb⟩ := separated_isFinite _ _ h
  rw [valueCompare_iff a b ha hb, floatEqual_of_separated _ _ h]
  obtain ⟨x, hx⟩ := (isFinite_iff _).mp ha
  obtain ⟨y, hy⟩ := (isFinite_iff _).mp hb
  rw [hx, hy, lt_finite]
  constructor
  · rintro (⟨_, h2⟩ | ⟨h1, h2⟩)
    · exact Or.inl h2
    · exact Or.inr ⟨by simpa using h1, h2⟩
  · rintro (h2 | ⟨h1, h2⟩)
    · refine Or.inl ⟨?_, h2⟩
      have hne : x ≠ y := by omega
      simpa using hne
    · exact Or.inr ⟨by simpa using h1, h2⟩

theorem valueCompare_trans_of_separated {T : Type} [Value T] (a b c : T)
    (hab : Separated (GetScore a) (GetScore b)) (hbc : Separated (GetScore b) (GetScore c))
    (hac : Separated (GetScore a) (GetScore c))
    (h1 : valueCompare a b = true) (h2 : valueCompare b c = true) :
    valueCompare a c = true := by
  rw [valueCompare_iff_of_separated _ _ hab] at h1
  rw [valueCompare_iff_of_separated _ _ hbc] at h2
  rw [valueCompare_iff_of_separated _ _ hac]
  obtain ⟨ha, hb⟩ := separated_isFinite _ _ hab
  obtain ⟨_, hc⟩ := separated_isFinite _ _ hbc
  obtain ⟨x, hx⟩ := (isFinite_iff _).mp ha
  obtain ⟨y, hy⟩ := (isFinite_iff _).mp hb
  obtain ⟨z, hz⟩ := (isFinite_iff _).mp hc
  rw [hx, hy] at h1
  rw [hy, hz] at h2
  rw [hx, hz]
  simp only [lt_finite, Float32.finite.injEq] at h1 h2 ⊢
  rcases h1 with h1 | ⟨e1, q1⟩ <;> rcases h2 with h2 | ⟨e2, q2⟩
  · exact Or.inl (lt_trans h2 h1)
  · exact Or.inl (by rw [← e2]; exact h1)
  · exact Or.inl (by rw [e1]; exact h2)
  · exact Or.inr ⟨e1.trans e2, lt_trans q2 q1⟩

/-! ## Binary search over the children -/

theorem searchLoop_spec (f : Nat → Bool) (n : Nat)
    (mono : ∀ a b, a ≤ b → b < n → f a = true → f b = true) :
    ∀ fuel i j, i ≤ j → j ≤ n → j - i ≤ fuel →
      (∀ k, k < i → f k = false) → (∀ k, j ≤ k → k < n → f k = true) →
      (sort.searchLoop f fuel i j ≤ n ∧
        (∀ k, k < sort.searchLoop f fuel i j → f k = false) ∧
        (∀ k, sort.searchLoop f fuel i j ≤ k → k < n → f k = true)) := by
  intro fuel
  induction fuel with
  | zero =>
    intro i j hij hjn hfuel hlo hhi
    have : i = j := by omega
    subst this
    simp only [sort.searchLoop]
    exact ⟨hjn, hlo, hhi⟩
  | succ m ih =>
    intro i j hij hjn hfuel hlo hhi
    simp only [sort.searchLoop]
    by_cases hlt : i < j
    · simp only [hlt, if_true]
      have hh1 : i ≤ (i + j) / 2 := by omega
      have hh2 : (i + j) / 2 < j := by omega
      by_cases hf : f ((i + j) / 2) = true
      · simp only [hf, Bool.not_true, Bool.false_eq_true, if_false]
        apply ih i ((i + j) / 2) hh1 (by omega) (by omega) hlo
        intro k hk hkn
        exact mono _ _ hk hkn hf
      · have hf2 : f ((i + j) / 2) = false := by simpa using hf
        simp only [hf2, Bool.not_false, if_true]
        apply ih ((i + j) / 2 + 1) j (by omega) hjn (by omega) _ hhi
        intro k hk
        by_contra hfk
        have hfk : f k = true := by simpa using hfk
        have := mono k ((i + j) / 2) (by omega) (by omega) hfk
        rw [hf2] at this; exact Bool.noConfusion this
    · simp only [hlt, if_false]
      have : i = j := by omega
      subst this
      exact ⟨hjn, hlo, hhi⟩

theorem Search_spec (f : Nat → Bool) (n : Nat)
    (mono : ∀ a b, a ≤ b → b < n → f a = true → f b = true) :
    sort.Search n f ≤ n ∧ (∀ k, k < sort.Search n f → f k = false) ∧
      (∀ k, sort.Search n f ≤ k → k < n → f k = true) := by
  unfold sort.Search
  apply searchLoop_spec f n mono n 0 n (Nat.zero_le _) le_rfl (by omega)
  · intro k hk; omega
  · intro k hk hkn; omega

theorem searchChild_spec {T : Type} (cs : List (pathValueTrieNode T)) (hs : ChildrenSorted cs)
    (r : rune) :
    searchChild cs r ≤ cs.length ∧ (∀ x, x ∈ cs.take (searchChild cs r) → x.r < r) ∧
      (∀ x, x ∈ cs.drop (searchChild cs r) → r ≤ x.r) := by
  have hlen : (cs.map pathValueTrieNode.r).length = cs.length := List.length_map _ _
  have mono : ∀ a b, a ≤ b → b < cs.length →
      decide ((cs.map pathValueTrieNode.r).getD a 0 ≥ r) = true →
      decide ((cs.map pathValueTrieNode.r).getD b 0 ≥ r) = true := by
    intro a b hab hb ha
    have ha' : a < (cs.map pathValueTrieNode.r).length := by omega
    have hb' : b < (cs.map pathValueTrieNode.r).length := by omega
    rw [List.getD_eq_getElem _ _ ha'] at ha
    rw [List.getD_eq_getElem _ _ hb']
    simp only [decide_eq_true_eq, ge_iff_le] at ha ⊢
    rcases Nat.eq_or_lt_of_le hab with h | h
    · subst h; exact ha
    · have := List.pairwise_iff_getElem.mp hs a b ha' hb' h
      exact le_trans ha (le_of_lt this)
  obtain ⟨h1, h2, h3⟩ := Search_spec _ cs.length mono
  refine ⟨h1, ?_, ?_⟩
  · intro x hx
    obtain ⟨i, hi, rfl⟩ := List.mem_take_iff_getElem.mp hx
    have hi1 : i < searchChild cs r := by
      have := hi; simp only [lt_min_iff] at this; exact this.1
    have hi2 : i < cs.length := by
      have := hi; simp only [lt_min_iff] at this; exact this.2
    have := h2 i hi1
    rw [List.getD_eq_getElem _ _ (by omega)] at this
    simp only [decide_eq_false_iff_not, ge_iff_le, not_le, List.getElem_map] at this
    exact this
  · intro x hx
    obtain ⟨i, hi, rfl⟩ := List.mem_drop_iff_getElem.mp hx
    have := h3 (searchChild cs r + i) (by unfold searchChild; omega) (by omega)
    rw [List.getD_eq_getElem _ _ (by omega)] at this
    simp only [decide_eq_true_eq, ge_iff_le, List.getElem_map] at this
    exact this

theorem childrenSorted_append {T : Type} (l1 l2 : List (pathValueTrieNode T)) :
    ChildrenSorted (l1 ++ l2) ↔
      ChildrenSorted l1 ∧ ChildrenSorted l2 ∧ ∀ x, x ∈ l1 → ∀ y, y ∈ l2 → x.r < y.r := by
  unfold ChildrenSorted
  rw [List.map_append, List.pairwise_append]
  simp only [List.mem_map, forall_exists_index, and_imp, forall_apply_eq_imp_iff₂]

theorem childrenSorted_cons {T : Type} (c : pathValueTrieNode T) (l : List (pathValueTrieNode T)) :
    ChildrenSorted (c :: l) ↔ (∀ y, y ∈ l → c.r < y.r) ∧ ChildrenSorted l := by
  unfold ChildrenSorted
  rw [List.map_cons, List.pairwise_cons]
  simp only [List.mem_map, forall_exists_index, and_imp, forall_apply_eq_imp_iff₂]

/-- What the binary search finds in a sorted children sequence. -/
theorem searchChild_cases {T : Type} (cs : List (pathValueTrieNode T)) (hs : ChildrenSorted cs)
    (r : rune) :
    (∃ c, cs[searchChild cs r]? = some c ∧ c.r = r ∧
        cs = cs.take (searchChild cs r) ++ c :: cs.drop (searchChild cs r + 1) ∧
        (∀ x, x ∈ cs.take (searchChild cs r) → x.r < r) ∧
        (∀ x, x ∈ cs.drop (searchChild cs r + 1) → r < x.r)) ∨
    (childAt cs r = none ∧
        (∀ x, x ∈ cs.take (searchChild cs r) → x.r < r) ∧
        (∀ x, x ∈ cs.drop (searchChild cs r) → r < x.r)) := by
  obtain ⟨h1, h2, h3⟩ := searchChild_spec cs hs r
  set idx := searchChild cs r with hidx
  have hsplit : cs = cs.take idx ++ cs.drop idx := (List.take_append_drop idx cs).symm
  cases hget : cs[idx]? with
  | none =>
    right
    have hlen : cs.length ≤ idx := by
      rcases Nat.lt_or_ge idx cs.length with h | h
      · rw [List.getElem?_eq_getElem h] at hget; exact Option.noConfusion hget
      · exact h
    refine ⟨by simp [childAt, ← hidx, hget], h2, ?_⟩
    intro x hx
    rw [List.drop_eq_nil_of_le hlen] at hx
    exact absurd hx (List.not_mem_nil _)
  | some c =>
    have hlt : idx < cs.length := by
      rcases Nat.lt_or_ge idx cs.length with h | h
      · exact h
      · rw [List.getElem?_eq_none h] at hget; exact Option.noConfusion hget
    have hc : cs[idx] = c := by
      rw [List.getElem?_eq_getElem hlt] at hget; exact Option.some.inj hget
    have hdrop : cs.drop idx = c :: cs.drop (idx + 1) := by
      rw [← hc]; exact List.drop_eq_getElem_cons hlt
    have hsorted : ChildrenSorted (cs.take idx ++ c :: cs.drop (idx + 1)) := by
      rw [← hdrop, ← hsplit]; exact hs
    have htail : ∀ y, y ∈ cs.drop (idx + 1) → c.r < y.r :=
      ((childrenSorted_cons _ _).mp ((childrenSorted_append _ _).mp hsorted).2.1).1
    have hcr : r ≤ c.r := h3 c (by rw [hdrop]; exact List.mem_cons_self _ _)
    by_cases heq : c.r = r
    · left
      refine ⟨c, rfl, heq, ?_, h2, ?_⟩
      · rw [← hdrop]; exact hsplit
      · intro x hx; rw [← heq]; exact htail x hx
    · right
      have hlt2 : r < c.r := lt_of_le_of_ne hcr (Ne.symm heq)
      refine ⟨by simp [childAt, ← hidx, hget, heq], h2, ?_⟩
      intro x hx
      rw [hdrop] at hx
      rcases List.mem_cons.mp hx with h | h
      · rw [h]; exact hlt2
      · exact lt_trans hlt2 (htail x h)

theorem childAt_eq_find {T : Type} (cs : List (pathValueTrieNode T)) (hs : ChildrenSorted cs)
    (r : rune) : childAt cs r = cs.find? (fun c => decide (c.r = r)) := by
  rcases searchChild_cases cs hs r with ⟨c, hget, hcr, hsplit, hl, hr⟩ | ⟨hnone, hl, hr⟩
  · have h1 : childAt cs r = some c := by simp [childAt, hget, hcr]
    rw [h1, hsplit, List.find?_append]
    have h2 : (cs.take (searchChild cs r)).find? (fun c => decide (c.r = r)) = none := by
      rw [List.find?_eq_none]
      intro x hx
      have := hl x hx
      simp only [decide_eq_true_eq]
      exact ne_of_lt this
    rw [h2]
    simp [hcr]
  · rw [hnone]
    symm
    rw [List.find?_eq_none]
    intro x hx
    simp only [decide_eq_true_eq]
    rw [← List.take_append_drop (searchChild cs r) cs] at hx
    rcases List.mem_append.mp hx with h | h
    · exact ne_of_lt (hl x h)
    · exact ne_of_gt (hr x h)

/-! ## The insertion sort -/

theorem sink_perm {T : Type} (less : T → T → Bool) (x : T) :
    ∀ before : List T, (sort.sink less x before).Perm (x :: before) := by
  intro before
  induction before with
  | nil => exact List.Perm.refl _
  | cons y ys ih =>
    simp only [sort.sink]
    split
    · exact ((List.Perm.cons y ih).trans (List.Perm.swap x y ys))
    · exact List.Perm.refl _

theorem foldl_sink_perm {T : Type} (less : T → T → Bool) :
    ∀ (l before : List T),
      (l.foldl (fun before x => sort.sink less x before) before).Perm (l.reverse ++ before) := by
  intro l
  induction l with
  | nil => intro before; exact List.Perm.refl _
  | cons x xs ih =>
    intro before
    simp only [List.foldl_cons, List.reverse_cons, List.append_assoc, List.singleton_append]
    exact (ih _).trans (List.Perm.append_left _ (sink_perm less x before))

theorem Slice_perm {T : Type} (less : T → T → Bool) (l : List T) :
    (sort.Slice l less).Perm l := by
  unfold sort.Slice
  have h := foldl_sink_perm less l []
  rw [List.append_nil] at h
  exact (List.reverse_perm _).trans (h.trans (List.reverse_perm _))

theorem Slice_length {T : Type} (less : T → T → Bool) (l : List T) :
    (sort.Slice l less).length = l.length := (Slice_perm less l).length_eq

theorem sink_sorted {T : Type} (less : T → T → Bool) (x : T) :
    ∀ before : List T,
      (∀ y, y ∈ before → less x y = false → less y x = true) →
      (∀ z y, z ∈ before → y ∈ before → less z y = true → less y x = true → less z x = true) →
      before.Pairwise (fun a b => less b a = true) →
      (sort.sink less x before).Pairwise (fun a b => less b a = true) := by
  intro before
  induction before with
  | nil => intro _ _ _; simp [sort.sink]
  | cons y ys ih =>
    intro htot htr hp
    have hp' := List.pairwise_cons.mp hp
    simp only [sort.sink]
    by_cases hxy : less x y = true
    · simp only [hxy, if_true]
      refine List.pairwise_cons.mpr ⟨?_, ?_⟩
      · intro w hw
        rcases List.mem_cons.mp ((sink_perm less x ys).subset hw) with h | h
        · rw [h]; exact hxy
        · exact hp'.1 w h
      · exact ih (fun z hz => htot z (List.mem_cons_of_mem _ hz))
          (fun z w hz hw => htr z w (List.mem_cons_of_mem _ hz) (List.mem_cons_of_mem _ hw))
          hp'.2
    · have hxy' : less x y = false := by simpa using hxy
      simp only [hxy', Bool.false_eq_true, if_false]
      have hyx : less y x = true := htot y (List.mem_cons_self _ _) hxy'
      refine List.pairwise_cons.mpr ⟨?_, hp⟩
      intro w hw
      rcases List.mem_cons.mp hw with h | h
      · rw [h]; exact hyx
      · exact htr w y (List.mem_cons_of_mem _ h) (List.mem_cons_self _ _) (hp'.1 w h) hyx

/-- On a list whose elements the relation orders strictly and totally, `sort.Slice`
returns it sorted. -/
theorem Slice_sorted {T : Type} (less : T → T → Bool) (l : List T)
    (htr : ∀ a b c, a ∈ l → b ∈ l → c ∈ l → less a b = true → less b c = true →
      less a c = true)
    (htot : l.Pairwise (fun a b => less a b = true ∨ less b a = true)) :
    (sort.Slice l less).Pairwise (fun a b => less a b = true) := by
  unfold sort.Slice
  rw [List.pairwise_reverse]
  have key : ∀ (rest before : List T),
      (∀ a b c, a ∈ before ++ rest → b ∈ before ++ rest → c ∈ before ++ rest →
        less a b = true → less b c = true → less a c = true) →
      rest.Pairwise (fun a b => less a b = true ∨ less b a = true) →
      (∀ a, a ∈ before → ∀ b, b ∈ rest → less a b = true ∨ less b a = true) →
      before.Pairwise (fun a b => less b a = true) →
      (rest.foldl (fun before x => sort.sink less x before) before).Pairwise
        (fun a b => less b a = true) := by
    intro rest
    induction rest with
    | nil => intro before _ _ _ hp; exact hp
    | cons x xs ih =>
      intro before htr htot hcross hp
      have htot' := List.pairwise_cons.mp htot
      simp only [List.foldl_cons]
      have hsub : ∀ a, a ∈ sort.sink less x before → a ∈ before ++ x :: xs := by
        intro a ha
        rcases List.mem_cons.mp ((sink_perm less x before).subset ha) with h | h
        · rw [h]; exact List.mem_append_right _ (List.mem_cons_self _ _)
        · exact List.mem_append_left _ h
      have hsub2 : ∀ a, a ∈ sort.sink less x before ++ xs → a ∈ before ++ x :: xs := by
        intro a ha
        rcases List.mem_append.mp ha with h | h
        · exact hsub a h
        · exact List.mem_append_right _ (List.mem_cons_of_mem _ h)
      apply ih
      · intro a b c ha hb hc
        exact htr a b c (hsub2 a ha) (hsub2 b hb) (hsub2 c hc)
      · exact htot'.2
      · intro a ha b hb
        rcases List.mem_cons.mp ((sink_perm less x before).subset ha) with h | h
        · rw [h]; exact htot'.1 b hb
        · exact hcross a h b (List.mem_cons_of_mem _ hb)
      · apply sink_sorted
        · intro y hy hxy
          rcases hcross y hy x (List.mem_cons_self _ _) with h | h
          · exact h
          · rw [hxy] at h; exact Bool.noConfusion h
        · intro z y hz hy
          exact htr z y x (List.mem_append_left _ hz) (List.mem_append_left _ hy)
            (List.mem_append_right _ (List.mem_cons_self _ _))
        · exact hp
  apply key l []
  · intro a b c ha hb hc
    simp only [List.nil_append] at ha hb hc
    exact htr a b c ha hb hc
  · exact htot
  · intro a ha; exact absurd ha (List.not_mem_nil _)
  · exact List.Pairwise.nil

/-- Two lists sorted by the comparator with the same elements are equal. -/
theorem sorted_unique {T : Type} [Value T] (l1 l2 : List T) (hp : l1.Perm l2)
    (hfin : ∀ a, a ∈ l1 → (GetScore a).isFinite = true)
    (h1 : l1.Pairwise (fun a b => valueCompare a b = true))
    (h2 : l2.Pairwise (fun a b => valueCompare a b = true)) : l1 = l2 := by
  haveI : IsAntisymm T (fun a b => valueCompare a b = true ∧
      (GetScore a).isFinite = true ∧ (GetScore b).isFinite = true) :=
    ⟨fun a b hab hba => by
      rw [valueCompare_asymm a b hab.2.1 hab.2.2 hab.1] at hba
      exact Bool.noConfusion hba.1⟩
  have g1 : l1.Pairwise (fun a b => valueCompare a b = true ∧
      (GetScore a).isFinite = true ∧ (GetScore b).isFinite = true) :=
    h1.imp_of_mem (fun ha hb h => ⟨h, hfin _ ha, hfin _ hb⟩)
  have g2 : l2.Pairwise (fun a b => valueCompare a b = true ∧
      (GetScore a).isFinite = true ∧ (GetScore b).isFinite = true) :=
    h2.imp_of_mem (fun ha hb h => ⟨h, hfin _ (hp.symm.subset ha), hfin _ (hp.symm.subset hb)⟩)
  exact List.eq_of_perm_of_sorted hp g1 g2

/-! ## The bounded list update -/

theorem expandValues_elems {T : Type} (m : Int) (s s2 : Slice T)
    (h : expandValues m s = some s2) : s2.elems = s.elems := by
  unfold expandValues at h
  by_cases hcap : s.cap = s.elems.length
  · rw [if_pos hcap] at h
    simp only at h
    generalize (if 2 * (s.cap : Int) > wrapInt (m + 1) then wrapInt (m + 1)
      else 2 * (s.cap : Int)) = nc at h
    by_cases hbad : nc < (s.elems.length : Int)
    · rw [if_pos hbad] at h; exact Option.noConfusion h
    · rw [if_neg hbad] at h; cases h; rfl
  · rw [if_neg hcap] at h; cases h; rfl

theorem wrapInt_eq (x : Int) (h1 : -2 ^ 63 ≤ x) (h2 : x < 2 ^ 63) : wrapInt x = x := by
  unfold wrapInt
  omega

theorem expandValues_isSome {T : Type} (m : Int) (s : Slice T)
    (hmax : m < 2 ^ 63 - 1) (hlen : (s.elems.length : Int) ≤ m + 1) :
    ∃ s2, expandValues m s = some s2 := by
  unfold expandValues
  by_cases hcap : s.cap = s.elems.length
  · rw [if_pos hcap]
    simp only
    rw [wrapInt_eq (m + 1) (by omega) (by omega)]
    have hnc : ¬ ((if 2 * (s.cap : Int) > m + 1 then m + 1 else 2 * (s.cap : Int))
        < (s.elems.length : Int)) := by
      split <;> omega
    rw [if_neg hnc]
    exact ⟨_, rfl⟩
  · rw [if_neg hcap]; exact ⟨_, rfl⟩

theorem any_sameQ_iff {T : Type} [Value T] (l : List T) (v : T) :
    l.any (fun x => GetQ x == GetQ v) = true ↔ ∃ x, x ∈ l ∧ GetQ x = GetQ v := by
  simp [List.any_eq_true]

/-- The four ways `updateValue` returns: duplicate query text, capacity reject,
plain append, append and sort (and truncate). -/
theorem updateValue_cases {T : Type} [Value T] (m : Int) (s s1 : Slice T) (v : T)
    (h : updateValue m s v = some s1) :
    ((∃ x, x ∈ s.elems ∧ GetQ x = GetQ v) ∧ s1 = s) ∨
    ((∀ x, x ∈ s.elems → GetQ x ≠ GetQ v) ∧
      ((m ≤ (s.elems.length : Int) ∧
          (∃ w, s.elems.getLast? = some w ∧ valueCompare w v = true) ∧ s1 = s) ∨
       ((s.elems.length : Int) < m ∧
          (s.elems = [] ∨ ∃ w, s.elems.getLast? = some w ∧ valueCompare w v = true) ∧
          s1.elems = s.elems ++ [v]) ∨
       (0 ≤ m ∧ (∃ w, s.elems.getLast? = some w ∧ valueCompare w v = false) ∧
          s1.elems = (sort.Slice (s.elems ++ [v]) valueCompare).take m.toNat))) := by
  unfold updateValue at h
  by_cases hdup : s.elems.any (fun x => GetQ x == GetQ v) = true
  · left
    rw [if_pos hdup] at h
    exact ⟨(any_sameQ_iff _ _).mp hdup, (Option.some.inj h).symm⟩
  · right
    rw [if_neg hdup] at h
    have hnd : ∀ x, x ∈ s.elems → GetQ x ≠ GetQ v := by
      intro x hx hq
      exact hdup ((any_sameQ_iff _ _).mpr ⟨x, hx, hq⟩)
    refine ⟨hnd, ?_⟩
    simp only at h
    cases hlast : s.elems.getLast? with
    | none =>
      have hnil : s.elems = [] := List.getLast?_eq_none_iff.mp hlast
      rw [hlast] at h
      by_cases hfull : (s.elems.length : Int) ≥ m
      · rw [if_pos hfull] at h
        simp at h
      · rw [if_neg hfull] at h
        simp only at h
        cases hexp : expandValues m s with
        | none => rw [hexp] at h; simp at h
        | some s2 =>
          rw [hexp] at h
          have he := expandValues_elems m s s2 hexp
          simp only [he, hlast, if_true] at h
          right; left
          refine ⟨by omega, Or.inl hnil, ?_⟩
          rw [← Option.some.inj h]
          simp [Slice.append, he]
    | some w =>
      rw [hlast] at h
      by_cases hfull : (s.elems.length : Int) ≥ m
      · rw [if_pos hfull] at h
        by_cases hw : valueCompare w v = true
        · left
          simp only [Option.map_some', hw] at h
          exact ⟨hfull, ⟨w, rfl, hw⟩, (Option.some.inj h).symm⟩
        · have hw' : valueCompare w v = false := by simpa using hw
          simp only [Option.map_some', hw'] at h
          right; right
          cases hexp : expandValues m s with
          | none => rw [hexp] at h; simp at h
          | some s2 =>
            rw [hexp] at h
            have he := expandValues_elems m s s2 hexp
            simp only [he, hlast, hw', Bool.false_eq_true, if_false] at h
            have hlen : (sort.Slice ((s2.append v).elems) valueCompare).length
                = s.elems.length + 1 := by
              rw [Slice_length]; simp [Slice.append, he]
            rw [hlen] at h
            have hgt : ((s.elems.length + 1 : Nat) : Int) > m := by omega
            rw [if_pos hgt] at h
            by_cases hneg : m < 0
            · rw [if_pos hneg] at h; exact Option.noConfusion h
            · rw [if_neg hneg] at h
              refine ⟨by omega, ⟨w, rfl, hw'⟩, ?_⟩
              rw [← Option.some.inj h]
              simp [Slice.append, he]
      · rw [if_neg hfull] at h
        simp only at h
        cases hexp : expandValues m s with
        | none => rw [hexp] at h; simp at h
        | some s2 =>
          rw [hexp] at h
          have he := expandValues_elems m s s2 hexp
          simp only [he, hlast] at h
          by_cases hw : valueCompare w v = true
          · right; left
            simp only [hw, if_true] at h
            refine ⟨by omega, Or.inr ⟨w, rfl, hw⟩, ?_⟩
            rw [← Option.some.inj h]
            simp [Slice.append, he]
          · have hw' : valueCompare w v = false := by simpa using hw
            simp only [hw', Bool.false_eq_true, if_false] at h
            right; right
            have hlen : (sort.Slice ((s2.append v).elems) valueCompare).length
                = s.elems.length + 1 := by
              rw [Slice_length]; simp [Slice.append, he]
            rw [hlen] at h
            by_cases hgt : ((s.elems.length + 1 : Nat) : Int) > m
            · rw [if_pos hgt] at h
              omega
            · rw [if_neg hgt] at h
              refine ⟨by omega, ⟨w, rfl, hw'⟩, ?_⟩
              rw [← Option.some.inj h]
              simp only [Slice.append, he]
              symm
              apply List.take_of_length_le
              rw [Slice_length]
              simp only [List.length_append, List.length_singleton]
              omega

/-- With a capacity of at least one and an expansion that does not panic, `updateValue`
does not panic. -/
theorem updateValue_isSome_of_expand {T : Type} [Value T] (m : Int) (s : Slice T) (v : T)
    (hm : 1 ≤ m) (hexpand : ∃ s2, expandValues m s = some s2) :
    ∃ s1, updateValue m s v = some s1 := by
  unfold updateValue
  by_cases hdup : s.elems.any (fun x => GetQ x == GetQ v) = true
  · rw [if_pos hdup]; exact ⟨_, rfl⟩
  · rw [if_neg hdup]
    simp only
    obtain ⟨s2, hexp⟩ := hexpand
    have he := expandValues_elems m s s2 hexp
    have hnneg : ¬ m < 0 := by omega
    cases hlast : s.elems.getLast? with
    | none =>
      have hnil : s.elems = [] := List.getLast?_eq_none_iff.mp hlast
      have hfull : ¬ ((s.elems.length : Int) ≥ m) := by
        rw [hnil]; simp only [List.length_nil, Nat.cast_zero]; omega
      rw [if_neg hfull]
      simp only [hexp, he, hlast, if_true]
      exact ⟨_, rfl⟩
    | some w =>
      by_cases hw : valueCompare w v = true
      · by_cases hfull : (s.elems.length : Int) ≥ m
        · rw [if_pos hfull]
          simp only [Option.map_some', hw]
          exact ⟨_, rfl⟩
        · rw [if_neg hfull]
          simp only [hexp, he, hlast, hw, if_true]
          exact ⟨_, rfl⟩
      · have hw' : valueCompare w v = false := by simpa using hw
        have hres : (if (s.elems.length : Int) ≥ m then
            Option.map (fun worst => valueCompare worst v) (some w) else some false)
            = some false := by
          split <;> simp [hw']
        rw [hres]
        simp only [hexp, he, hlast, hw', Bool.false_eq_true, if_false, hnneg]
        split <;> exact ⟨_, rfl⟩

/-- With a capacity of at least one below the largest `int` and a list within capacity,
`updateValue` does not panic. -/
theorem updateValue_isSome {T : Type} [Value T] (m : Int) (s : Slice T) (v : T)
    (hm : 1 ≤ m) (hmax : m < 2 ^ 63 - 1) (hlen : (s.elems.length : Int) ≤ m) :
    ∃ s1, updateValue m s v = some s1 :=
  updateValue_isSome_of_expand m s v hm (expandValues_isSome m s hmax (by omega))

theorem updateValue_length {T : Type} [Value T] (m : Int) (s s1 : Slice T) (v : T)
    (h : updateValue m s v = some s1) (hlen : (s.elems.length : Int) ≤ m) :
    (s1.elems.length : Int) ≤ m := by
  rcases updateValue_cases m s s1 v h with ⟨_, rfl⟩ | ⟨_, ⟨_, _, rfl⟩ | ⟨hlt, _, he⟩ | ⟨h0, _, he⟩⟩
  · exact hlen
  · exact hlen
  · rw [he]; simp only [List.length_append, List.length_singleton, Nat.cast_add, Nat.cast_one]
    omega
  · rw [he, List.length_take]
    have : (Min.min m.toNat (sort.Slice (s.elems ++ [v]) valueCompare).length : Nat)
        ≤ m.toNat := Nat.min_le_left _ _
    omega

theorem updateValue_mem {T : Type} [Value T] (m : Int) (s s1 : Slice T) (v : T)
    (h : updateValue m s v = some s1) :
    ∀ x, x ∈ s1.elems → x ∈ s.elems ∨ x = v := by
  intro x hx
  rcases updateValue_cases m s s1 v h with ⟨_, rfl⟩ | ⟨_, ⟨_, _, rfl⟩ | ⟨hlt, _, he⟩ | ⟨h0, _, he⟩⟩
  · exact Or.inl hx
  · exact Or.inl hx
  · rw [he] at hx; simpa using hx
  · rw [he] at hx
    have := (Slice_perm valueCompare _).subset (List.mem_of_mem_take hx)
    simpa using this

theorem updateValue_nodup {T : Type} [Value T] (m : Int) (s s1 : Slice T) (v : T)
    (h : updateValue m s v = some s1) (hnd : (s.elems.map GetQ).Nodup) :
    (s1.elems.map GetQ).Nodup := by
  rcases updateValue_cases m s s1 v h with ⟨_, rfl⟩ | ⟨hq, ⟨_, _, rfl⟩ | ⟨hlt, _, he⟩ | ⟨h0, _, he⟩⟩
  · exact hnd
  · exact hnd
  · rw [he, List.map_append, List.nodup_append]
    refine ⟨hnd, by simp, ?_⟩
    intro q hq1 hq2
    simp only [List.map_cons, List.map_nil, List.mem_singleton] at hq2
    obtain ⟨x, hx, rfl⟩ := List.mem_map.mp hq1
    exact hq x hx hq2
  · rw [he]
    have hall : ((s.elems ++ [v]).map GetQ).Nodup := by
      rw [List.map_append, List.nodup_append]
      refine ⟨hnd, by simp, ?_⟩
      intro q hq1 hq2
      simp only [List.map_cons, List.map_nil, List.mem_singleton] at hq2
      obtain ⟨x, hx, rfl⟩ := List.mem_map.mp hq1
      exact hq x hx hq2
    have hperm : ((sort.Slice (s.elems ++ [v]) valueCompare).map GetQ).Nodup :=
      ((Slice_perm valueCompare _).map GetQ).nodup_iff.mpr hall
    exact hperm.sublist ((List.take_sublist _ _).map GetQ)

/-- After `updateValue` the list is not empty, and it holds an entry with the
candidate's query text unless it is full. -/
theorem updateValue_retains {T : Type} [Value T] (m : Int) (s s1 : Slice T) (v : T)
    (h : updateValue m s v = some s1) (hm : 1 ≤ m) (hlen : (s.elems.length : Int) ≤ m) :
    s1.elems ≠ [] ∧
      ((∃ x, x ∈ s1.elems ∧ GetQ x = GetQ v) ∨ (s1.elems.length : Int) = m) := by
  rcases updateValue_cases m s s1 v h with
    ⟨hx, rfl⟩ | ⟨hq, ⟨hfull, ⟨w, hw, _⟩, rfl⟩ | ⟨hlt, _, he⟩ | ⟨h0, _, he⟩⟩
  · obtain ⟨x, hx1, hx2⟩ := hx
    exact ⟨List.ne_nil_of_mem hx1, Or.inl ⟨x, hx1, hx2⟩⟩
  · refine ⟨?_, Or.inr (by omega)⟩
    intro hnil; rw [hnil] at hw; exact Option.noConfusion hw
  · rw [he]
    exact ⟨by simp, Or.inl ⟨v, by simp, rfl⟩⟩
  · have hslen := Slice_length (valueCompare : T → T → Bool) (s.elems ++ [v])
    have hl : s1.elems.length = Min.min m.toNat (s.elems.length + 1) := by
      rw [he, List.length_take, hslen]; simp
    constructor
    · intro hnil
      rw [hnil] at hl
      simp only [List.length_nil] at hl
      have : 1 ≤ Min.min m.toNat (s.elems.length + 1) := by
        apply Nat.le_min.mpr; constructor <;> omega
      omega
    · by_cases hbig : m.toNat ≤ s.elems.length
      · right
        rw [hl, Nat.min_eq_left (by omega)]
        omega
      · left
        refine ⟨v, ?_, rfl⟩
        rw [he, List.take_of_length_le (by rw [hslen]; simp; omega)]
        exact (Slice_perm valueCompare _).mem_iff.mpr (by simp)

/-! ## The loops of `Put` and `Get` -/

theorem all_iff {T : Type} (P : pathValueTrieNode T → Prop) (node : pathValueTrieNode T) :
    pathValueTrieNode.All P node ↔
      P node ∧ ∀ c, c ∈ node.children → pathValueTrieNode.All P c := by
  constructor
  · intro h; cases h with | intro _ h1 h2 => exact ⟨h1, h2⟩
  · intro h; exact pathValueTrieNode.All.intro node h.1 h.2

theorem node_eta {T : Type} (node : pathValueTrieNode T) :
    pathValueTrieNode.mk node.r node.values node.children = node := by
  cases node; rfl

theorem getLoop_nil {T : Type} (node : pathValueTrieNode T) : getLoop [] node = some node := rfl

theorem getLoop_cons {T : Type} (r : rune) (rs : List rune) (node : pathValueTrieNode T) :
    getLoop (r :: rs) node = (childAt node.children r).bind (getLoop rs) := by
  simp only [getLoop, childAt]
  cases node.children[searchChild node.children r]? with
  | none => rfl
  | some c =>
    simp only
    split <;> rfl

theorem getLoop_children {T : Type} (p : List rune) (hp : p ≠ []) (n1 n2 : pathValueTrieNode T)
    (h : n1.children = n2.children) : getLoop p n1 = getLoop p n2 := by
  cases p with
  | nil => exact absurd rfl hp
  | cons a p1 => rw [getLoop_cons, getLoop_cons, h]

theorem putLoop_cons {T : Type} [Value T] (m : Int) (v : T) (r : rune) (rs : List rune)
    (node : pathValueTrieNode T) :
    putLoop m v (r :: rs) node =
      match childAt node.children r with
      | some child =>
        (updateValue m child.values v).bind fun values =>
        (putLoop m v rs (.mk child.r values child.children)).bind fun child =>
        some (.mk node.r node.values
          (node.children.set (searchChild node.children r) child))
      | none =>
        (newNode m r).bind fun child =>
        (updateValue m child.values v).bind fun values =>
        (putLoop m v rs (.mk child.r values child.children)).bind fun child =>
        some (.mk node.r node.values
          (node.children.take (searchChild node.children r) ++ child ::
            node.children.drop (searchChild node.children r))) := by
  simp only [putLoop, childAt]

theorem find_replace {T : Type} (l1 l2 : List (pathValueTrieNode T)) (c : pathValueTrieNode T)
    (r : rune) (hc : c.r = r) (h1 : ∀ x, x ∈ l1 → x.r < r) :
    (l1 ++ c :: l2).find? (fun c => decide (c.r = r)) = some c ∧
    ∀ a, a ≠ r → (l1 ++ c :: l2).find? (fun c => decide (c.r = a))
      = (l1 ++ l2).find? (fun c => decide (c.r = a)) := by
  constructor
  · rw [List.find?_append]
    have : l1.find? (fun c => decide (c.r = r)) = none := by
      rw [List.find?_eq_none]
      intro x hx
      simp only [decide_eq_true_eq]
      exact ne_of_lt (h1 x hx)
    rw [this]
    simp [hc]
  · intro a ha
    rw [List.find?_append, List.find?_append]
    have : ¬ (c.r = a) := by rw [hc]; exact Ne.symm ha
    simp [List.find?_cons, this]

theorem sorted_replace {T : Type} (l1 l2 : List (pathValueTrieNode T)) (c : pathValueTrieNode T)
    (r : rune) (hc : c.r = r) (h1 : ∀ x, x ∈ l1 → x.r < r) (h2 : ∀ x, x ∈ l2 → r < x.r)
    (hs1 : ChildrenSorted l1) (hs2 : ChildrenSorted l2) : ChildrenSorted (l1 ++ c :: l2) := by
  rw [childrenSorted_append, childrenSorted_cons]
  refine ⟨hs1, ⟨?_, hs2⟩, ?_⟩
  · intro y hy; rw [hc]; exact h2 y hy
  · intro x hx y hy
    rcases List.mem_cons.mp hy with h | h
    · rw [h, hc]; exact h1 x hx
    · exact lt_trans (h1 x hx) (h2 y h)

/-- One turn of the `Put` loop on a node with sorted children: the child `c0` for `r`
(found, or a new node) gets its list updated, the loop goes on below it, and the
result `c2` takes the place between the children `l1` below `r` and `l2` above `r`. -/
theorem putLoop_step {T : Type} [Value T] (m : Int) (v : T) (r : rune) (rs : List rune)
    (node node1 : pathValueTrieNode T) (hs : ChildrenSorted node.children)
    (h : putLoop m v (r :: rs) node = some node1) :
    ∃ (c0 : pathValueTrieNode T) (vals : Slice T) (c2 : pathValueTrieNode T)
      (l1 l2 : List (pathValueTrieNode T)),
      ((childAt node.children r = some c0 ∧ c0 ∈ node.children ∧ c0.r = r ∧
          node.children = l1 ++ c0 :: l2) ∨
        (childAt node.children r = none ∧ c0 = .mk r (freshValues m) [] ∧
          node.children = l1 ++ l2)) ∧
      updateValue m c0.values v = some vals ∧
      putLoop m v rs (.mk r vals c0.children) = some c2 ∧
      node1 = .mk node.r node.values (l1 ++ c2 :: l2) ∧
      (∀ x, x ∈ l1 → x.r < r) ∧ (∀ x, x ∈ l2 → r < x.r) := by
  rw [putLoop_cons] at h
  rcases searchChild_cases node.children hs r with
    ⟨c, hget, hcr, hsplit, hl, hr⟩ | ⟨hnone, hl, hr⟩
  · have hc : childAt node.children r = some c := by simp [childAt, hget, hcr]
    rw [hc] at h
    simp only at h
    cases hu : updateValue m c.values v with
    | none => rw [hu] at h; exact Option.noConfusion h
    | some vals =>
      rw [hu] at h
      simp only [Option.some_bind] at h
      cases hp : putLoop m v rs (.mk c.r vals c.children) with
      | none => rw [hp] at h; exact Option.noConfusion h
      | some c2 =>
        rw [hp] at h
        simp only [Option.some_bind] at h
        have hlt : searchChild node.children r < node.children.length := by
          rcases Nat.lt_or_ge (searchChild node.children r) node.children.length with h1 | h1
          · exact h1
          · rw [List.getElem?_eq_none h1] at hget; exact Option.noConfusion hget
        have hmem : c ∈ node.children := by
          rw [hsplit]; exact List.mem_append_right _ (List.mem_cons_self _ _)
        refine ⟨c, vals, c2, _, _, Or.inl ⟨hc, hmem, hcr, hsplit⟩, hu, ?_, ?_, hl, hr⟩
        · rw [← hcr]; exact hp
        · rw [← Option.some.inj h, List.set_eq_take_append_cons_drop, if_pos hlt]
  · rw [hnone] at h
    simp only at h
    cases hn : (newNode m r : Option (pathValueTrieNode T)) with
    | none => rw [hn] at h; exact Option.noConfusion h
    | some c0 =>
      rw [hn] at h
      simp only [Option.some_bind] at h
      have hc0 : c0 = .mk r (freshValues m) [] := by
        unfold newNode at hn
        split at hn
        · exact Option.noConfusion hn
        · exact (Option.some.inj hn).symm
      subst hc0
      simp only [pathValueTrieNode.values, pathValueTrieNode.r, pathValueTrieNode.children] at h
      cases hu : updateValue m (freshValues m) v with
      | none => rw [hu] at h; exact Option.noConfusion h
      | some vals =>
        rw [hu] at h
        simp only [Option.some_bind] at h
        cases hp : putLoop m v rs (.mk r vals []) with
        | none => rw [hp] at h; exact Option.noConfusion h
        | some c2 =>
          rw [hp] at h
          simp only [Option.some_bind] at h
          exact ⟨_, vals, c2, _, _,
            Or.inr ⟨hnone, rfl, (List.take_append_drop _ _).symm⟩, hu, hp,
            (Option.some.inj h).symm, hl, hr⟩

theorem getLoop_leaf {T : Type} (a : rune) (p : List rune) (r : rune) (vals : Slice T) :
    getLoop (a :: p) (.mk r vals []) = none := by
  rw [getLoop_cons]
  simp [childAt, pathValueTrieNode.children]

/-- Effect of the `Put` loop on every lookup below a node whose subtree has sorted
children: a path that is not a non-empty initial segment of the key reaches the
same node as before; a path that is one reaches a node whose list is the result of
`updateValue` on the list that was there (or on a new node). -/
theorem putLoop_spec {T : Type} [Value T] (m : Int) (v : T) :
    ∀ (rs : List rune) (node node1 : pathValueTrieNode T),
      AllSorted node → putLoop m v rs node = some node1 →
      AllSorted node1 ∧ node1.r = node.r ∧ node1.values = node.values ∧
      (∀ p, p ≠ [] → ¬ p <+: rs → getLoop p node1 = getLoop p node) ∧
      (∀ p, p ≠ [] → p <+: rs →
        ∃ s1, updateValue m
            (((getLoop p node).map pathValueTrieNode.values).getD (freshValues m)) v = some s1 ∧
          (getLoop p node1).map pathValueTrieNode.values = some s1) := by
  intro rs
  induction rs with
  | nil =>
    intro node node1 hall h
    simp only [putLoop] at h
    cases h
    refine ⟨hall, rfl, rfl, fun _ _ _ => rfl, ?_⟩
    intro p hp hpre
    exact absurd (List.prefix_nil.mp hpre) hp
  | cons r rs ih =>
    intro node node1 hall h
    obtain ⟨hs, hkids⟩ := (all_iff _ _).mp hall
    obtain ⟨c0, vals, c2, l1, l2, hcase, hu, hp, hnode1, hl, hr⟩ :=
      putLoop_step m v r rs node node1 hs h
    -- the child before the update
    have hc0 : AllSorted c0 := by
      rcases hcase with ⟨_, hmem, _, _⟩ | ⟨_, hc, _⟩
      · exact hkids c0 hmem
      · rw [hc]
        exact (all_iff _ _).mpr ⟨List.Pairwise.nil, fun c hc => absurd hc (List.not_mem_nil _)⟩
    have hchild1 : AllSorted (pathValueTrieNode.mk r vals c0.children) :=
      (all_iff _ _).mpr ((all_iff _ _).mp hc0)
    obtain ⟨hall2, hr2, hv2, hframe, hupd⟩ := ih _ c2 hchild1 hp
    change c2.r = r at hr2
    change c2.values = vals at hv2
    -- the pieces of the children sequence
    have hsplit : ChildrenSorted l1 ∧ ChildrenSorted l2 ∧
        (∀ x, x ∈ l1 ++ l2 → x ∈ node.children) ∧
        (∀ a, a ≠ r → node.children.find? (fun c => decide (c.r = a))
          = (l1 ++ l2).find? (fun c => decide (c.r = a))) := by
      rcases hcase with ⟨_, _, hcr, hch⟩ | ⟨_, _, hch⟩
      · rw [hch] at hs
        obtain ⟨h1, h2, _⟩ := (childrenSorted_append _ _).mp hs
        refine ⟨h1, ((childrenSorted_cons _ _).mp h2).2, ?_, ?_⟩
        · intro x hx
          rw [hch]
          rcases List.mem_append.mp hx with hx | hx
          · exact List.mem_append_left _ hx
          · exact List.mem_append_right _ (List.mem_cons_of_mem _ hx)
        · intro a ha
          rw [hch]
          exact (find_replace l1 l2 c0 r hcr hl).2 a ha
      · rw [hch] at hs
        obtain ⟨h1, h2, _⟩ := (childrenSorted_append _ _).mp hs
        exact ⟨h1, h2, fun x hx => by rw [hch]; exact hx, fun a _ => by rw [hch]⟩
    obtain ⟨hs1, hs2, hsub, hfind⟩ := hsplit
    have hsnew : ChildrenSorted (l1 ++ c2 :: l2) := sorted_replace l1 l2 c2 r hr2 hl hr hs1 hs2
    have hfnew := find_replace l1 l2 c2 r hr2 hl
    -- lookups in the old node along `r`
    have hold0 : ((getLoop [r] node).map pathValueTrieNode.values).getD (freshValues m)
        = c0.values := by
      rw [getLoop_cons]
      rcases hcase with ⟨hc, _, _, _⟩ | ⟨hc, hc0eq, _⟩
      · rw [hc]; rfl
      · rw [hc, hc0eq]; rfl
    have hold1 : ∀ p1, p1 ≠ [] →
        getLoop (r :: p1) node = getLoop p1 (pathValueTrieNode.mk r vals c0.children) := by
      intro p1 hp1
      rw [getLoop_cons]
      rcases hcase with ⟨hc, _, _, _⟩ | ⟨hc, hc0eq, _⟩
      · rw [hc]
        exact getLoop_children p1 hp1 _ _ rfl
      · rw [hc, hc0eq]
        cases p1 with
        | nil => exact absurd rfl hp1
        | cons a p2 =>
          simp only [pathValueTrieNode.children]
          rw [getLoop_leaf]; rfl
    have hnew : ∀ a p1, getLoop (a :: p1) node1
        = ((l1 ++ c2 :: l2).find? (fun c => decide (c.r = a))).bind (getLoop p1) := by
      intro a p1
      rw [getLoop_cons, hnode1]
      simp only [pathValueTrieNode.children]
      rw [childAt_eq_find _ hsnew]
    refine ⟨?_, by rw [hnode1]; rfl, by rw [hnode1]; rfl, ?_, ?_⟩
    · rw [hnode1]
      refine (all_iff _ _).mpr ⟨hsnew, ?_⟩
      intro c hc
      simp only [pathValueTrieNode.children] at hc
      rcases List.mem_append.mp hc with hc | hc
      · exact hkids c (hsub c (List.mem_append_left _ hc))
      · rcases List.mem_cons.mp hc with hc | hc
        · rw [hc]; exact hall2
        · exact hkids c (hsub c (List.mem_append_right _ hc))
    · intro p hpne hnpre
      cases p with
      | nil => exact absurd rfl hpne
      | cons a p1 =>
        rw [hnew]
        by_cases har : a = r
        · subst har
          rw [hfnew.1]
          simp only [Option.some_bind]
          have hp1 : p1 ≠ [] := by
            intro h0; subst h0
            exact hnpre (List.cons_prefix_cons.mpr ⟨rfl, List.nil_prefix⟩)
          have hnp1 : ¬ p1 <+: rs := fun hpre =>
            hnpre (List.cons_prefix_cons.mpr ⟨rfl, hpre⟩)
          rw [hframe p1 hp1 hnp1, hold1 p1 hp1]
        · rw [hfnew.2 a har, getLoop_cons, childAt_eq_find _ hs, hfind a har]
    · intro p hpne hpre
      cases p with
      | nil => exact absurd rfl hpne
      | cons a p1 =>
        obtain ⟨har, hpre1⟩ := List.cons_prefix_cons.mp hpre
        subst har
        rw [hnew, hfnew.1]
        simp only [Option.some_bind]
        by_cases hp1 : p1 = []
        · subst hp1
          rw [hold0]
          refine ⟨vals, hu, ?_⟩
          simp only [getLoop_nil, Option.map_some', hv2]
        · rw [hold1 p1 hp1]
          exact hupd p1 hp1 hpre1

/-! ## Invariants of the `Put` loop -/

theorem childAt_mem {T : Type} (cs : List (pathValueTrieNode T)) (r : rune)
    (c : pathValueTrieNode T) (h : childAt cs r = some c) : c ∈ cs ∧ c.r = r := by
  unfold childAt at h
  cases hget : cs[searchChild cs r]? with
  | none => rw [hget] at h; exact Option.noConfusion h
  | some c1 =>
    rw [hget] at h
    simp only at h
    by_cases hr : c1.r = r
    · rw [if_pos hr] at h
      cases h
      exact ⟨List.getElem?_mem hget, hr⟩
    · rw [if_neg hr] at h; exact Option.noConfusion h

theorem getLoop_all {T : Type} (P : pathValueTrieNode T → Prop) :
    ∀ (p : List rune) (node n : pathValueTrieNode T),
      pathValueTrieNode.All P node → getLoop p node = some n → P n := by
  intro p
  induction p with
  | nil =>
    intro node n hall h
    cases h
    exact ((all_iff _ _).mp hall).1
  | cons a p ih =>
    intro node n hall h
    rw [getLoop_cons] at h
    cases hc : childAt node.children a with
    | none => rw [hc] at h; exact Option.noConfusion h
    | some c =>
      rw [hc] at h
      exact ih c n (((all_iff _ _).mp hall).2 c (childAt_mem _ _ _ hc).1) h

theorem newNode_eq {T : Type} (m : Int) (r : rune) (hm : 0 ≤ m) :
    (newNode m r : Option (pathValueTrieNode T)) = some (.mk r (freshValues m) []) := by
  unfold newNode
  have : ¬ min 4 m < 0 := by unfold min; split <;> omega
  rw [if_neg this]; rfl

theorem newNode_some {T : Type} (m : Int) (r : rune) (c : pathValueTrieNode T)
    (h : newNode m r = some c) : 0 ≤ m ∧ c = .mk r (freshValues m) [] := by
  unfold newNode at h
  by_cases hneg : min 4 m < 0
  · rw [if_pos hneg] at h; exact Option.noConfusion h
  · rw [if_neg hneg] at h
    refine ⟨?_, (Option.some.inj h).symm⟩
    unfold min at hneg; split at hneg <;> omega

/-- A property of the lists that `updateValue` preserves and that the empty list
has, holds of every node after the `Put` loop if it did before. -/
theorem putLoop_all {T : Type} [Value T] (P : Slice T → Prop) (m : Int) (v : T)
    (hfresh : P (freshValues m))
    (hupd : ∀ s s1, P s → updateValue m s v = some s1 → P s1) :
    ∀ (rs : List rune) (node node1 : pathValueTrieNode T),
      AllSorted node → pathValueTrieNode.All (fun n => P n.values) node →
      putLoop m v rs node = some node1 →
      pathValueTrieNode.All (fun n => P n.values) node1 := by
  intro rs
  induction rs with
  | nil =>
    intro node node1 _ hall h
    simp only [putLoop] at h
    cases h; exact hall
  | cons r rs ih =>
    intro node node1 hsorted hall h
    obtain ⟨hs, hskids⟩ := (all_iff _ _).mp hsorted
    obtain ⟨hroot, hkids⟩ := (all_iff _ _).mp hall
    obtain ⟨c0, vals, c2, l1, l2, hcase, hu, hp, hnode1, hl, hr⟩ :=
      putLoop_step m v r rs node node1 hs h
    have hc0 : AllSorted c0 ∧ pathValueTrieNode.All (fun n => P n.values) c0 := by
      rcases hcase with ⟨_, hmem, _, _⟩ | ⟨_, hc, _⟩
      · exact ⟨hskids c0 hmem, hkids c0 hmem⟩
      · rw [hc]
        exact ⟨(all_iff _ _).mpr ⟨List.Pairwise.nil, fun c hc => absurd hc (List.not_mem_nil _)⟩,
          (all_iff _ _).mpr ⟨hfresh, fun c hc => absurd hc (List.not_mem_nil _)⟩⟩
    have hP0 : P c0.values := ((all_iff _ _).mp hc0.2).1
    have hchild1 : pathValueTrieNode.All (fun n => P n.values)
        (pathValueTrieNode.mk r vals c0.children) :=
      (all_iff _ _).mpr ⟨hupd _ _ hP0 hu, ((all_iff _ _).mp hc0.2).2⟩
    have hschild1 : AllSorted (pathValueTrieNode.mk r vals c0.children) :=
      (all_iff _ _).mpr ((all_iff _ _).mp hc0.1)
    have hc2 := ih _ c2 hschild1 hchild1 hp
    have hsub : ∀ x, x ∈ l1 ++ l2 → x ∈ node.children := by
      intro x hx
      rcases hcase with ⟨_, _, _, hch⟩ | ⟨_, _, hch⟩
      · rw [hch]
        rcases List.mem_append.mp hx with hx | hx
        · exact List.mem_append_left _ hx
        · exact List.mem_append_right _ (List.mem_cons_of_mem _ hx)
      · rw [hch]; exact hx
    rw [hnode1]
    refine (all_iff _ _).mpr ⟨hroot, ?_⟩
    intro c hc
    simp only [pathValueTrieNode.children] at hc
    rcases List.mem_append.mp hc with hc | hc
    · exact hkids c (hsub c (List.mem_append_left _ hc))
    · rcases List.mem_cons.mp hc with hc | hc
      · rw [hc]; exact hc2
      · exact hkids c (hsub c (List.mem_append_right _ hc))

/-- With a capacity of at least one the `Put` loop does not panic on a trie whose
lists are within capacity. -/
theorem putLoop_isSome {T : Type} [Value T] (m : Int) (v : T) (hm : 1 ≤ m)
    (hmax : m < 2 ^ 63 - 1) :
    ∀ (rs : List rune) (node : pathValueTrieNode T),
      pathValueTrieNode.All (fun n => (n.values.elems.length : Int) ≤ m) node →
      ∃ node1, putLoop m v rs node = some node1 := by
  intro rs
  induction rs with
  | nil => intro node _; exact ⟨node, rfl⟩
  | cons r rs ih =>
    intro node hall
    obtain ⟨_, hkids⟩ := (all_iff _ _).mp hall
    rw [putLoop_cons]
    cases hc : childAt node.children r with
    | some c =>
      simp only
      obtain ⟨hclen, hckids⟩ := (all_iff _ _).mp (hkids c (childAt_mem _ _ _ hc).1)
      obtain ⟨vals, hu⟩ := updateValue_isSome m c.values v hm hmax hclen
      have hlen := updateValue_length m _ _ v hu hclen
      obtain ⟨c2, hc2⟩ := ih (.mk c.r vals c.children) ((all_iff _ _).mpr ⟨hlen, hckids⟩)
      rw [hu, Option.some_bind, hc2, Option.some_bind]
      exact ⟨_, rfl⟩
    | none =>
      simp only
      rw [newNode_eq m r (by omega), Option.some_bind]
      simp only [pathValueTrieNode.values, pathValueTrieNode.r, pathValueTrieNode.children]
      have hflen : (((freshValues m : Slice T).elems.length : Nat) : Int) ≤ m := by
        simp only [freshValues, List.length_nil, Nat.cast_zero]; omega
      obtain ⟨vals, hu⟩ := updateValue_isSome m (freshValues m) v hm hmax hflen
      have hlen := updateValue_length m _ _ v hu hflen
      obtain ⟨c2, hc2⟩ := ih (.mk r vals [])
        ((all_iff _ _).mpr ⟨hlen, fun c hc => absurd hc (List.not_mem_nil _)⟩)
      rw [hu, Option.some_bind, hc2, Option.some_bind]
      exact ⟨_, rfl⟩

/-! ## `Put`, call sequences and well-formedness -/

theorem accepts_none {T : Type} [Value T] (key : GoString) :
    accepts key (none : Option T) = false := by
  simp [accepts]

theorem Put_rejected {T : Type} [Value T] (t : PathValueTrie T) (key : GoString)
    (value : Option T) (h : accepts key value = false) : t.Put key value = some (false, t) := by
  unfold PathValueTrie.Put
  unfold accepts at h
  by_cases hv : utf8.ValidString key = true
  · simp only [hv, Bool.not_true, Bool.false_eq_true, if_false]
    cases value with
    | none => rfl
    | some v =>
      simp only [hv, Bool.true_and, decide_eq_false_iff_not, ne_eq, not_not] at h
      simp only [h, if_true]
  · have hv' : utf8.ValidString key = false := by simpa using hv
    simp [hv']

theorem Put_accepted {T : Type} [Value T] (t : PathValueTrie T) (key : GoString)
    (v : T) (h : accepts key (some v) = true) :
    t.Put key (some v) = (putLoop t.maxLen v (runes key) t.root).bind fun root =>
      some (true, { t with root := root }) := by
  unfold PathValueTrie.Put
  unfold accepts at h
  simp only [Bool.and_eq_true, decide_eq_true_eq] at h
  simp only [h.1, Bool.not_true, Bool.false_eq_true, if_false, h.2]

/-- What a returning `Put` call returns: the validation verdict, and either the same
trie or the trie with the root that the loop produced. -/
theorem Put_cases {T : Type} [Value T] (t t1 : PathValueTrie T) (key : GoString)
    (value : Option T) (b : Bool) (h : t.Put key value = some (b, t1)) :
    b = accepts key value ∧
    ((b = false ∧ t1 = t) ∨
     (∃ v root, value = some v ∧ b = true ∧ putLoop t.maxLen v (runes key) t.root = some root ∧
        t1 = { t with root := root })) := by
  by_cases ha : accepts key value = true
  · cases value with
    | none => rw [accepts_none] at ha; exact Bool.noConfusion ha
    | some v =>
      rw [Put_accepted t key v ha] at h
      cases hp : putLoop t.maxLen v (runes key) t.root with
      | none => rw [hp] at h; exact Option.noConfusion h
      | some root =>
        rw [hp, Option.some_bind] at h
        have h1 := Option.some.inj h
        have hb : b = true := (congrArg Prod.fst h1).symm
        have ht : t1 = { t with root := root } := (congrArg Prod.snd h1).symm
        exact ⟨by rw [hb, ha], Or.inr ⟨v, root, rfl, hb, hp, ht⟩⟩
  · have ha' : accepts key value = false := by simpa using ha
    rw [Put_rejected t key value ha'] at h
    have h1 := Option.some.inj h
    have hb : b = false := (congrArg Prod.fst h1).symm
    have ht : t1 = t := (congrArg Prod.snd h1).symm
    exact ⟨by rw [hb, ha'], Or.inl ⟨hb, ht⟩⟩

theorem updateValue_fresh_zero {T : Type} [Value T] (m : Int) (hm : m ≤ 0) (v : T) :
    updateValue m (freshValues m) v = none := by
  cases h : updateValue m (freshValues m) v with
  | none => rfl
  | some s1 =>
    exfalso
    rcases updateValue_cases m _ s1 v h with
      ⟨⟨x, hx, _⟩, _⟩ | ⟨_, ⟨_, ⟨w, hw, _⟩, _⟩ | ⟨hlt, _, _⟩ | ⟨_, ⟨w, hw, _⟩, _⟩⟩
    · exact absurd hx (List.not_mem_nil _)
    · exact Option.noConfusion hw
    · simp only [freshValues, List.length_nil, Nat.cast_zero] at hlt; omega
    · exact Option.noConfusion hw

theorem putLoop_wellFormed {T : Type} [Value T] (t : PathValueTrie T) (v : T)
    (rs : List rune) (root : pathValueTrieNode T) (hwf : WellFormed t)
    (h : putLoop t.maxLen v rs t.root = some root) :
    WellFormed { t with root := root } := by
  obtain ⟨h0, hroot, hsorted, hlen, hzero⟩ := hwf
  obtain ⟨hs1, _, hv1, _, _⟩ := putLoop_spec t.maxLen v rs t.root root hsorted h
  have hlen1 := putLoop_all (fun s => (s.elems.length : Int) ≤ t.maxLen) t.maxLen v
    (by simp only [freshValues, List.length_nil, Nat.cast_zero]; exact h0)
    (fun s s1 hs hu => updateValue_length _ _ _ _ hu hs) rs t.root root hsorted hlen h
  refine ⟨h0, by rw [← hroot]; exact hv1, hs1, hlen1, ?_⟩
  rcases hzero with hpos | hnil
  · exact Or.inl hpos
  · by_cases hpos : 1 ≤ t.maxLen
    · exact Or.inl hpos
    · right
      cases rs with
      | nil => simp only [putLoop] at h; cases h; exact hnil
      | cons r rs =>
        exfalso
        obtain ⟨c0, vals, c2, l1, l2, hcase, hu, _⟩ :=
          putLoop_step t.maxLen v r rs t.root root ((all_iff _ _).mp hsorted).1 h
        rcases hcase with ⟨_, hmem, _, _⟩ | ⟨_, hc, _⟩
        · rw [hnil] at hmem; exact absurd hmem (List.not_mem_nil _)
        · rw [hc] at hu
          simp only [pathValueTrieNode.values] at hu
          rw [updateValue_fresh_zero t.maxLen (by omega) v] at hu
          exact Option.noConfusion hu

theorem Put_wellFormed {T : Type} [Value T] (t t1 : PathValueTrie T) (key : GoString)
    (value : Option T) (b : Bool) (hwf : WellFormed t) (h : t.Put key value = some (b, t1)) :
    WellFormed t1 ∧ t1.maxLen = t.maxLen := by
  rcases (Put_cases t t1 key value b h).2 with ⟨_, rfl⟩ | ⟨v, root, _, _, hp, rfl⟩
  · exact ⟨hwf, rfl⟩
  · exact ⟨putLoop_wellFormed t v _ root hwf hp, rfl⟩

theorem PutAll_nil {T : Type} [Value T] (t : PathValueTrie T) :
    t.PutAll [] = some ([], t) := rfl

theorem PutAll_cons {T : Type} [Value T] (t : PathValueTrie T) (key : GoString)
    (value : Option T) (calls : List (GoString × Option T)) :
    t.PutAll ((key, value) :: calls) =
      (t.Put key value).bind fun r =>
      (PathValueTrie.PutAll r.2 calls).bind fun rest => some (r.1 :: rest.1, rest.2) := rfl

/-- A returning sequence of calls decomposes into its first call and the rest. -/
theorem PutAll_cons_some {T : Type} [Value T] (t t2 : PathValueTrie T) (key : GoString)
    (value : Option T) (calls : List (GoString × Option T)) (bs : List Bool)
    (h : t.PutAll ((key, value) :: calls) = some (bs, t2)) :
    ∃ b t1 bs1, t.Put key value = some (b, t1) ∧ t1.PutAll calls = some (bs1, t2) ∧
      bs = b :: bs1 := by
  rw [PutAll_cons] at h
  cases hp : t.Put key value with
  | none => rw [hp] at h; exact Option.noConfusion h
  | some r =>
    rw [hp, Option.some_bind] at h
    cases hr : PathValueTrie.PutAll r.2 calls with
    | none => rw [hr] at h; exact Option.noConfusion h
    | some rest =>
      rw [hr, Option.some_bind] at h
      have h1 := Option.some.inj h
      have h2 : rest.2 = t2 := congrArg Prod.snd h1
      exact ⟨r.1, r.2, rest.1, rfl, by rw [hr, ← h2], (congrArg Prod.fst h1).symm⟩

theorem PutAll_wellFormed {T : Type} [Value T] :
    ∀ (calls : List (GoString × Option T)) (t t1 : PathValueTrie T) (bs : List Bool),
      WellFormed t → t.PutAll calls = some (bs, t1) →
      WellFormed t1 ∧ t1.maxLen = t.maxLen ∧ bs = calls.map (fun c => accepts c.1 c.2) := by
  intro calls
  induction calls with
  | nil =>
    intro t t1 bs hwf h
    rw [PutAll_nil] at h
    cases h
    exact ⟨hwf, rfl, rfl⟩
  | cons c calls ih =>
    intro t t2 bs hwf h
    obtain ⟨key, value⟩ := c
    obtain ⟨b, t1, bs1, hput, hrest, hbs⟩ := PutAll_cons_some t t2 key value calls bs h
    obtain ⟨hwf1, hm1⟩ := Put_wellFormed t t1 key value b hwf hput
    obtain ⟨hwf2, hm2, hbs1⟩ := ih t1 t2 bs1 hwf1 hrest
    refine ⟨hwf2, by rw [hm2, hm1], ?_⟩
    rw [hbs, hbs1, (Put_cases t t1 key value b hput).1]
    rfl

theorem New_some {T : Type} (m : Int) (t : PathValueTrie T) (h : NewPathValueTrie m = some t) :
    0 ≤ m ∧ t = { root := .mk 0 (freshValues m) [], maxLen := m } := by
  unfold NewPathValueTrie at h
  cases hn : (newNode m 0 : Option (pathValueTrieNode T)) with
  | none => rw [hn] at h; exact Option.noConfusion h
  | some root =>
    rw [hn] at h
    obtain ⟨h0, hroot⟩ := newNode_some m 0 root hn
    refine ⟨h0, ?_⟩
    rw [← Option.some.inj h, hroot]

theorem New_wellFormed {T : Type} (m : Int) (t : PathValueTrie T)
    (h : NewPathValueTrie m = some t) : WellFormed t ∧ t.maxLen = m := by
  obtain ⟨h0, rfl⟩ := New_some m t h
  refine ⟨⟨h0, rfl, ?_, ?_, Or.inr rfl⟩, rfl⟩
  · exact (all_iff _ _).mpr ⟨List.Pairwise.nil, fun c hc => absurd hc (List.not_mem_nil _)⟩
  · refine (all_iff _ _).mpr ⟨?_, fun c hc => absurd hc (List.not_mem_nil _)⟩
    simp only [pathValueTrieNode.values, freshValues, List.length_nil, Nat.cast_zero]
    exact h0

theorem reachable_wellFormed {T : Type} [Value T] (t : PathValueTrie T) (h : Reachable t) :
    WellFormed t := by
  obtain ⟨m, t0, calls, bs, _, hnew, hall⟩ := h
  exact (PutAll_wellFormed calls t0 t bs (New_wellFormed m t0 hnew).1 hall).1

/-- The capacity of a reachable trie is a value of the type `int`. -/
theorem reachable_maxLen {T : Type} [Value T] (t : PathValueTrie T) (h : Reachable t) :
    t.maxLen < 2 ^ 63 := by
  obtain ⟨m, t0, calls, bs, hint, hnew, hall⟩ := h
  obtain ⟨hwf0, hm0⟩ := New_wellFormed m t0 hnew
  rw [(PutAll_wellFormed calls t0 t bs hwf0 hall).2.1, hm0]
  exact hint

/-- With a capacity of at least one and below the largest `int`, `Put` returns on every
well-formed trie. -/
theorem Put_isSome {T : Type} [Value T] (t : PathValueTrie T) (key : GoString)
    (value : Option T) (hwf : WellFormed t) (hm : 1 ≤ t.maxLen)
    (hmax : t.maxLen < 2 ^ 63 - 1) :
    ∃ t1, t.Put key value = some (accepts key value, t1) := by
  by_cases ha : accepts key value = true
  · cases value with
    | none => rw [accepts_none] at ha; exact Bool.noConfusion ha
    | some v =>
      obtain ⟨root, hroot⟩ := putLoop_isSome t.maxLen v hm hmax (runes key) t.root hwf.2.2.2.1
      rw [Put_accepted t key v ha, hroot, Option.some_bind, ha]
      exact ⟨_, rfl⟩
  · have ha' : accepts key value = false := by simpa using ha
    rw [Put_rejected t key value ha', ha']
    exact ⟨_, rfl⟩

/-! ## The list of a node as a replay of the accepted calls -/

/-- Effect of an accepted `Put` on the lookups of a well-formed trie. -/
theorem Put_spec {T : Type} [Value T] (t t1 : PathValueTrie T) (key : GoString) (v : T)
    (b : Bool) (hwf : WellFormed t) (ha : accepts key (some v) = true)
    (h : t.Put key (some v) = some (b, t1)) :
    (∀ p, p ≠ [] → ¬ p <+: runes key → getLoop p t1.root = getLoop p t.root) ∧
    (∀ p, p ≠ [] → p <+: runes key →
      ∃ s1, updateValue t.maxLen ((slot t.root p).getD (freshValues t.maxLen)) v = some s1 ∧
        slot t1.root p = some s1) ∧
    t1.root.values = t.root.values := by
  rcases (Put_cases t t1 key (some v) b h) with ⟨hb, ⟨hf, _⟩ | ⟨v1, root, hv, _, hp, rfl⟩⟩
  · rw [hf, ha] at hb; exact Bool.noConfusion hb
  · cases hv
    obtain ⟨_, _, hv1, hframe, hupd⟩ :=
      putLoop_spec t.maxLen v (runes key) t.root root hwf.2.2.1 hp
    exact ⟨hframe, hupd, hv1⟩

theorem matching_nil {T : Type} [Value T] (p : List rune) :
    matching p ([] : List (GoString × Option T)) = [] := rfl

theorem matching_cons_skip {T : Type} [Value T] (p : List rune) (key : GoString)
    (value : Option T) (calls : List (GoString × Option T))
    (h : ¬ (accepts key value = true ∧ p <+: runes key)) :
    matching p ((key, value) :: calls) = matching p calls := by
  unfold matching
  rw [List.filterMap_cons]
  cases value with
  | none => rfl
  | some v => simp only [h, if_false]

theorem matching_cons_take {T : Type} [Value T] (p : List rune) (key : GoString)
    (v : T) (calls : List (GoString × Option T))
    (h : accepts key (some v) = true ∧ p <+: runes key) :
    matching p ((key, some v) :: calls) = v :: matching p calls := by
  unfold matching
  rw [List.filterMap_cons]
  simp only [h, and_self, if_true]

/-- After a returning sequence of calls, the list of the node at a non-empty path `p`
is the replay of `updateValue` over the payloads of the accepted calls whose key
starts with `p`; the node exists exactly when there is such a call or it existed
before. -/
theorem PutAll_spec {T : Type} [Value T] :
    ∀ (calls : List (GoString × Option T)) (t t1 : PathValueTrie T) (bs : List Bool),
      WellFormed t → t.PutAll calls = some (bs, t1) → ∀ p, p ≠ [] →
      ∃ s, replay t.maxLen ((slot t.root p).getD (freshValues t.maxLen)) (matching p calls)
          = some s ∧
        slot t1.root p = if (matching p calls).isEmpty then slot t.root p else some s := by
  intro calls
  induction calls with
  | nil =>
    intro t t1 bs _ h p _
    rw [PutAll_nil] at h
    cases h
    exact ⟨_, rfl, by simp [matching_nil]⟩
  | cons c calls ih =>
    intro t t2 bs hwf h p hp
    obtain ⟨key, value⟩ := c
    obtain ⟨b, t1, bs1, hput, hrest, _⟩ := PutAll_cons_some t t2 key value calls bs h
    obtain ⟨hwf1, hm1⟩ := Put_wellFormed t t1 key value b hwf hput
    obtain ⟨s, hs, hslot⟩ := ih t1 t2 bs1 hwf1 hrest p hp
    rw [hm1] at hs
    by_cases hin : accepts key value = true ∧ p <+: runes key
    · cases value with
      | none => rw [accepts_none] at hin; exact Bool.noConfusion hin.1
      | some v =>
        obtain ⟨_, hupd, _⟩ := Put_spec t t1 key v b hwf hin.1 hput
        obtain ⟨s1, hs1, hslot1⟩ := hupd p hp hin.2
        rw [matching_cons_take p key v calls hin]
        rw [hslot1] at hs hslot
        simp only [Option.getD_some] at hs
        refine ⟨s, ?_, ?_⟩
        · simp only [replay, hs1, Option.some_bind]; exact hs
        · simp only [List.isEmpty_cons, Bool.false_eq_true, if_false]
          rw [hslot]
          cases hm : matching p calls with
          | nil =>
            rw [hm] at hs
            simp only [replay] at hs
            simp only [List.isEmpty_nil, if_true]
            exact hs
          | cons x xs => simp
    · rw [matching_cons_skip p key value calls hin]
      have hsame : slot t1.root p = slot t.root p := by
        rcases (Put_cases t t1 key value b hput) with ⟨hb, ⟨_, rfl⟩ | ⟨v, root, hv, hbt, _, _⟩⟩
        · rfl
        · subst hv
          have ha : accepts key (some v) = true := by rw [← hb, hbt]
          obtain ⟨hframe, _, _⟩ := Put_spec t t1 key v b hwf ha hput
          unfold slot
          rw [hframe p hp (fun hpre => hin ⟨ha, hpre⟩)]
      rw [hsame] at hs hslot
      exact ⟨s, hs, hslot⟩

/-! ## Ranking: the list of a node is the top of the ranking -/

/-- On a list whose scores are pairwise equal or at least `1e-6` apart the comparator
is transitive. -/
theorem compare_trans_on {T : Type} [Value T] (l : List T)
    (hsep : ∀ a, a ∈ l → ∀ b, b ∈ l → Separated (GetScore a) (GetScore b)) :
    ∀ a b c, a ∈ l → b ∈ l → c ∈ l → valueCompare a b = true → valueCompare b c = true →
      valueCompare a c = true := by
  intro a b c ha hb hc
  exact valueCompare_trans_of_separated a b c (hsep a ha b hb) (hsep b hb c hc) (hsep a ha c hc)

theorem compare_total_on {T : Type} [Value T] (l : List T) (hnd : (l.map GetQ).Nodup) :
    l.Pairwise (fun a b => valueCompare a b = true ∨ valueCompare b a = true) := by
  have h := List.pairwise_map.mp hnd
  exact h.imp (fun hne => valueCompare_total _ _ hne)

theorem Slice_sorted_on {T : Type} [Value T] (l : List T) (hnd : (l.map GetQ).Nodup)
    (hsep : ∀ a, a ∈ l → ∀ b, b ∈ l → Separated (GetScore a) (GetScore b)) :
    (sort.Slice l valueCompare).Pairwise (fun a b => valueCompare a b = true) :=
  Slice_sorted valueCompare l (compare_trans_on l hsep) (compare_total_on l hnd)

theorem PutAll_isSome {T : Type} [Value T] :
    ∀ (calls : List (GoString × Option T)) (t : PathValueTrie T),
      WellFormed t → 1 ≤ t.maxLen → t.maxLen < 2 ^ 63 - 1 →
      ∃ bs t1, t.PutAll calls = some (bs, t1) := by
  intro calls
  induction calls with
  | nil => intro t _ _ _; exact ⟨[], t, rfl⟩
  | cons c calls ih =>
    intro t hwf hm hmax
    obtain ⟨key, value⟩ := c
    obtain ⟨t1, hput⟩ := Put_isSome t key value hwf hm hmax
    obtain ⟨hwf1, hm1⟩ := Put_wellFormed t t1 key value _ hwf hput
    obtain ⟨bs, t2, hrest⟩ := ih t1 hwf1 (by rw [hm1]; exact hm) (by rw [hm1]; exact hmax)
    rw [PutAll_cons, hput, Option.some_bind]
    simp only [hrest, Option.some_bind]
    exact ⟨_, _, rfl⟩

theorem runes_ne_nil (p : GoString) (hp : p ≠ []) : runes p ≠ [] := by
  cases p with
  | nil => exact absurd rfl hp
  | cons b t => simp [runes, rangeFrom]

theorem slot_fresh {T : Type} (m : Int) (p : List rune) (hp : p ≠ []) :
    slot (pathValueTrieNode.mk 0 (freshValues m : Slice T) []) p = none := by
  cases p with
  | nil => exact absurd rfl hp
  | cons a p => unfold slot; rw [getLoop_leaf]; rfl

theorem Get_eq_slot {T : Type} (t : PathValueTrie T) (key : GoString) :
    t.Get key = ((slot t.root (runes key)).map Slice.elems).getD [] := by
  unfold PathValueTrie.Get slot
  cases getLoop (runes key) t.root <;> rfl

set_option maxRecDepth 100000

/-! ## C1: top-K exactness -/

/-- On a trie built from `NewPathValueTrie(maxLen)` by a returning sequence of calls,
`Get(key)` for a non-empty key is the replay of `updateValue`, from the empty list,
over the payloads of the accepted calls whose key starts with the runes of `key`. -/
theorem Get_eq_replay {T : Type} [Value T] (maxLen : Int) (t0 t : PathValueTrie T)
    (calls : List (GoString × Option T)) (bs : List Bool)
    (hnew : NewPathValueTrie maxLen = some t0) (hall : t0.PutAll calls = some (bs, t))
    (key : GoString) (hkey : key ≠ []) :
    ∃ s, replay maxLen (freshValues maxLen) (matching (runes key) calls) = some s ∧
      t.Get key = s.elems := by
  obtain ⟨hwf, hm⟩ := New_wellFormed maxLen t0 hnew
  obtain ⟨_, hroot⟩ := New_some maxLen t0 hnew
  obtain ⟨s, hs, hslot⟩ := PutAll_spec calls t0 t bs hwf hall (runes key) (runes_ne_nil key hkey)
  have hfresh : slot t0.root (runes key) = none := by
    rw [hroot]; exact slot_fresh maxLen _ (runes_ne_nil key hkey)
  rw [hfresh, hm] at hs
  rw [hfresh] at hslot
  simp only [Option.getD_none] at hs
  refine ⟨s, hs, ?_⟩
  rw [Get_eq_slot, hslot]
  cases hmat : matching (runes key) calls with
  | nil =>
    rw [hmat] at hs
    simp only [replay] at hs
    cases hs
    rfl
  | cons x xs => rfl

/-- The capacity example of the specification, evaluated: with `maxLen = 2`, after `x`
(1.0), `y` (2.0), `z` (1.5) at key `"ab"`, `Get("ab")` is `[y, z]`, and so is `Get("a")`. -/
theorem capacity_example :
    (build 2 (capacityCalls.map fun c => (c.1, some c.2))).map (fun t => t.Get keyAB)
      = some [payloadY, payloadZ] ∧
    (build 2 (capacityCalls.map fun c => (c.1, some c.2))).map (fun t => t.Get keyA)
      = some [payloadY, payloadZ] ∧
    rankedTop 2 [payloadX, payloadY, payloadZ] = [payloadY, payloadZ] := by
  decide

/-! ## C2: prefix retention -/

/-- A property of the lists that the empty list has and that `updateValue` preserves for
the payloads of the calls, holds of every node after a returning sequence of calls. -/
theorem PutAll_all {T : Type} [Value T] (P : Slice T → Prop) (m : Int)
    (hfresh : P (freshValues m)) :
    ∀ (calls : List (GoString × Option T)) (t t1 : PathValueTrie T) (bs : List Bool),
      (∀ key v, (key, some v) ∈ calls → ∀ s s1, P s → updateValue m s v = some s1 → P s1) →
      WellFormed t → t.maxLen = m →
      pathValueTrieNode.All (fun n => P n.values) t.root →
      t.PutAll calls = some (bs, t1) →
      pathValueTrieNode.All (fun n => P n.values) t1.root := by
  intro calls
  induction calls with
  | nil =>
    intro t t1 bs _ _ _ hall h
    rw [PutAll_nil] at h
    cases h; exact hall
  | cons c calls ih =>
    intro t t2 bs hupd hwf hm hall h
    obtain ⟨key, value⟩ := c
    obtain ⟨b, t1, bs1, hput, hrest, _⟩ := PutAll_cons_some t t2 key value calls bs h
    obtain ⟨hwf1, hm1⟩ := Put_wellFormed t t1 key value b hwf hput
    have hall1 : pathValueTrieNode.All (fun n => P n.values) t1.root := by
      rcases (Put_cases t t1 key value b hput).2 with ⟨_, rfl⟩ | ⟨v, root, hv, _, hp, rfl⟩
      · exact hall
      · subst hv
        rw [hm] at hp
        exact putLoop_all P m v hfresh (hupd key v (List.mem_cons_self _ _)) _ t.root root
          hwf.2.2.1 hall hp
    exact ih t1 t2 bs1 (fun key v hmem => hupd key v (List.mem_cons_of_mem _ hmem)) hwf1
      (by rw [hm1, hm]) hall1 hrest

theorem fresh_all {T : Type} (P : Slice T → Prop) (m : Int) (t0 : PathValueTrie T)
    (hnew : NewPathValueTrie m = some t0) (hfresh : P (freshValues m)) :
    pathValueTrieNode.All (fun n => P n.values) t0.root := by
  obtain ⟨_, rfl⟩ := New_some m t0 hnew
  exact (all_iff _ _).mpr ⟨hfresh, fun c hc => absurd hc (List.not_mem_nil _)⟩

/-- What holds of every node holds of every `Get` result, the empty result included. -/
theorem Get_of_all {T : Type} (P : List T → Prop) (hnil : P []) (t : PathValueTrie T)
    (hall : pathValueTrieNode.All (fun n => P n.values.elems) t.root) (key : GoString) :
    P (t.Get key) := by
  unfold PathValueTrie.Get
  cases h : getLoop (runes key) t.root with
  | none => exact hnil
  | some n => exact getLoop_all (fun n => P n.values.elems) _ _ n hall h

theorem updateValue_fresh {T : Type} [Value T] (m : Int) (v : T) (s1 : Slice T)
    (h : updateValue m (freshValues m) v = some s1) : s1.elems = [v] := by
  rcases updateValue_cases m _ s1 v h with
    ⟨⟨x, hx, _⟩, _⟩ | ⟨_, ⟨_, ⟨w, hw, _⟩, _⟩ | ⟨_, _, he⟩ | ⟨_, ⟨w, hw, _⟩, _⟩⟩
  · exact absurd hx (List.not_mem_nil _)
  · exact Option.noConfusion hw
  · rw [he]; rfl
  · exact Option.noConfusion hw

/-- The list found along a path of a well-formed trie, or the empty list of a new
node, is within capacity. -/
theorem slot_length {T : Type} (t : PathValueTrie T) (hwf : WellFormed t) (p : List rune) :
    ((((slot t.root p).getD (freshValues t.maxLen)).elems.length : Nat) : Int) ≤ t.maxLen := by
  unfold slot
  cases h : getLoop p t.root with
  | none =>
    simp only [Option.map_none', Option.getD_none, freshValues, List.length_nil, Nat.cast_zero]
    exact hwf.1
  | some n =>
    simp only [Option.map_some', Option.getD_some]
    exact getLoop_all (fun n => (n.values.elems.length : Int) ≤ t.maxLen) _ _ n hwf.2.2.2.1 h

/-- C2 (prefix retention).  On a trie with `maxLen ≥ 1` in a state reached by `Put`s,
after a call `Put(key, v)` that returns `true`, for every non-empty code-point initial
segment `p` of `key` (the key included) `Get(p)` is not empty and either contains an
entry with the query text of `v` or holds exactly `maxLen` entries; when the trie was
fresh, `Get(p) = [v]`.  With `maxLen` below the largest `int`, a call that passes the
validation does return `true`. -/
theorem prefix_retention {T : Type} [Value T] (t : PathValueTrie T) (key : GoString) (v : T)
    (hreach : Reachable t) (hmax : 1 ≤ t.maxLen) :
    (∀ t1, t.Put key (some v) = some (true, t1) →
      ∀ p : GoString, p ≠ [] → runes p <+: runes key →
        t1.Get p ≠ [] ∧
        ((∃ e, e ∈ t1.Get p ∧ GetQ e = GetQ v) ∨ ((t1.Get p).length : Int) = t.maxLen) ∧
        (NewPathValueTrie t.maxLen = some t → t1.Get p = [v])) ∧
    (accepts key (some v) = true → t.maxLen < 2 ^ 63 - 1 →
      ∃ t1, t.Put key (some v) = some (true, t1)) := by
  have hwf := reachable_wellFormed t hreach
  refine ⟨?_, ?_⟩
  · intro t1 hput p hp hpre
    have hacc : accepts key (some v) = true := (Put_cases t t1 key (some v) true hput).1.symm
    obtain ⟨_, hupd, _⟩ := Put_spec t t1 key v true hwf hacc hput
    obtain ⟨s1, hs1, hslot⟩ := hupd (runes p) (runes_ne_nil p hp) hpre
    have hget : t1.Get p = s1.elems := by rw [Get_eq_slot, hslot]; rfl
    obtain ⟨hne, hor⟩ := updateValue_retains t.maxLen _ s1 v hs1 hmax (slot_length t hwf _)
    rw [hget]
    refine ⟨hne, hor, ?_⟩
    intro hnew
    obtain ⟨_, hroot⟩ := New_some t.maxLen t hnew
    have hfresh : slot t.root (runes p) = none := by
      rw [hroot]; exact slot_fresh _ _ (runes_ne_nil p hp)
    rw [hfresh] at hs1
    exact updateValue_fresh t.maxLen v s1 hs1
  · intro hacc hint
    obtain ⟨t1, hput⟩ := Put_isSome t key (some v) hwf hmax hint
    rw [hacc] at hput
    exact ⟨t1, hput⟩

theorem trieAX_reachable : Reachable trieAX :=
  ⟨1, { root := .mk 0 (freshValues 1) [], maxLen := 1 }, [(keyA, some payloadX)], [true],
    by decide, rfl, rfl⟩

theorem prefix_retention_witness :
    (Reachable trieAX ∧ (1 : Int) ≤ trieAX.maxLen) ∧
    (∀ t1, trieAX.Put keyAB (some payloadY) = some (true, t1) →
      ∀ p : GoString, p ≠ [] → runes p <+: runes keyAB →
        t1.Get p ≠ [] ∧
        ((∃ e, e ∈ t1.Get p ∧ GetQ e = GetQ payloadY) ∨
          ((t1.Get p).length : Int) = trieAX.maxLen) ∧
        (NewPathValueTrie trieAX.maxLen = some trieAX → t1.Get p = [payloadY])) ∧
    (accepts keyAB (some payloadY) = true → trieAX.maxLen < 2 ^ 63 - 1 →
      ∃ t1, trieAX.Put keyAB (some payloadY) = some (true, t1)) :=
  ⟨⟨trieAX_reachable, by decide⟩,
    prefix_retention trieAX keyAB payloadY trieAX_reachable (by decide)⟩

/-! ## C3, C5: capacity and uniqueness invariants -/

/-- C3 (capacity invariant).  For a trie created with `maxLen ≥ 1`, after every sequence
of `Put` calls that returned, every node's payload list has length at most `maxLen`; so
has every `Get(key)` result.  With `maxLen` below the largest `int` every sequence of
calls returns. -/
theorem capacity_invariant {T : Type} [Value T] (maxLen : Int) (t0 : PathValueTrie T)
    (calls : List (GoString × Option T)) (hmax : 1 ≤ maxLen)
    (hnew : NewPathValueTrie maxLen = some t0) :
    (∀ bs t, t0.PutAll calls = some (bs, t) →
      pathValueTrieNode.All (fun n => (n.values.elems.length : Int) ≤ maxLen) t.root ∧
      ∀ key : GoString, ((t.Get key).length : Int) ≤ maxLen) ∧
    (maxLen < 2 ^ 63 - 1 → ∃ bs t, t0.PutAll calls = some (bs, t)) := by
  obtain ⟨hwf, hm⟩ := New_wellFormed maxLen t0 hnew
  refine ⟨?_, fun hint => PutAll_isSome calls t0 hwf (by rw [hm]; exact hmax)
    (by rw [hm]; exact hint)⟩
  intro bs t hall
  obtain ⟨hwf1, hm1, _⟩ := PutAll_wellFormed calls t0 t bs hwf hall
  have hlen : pathValueTrieNode.All (fun n => (n.values.elems.length : Int) ≤ maxLen) t.root := by
    have := hwf1.2.2.2.1
    rw [hm1, hm] at this
    exact this
  refine ⟨hlen, ?_⟩
  intro key
  exact Get_of_all (fun l => (l.length : Int) ≤ maxLen) (by simp; omega) t hlen key

theorem capacity_invariant_witness :
    ((1 : Int) ≤ 2 ∧ NewPathValueTrie 2
        = some ({ root := .mk 0 (freshValues 2) [], maxLen := 2 } : PathValueTrie MyValue)) ∧
    (∀ bs t, ({ root := .mk 0 (freshValues 2) [], maxLen := 2 } : PathValueTrie MyValue).PutAll
        (capacityCalls.map fun c => (c.1, some c.2)) = some (bs, t) →
      pathValueTrieNode.All (fun n => (n.values.elems.length : Int) ≤ 2) t.root ∧
      ∀ key : GoString, ((t.Get key).length : Int) ≤ 2) ∧
    ((2 : Int) < 2 ^ 63 - 1 →
      ∃ bs t, ({ root := .mk 0 (freshValues 2) [], maxLen := 2 } : PathValueTrie MyValue).PutAll
        (capacityCalls.map fun c => (c.1, some c.2)) = some (bs, t)) :=
  ⟨⟨by decide, rfl⟩, capacity_invariant 2 _ _ (by decide) rfl⟩

/-- C5 (uniqueness invariant).  After any returning sequence of `Put` calls on a fresh
trie, no node's payload list holds two entries with the same query text; so the query
texts of every `Get(key)` result are pairwise distinct. -/
theorem uniqueness_invariant {T : Type} [Value T] (maxLen : Int) (t0 t : PathValueTrie T)
    (calls : List (GoString × Option T)) (bs : List Bool)
    (hnew : NewPathValueTrie maxLen = some t0) (hall : t0.PutAll calls = some (bs, t)) :
    pathValueTrieNode.All (fun n => (n.values.elems.map GetQ).Nodup) t.root ∧
    ∀ key : GoString, ((t.Get key).map GetQ).Nodup := by
  obtain ⟨hwf, hm⟩ := New_wellFormed maxLen t0 hnew
  have hnd : pathValueTrieNode.All (fun n => (n.values.elems.map GetQ).Nodup) t.root :=
    PutAll_all (fun s => (s.elems.map GetQ).Nodup) maxLen List.nodup_nil calls t0 t bs
      (fun _ v _ s s1 hs hu => updateValue_nodup maxLen s s1 v hu hs) hwf hm
      (fresh_all (fun s => (s.elems.map GetQ).Nodup) maxLen t0 hnew List.nodup_nil) hall
  exact ⟨hnd, fun key => Get_of_all (fun l => (l.map GetQ).Nodup) List.nodup_nil t hnd key⟩

theorem uniqueness_invariant_witness :
    (NewPathValueTrie 1 = some trieEmpty1 ∧
      trieEmpty1.PutAll [(keyA, some payloadX), (keyA, some payloadX3)]
        = some ([true, true], trieAX)) ∧
    (pathValueTrieNode.All (fun n => (n.values.elems.map GetQ).Nodup) trieAX.root ∧
      ∀ key : GoString, ((trieAX.Get key).map GetQ).Nodup) :=
  ⟨⟨rfl, rfl⟩, uniqueness_invariant 1 trieEmpty1 trieAX
      [(keyA, some payloadX), (keyA, some payloadX3)] [true, true] rfl rfl⟩

theorem mem_zip_map {α β : Type} (f : α → β) :
    ∀ (l : List α) (a : α), a ∈ l → (a, f a) ∈ l.zip (l.map f) := by
  intro l
  induction l with
  | nil => intro a ha; exact absurd ha (List.not_mem_nil _)
  | cons x xs ih =>
    intro a ha
    rw [List.map_cons, List.zip_cons_cons]
    rcases List.mem_cons.mp ha with h | h
    · rw [h]; exact List.mem_cons_self _ _
    · exact List.mem_cons_of_mem _ (ih a h)

theorem matching_eq_nil {T : Type} [Value T] (p : List rune) :
    ∀ (calls : List (GoString × Option T)),
      (∀ c, c ∈ calls → accepts c.1 c.2 = true → ¬ p <+: runes c.1) →
      matching p calls = [] := by
  intro calls
  induction calls with
  | nil => intro _; rfl
  | cons c calls ih =>
    intro h
    obtain ⟨key, value⟩ := c
    rw [matching_cons_skip p key value calls
      (fun hin => h (key, value) (List.mem_cons_self _ _) hin.1 hin.2)]
    exact ih (fun c hc => h c (List.mem_cons_of_mem _ hc))

/-- C10 (lookup of an absent path).  After any returning sequence of `Put` calls on a
fresh trie, `Get(k)` is the empty sequence for every key `k` that is not a code-point
initial segment of the key of a call that returned `true`.  (`Get` is a total
function: it returns for every key.) -/
theorem get_absent_path {T : Type} [Value T] (maxLen : Int) (t0 t : PathValueTrie T)
    (calls : List (GoString × Option T)) (bs : List Bool) (k : GoString)
    (hnew : NewPathValueTrie maxLen = some t0) (hall : t0.PutAll calls = some (bs, t))
    (habsent : ∀ cb, cb ∈ calls.zip bs → cb.2 = true → ¬ runes k <+: runes cb.1.1) :
    t.Get k = [] := by
  obtain ⟨hwf, hm⟩ := New_wellFormed maxLen t0 hnew
  obtain ⟨hwf1, hm1, hbs⟩ := PutAll_wellFormed calls t0 t bs hwf hall
  by_cases hk : k = []
  · subst hk
    have : t.Get [] = t.root.values.elems := rfl
    rw [this, hwf1.2.1]
    rfl
  · obtain ⟨s, hs, hget⟩ := Get_eq_replay maxLen t0 t calls bs hnew hall k hk
    have hnone : matching (runes k) calls = [] := by
      apply matching_eq_nil
      intro c hc hacc
      apply habsent (c, accepts c.1 c.2) _ hacc
      rw [hbs]
      exact mem_zip_map (fun c => accepts c.1 c.2) calls c hc
    rw [hnone] at hs
    simp only [replay] at hs
    rw [hget, ← Option.some.inj hs]
    rfl

theorem get_absent_path_witness :
    (NewPathValueTrie 1 = some trieEmpty1 ∧
      trieEmpty1.PutAll [(keyA, some payloadX), (keyAB, none)] = some ([true, false], trieAX) ∧
      (∀ cb, cb ∈ [(keyA, some payloadX), (keyAB, none)].zip [true, false] → cb.2 = true →
        ¬ runes keyAB <+: runes cb.1.1)) ∧
    trieAX.Get keyAB = [] :=
  ⟨⟨rfl, rfl, by decide⟩,
    get_absent_path 1 trieEmpty1 trieAX [(keyA, some payloadX), (keyAB, none)] [true, false]
      keyAB rfl rfl (by decide)⟩

/-! ## C6: node-level dedup -/

theorem updateValue_dup {T : Type} [Value T] (m : Int) (s : Slice T) (v : T)
    (h : ∃ x, x ∈ s.elems ∧ GetQ x = GetQ v) : updateValue m s v = some s := by
  unfold updateValue
  rw [if_pos ((any_sameQ_iff _ _).mpr h)]

theorem slot_no_children {T : Type} (node : pathValueTrieNode T) (h : node.children = [])
    (p : List rune) (hp : p ≠ []) : slot node p = none := by
  cases p with
  | nil => exact absurd rfl hp
  | cons a p =>
    unfold slot
    rw [getLoop_cons, h]
    simp [childAt]

theorem Get_eq_lookup {T : Type} (t : PathValueTrie T) (key : GoString) :
    t.Get key = t.lookup (runes key) := rfl

theorem lookup_eq_slot {T : Type} (t : PathValueTrie T) (p : List rune) :
    t.lookup p = ((slot t.root p).map Slice.elems).getD [] := by
  unfold PathValueTrie.lookup slot
  cases getLoop p t.root <;> rfl

/-! ## The largest capacity, `maxLen = 2^63 - 1` -/

theorem wrapInt_maxInt : wrapInt (2 ^ 63 - 1 + 1) = -2 ^ 63 := by
  decide

/-- What `updateValue` stores back is the list as it was, or the expanded list with the
payload appended (then sorted, and truncated). -/
theorem updateValue_stored {T : Type} [Value T] (m : Int) (s s1 : Slice T) (v : T)
    (h : updateValue m s v = some s1) :
    s1 = s ∨ ∃ s2, expandValues m s = some s2 ∧ s1.cap = (s2.append v).cap := by
  unfold updateValue at h
  by_cases hdup : s.elems.any (fun x => GetQ x == GetQ v) = true
  · rw [if_pos hdup] at h
    exact Or.inl (Option.some.inj h).symm
  · rw [if_neg hdup] at h
    simp only at h
    generalize (if (s.elems.length : Int) ≥ m then
      s.elems.getLast?.map (fun worst => valueCompare worst v) else some false) = full at h
    cases full with
    | none => exact Option.noConfusion h
    | some b =>
      cases b with
      | true => exact Or.inl (Option.some.inj h).symm
      | false =>
        simp only at h
        cases hexp : expandValues m s with
        | none => rw [hexp] at h; exact Option.noConfusion h
        | some s2 =>
          rw [hexp] at h
          simp only at h
          right
          refine ⟨s2, rfl, ?_⟩
          split at h
          · cases h; rfl
          · split at h
            · split at h
              · exact Option.noConfusion h
              · cases h; rfl
            · cases h; rfl

/-- At capacity `2^63 - 1` the expansion of a full array of four slots panics: the new
capacity `trie.maxLen + 1` is negative. -/
theorem expandValues_maxInt {T : Type} (s : Slice T) (hcap : s.cap = 4) :
    expandValues (2 ^ 63 - 1) s = if s.elems.length = 4 then none else some s := by
  unfold expandValues
  rw [wrapInt_maxInt, hcap]
  by_cases h4 : s.elems.length = 4
  · rw [if_pos h4.symm, if_pos h4]
    simp only []
    rw [h4]
    rfl
  · rw [if_neg (fun h => h4 h.symm), if_neg h4]
/-- At capacity `2^63 - 1` a returning `updateValue` keeps the array of four slots, keeps
every entry, and leaves the query text of the payload in the list. -/
theorem updateValue_maxInt {T : Type} [Value T] (s s1 : Slice T) (v : T) (hs : FourSlots s)
    (h : updateValue (2 ^ 63 - 1) s v = some s1) :
    FourSlots s1 ∧ (∃ e, e ∈ s1.elems ∧ GetQ e = GetQ v) ∧
    (∀ e, e ∈ s.elems → e ∈ s1.elems) := by
  obtain ⟨hcap, hlen, hnd⟩ := hs
  have hnd1 := updateValue_nodup _ s s1 v h hnd
  have happ : s1.elems.Perm (s.elems ++ [v]) → FourSlots s1 ∧
      (∃ e, e ∈ s1.elems ∧ GetQ e = GetQ v) ∧ (∀ e, e ∈ s.elems → e ∈ s1.elems) := by
    intro hp
    have hlen1 : s1.elems.length = s.elems.length + 1 := by
      rw [hp.length_eq]; simp
    have hne : s1 ≠ s := by
      intro heq; rw [heq] at hlen1; omega
    rcases updateValue_stored _ s s1 v h with heq | ⟨s2, hexp, hc⟩
    · exact absurd heq hne
    · rw [expandValues_maxInt s hcap] at hexp
      by_cases h4 : s.elems.length = 4
      · rw [if_pos h4] at hexp; exact Option.noConfusion hexp
      · rw [if_neg h4] at hexp
        cases hexp
        have hlt : s.elems.length < s.cap := by omega
        refine ⟨⟨?_, by omega, hnd1⟩, ⟨v, hp.symm.subset (by simp), rfl⟩,
          fun e he => hp.symm.subset (List.mem_append_left _ he)⟩
        rw [hc]
        simp only [Slice.append, if_pos hlt]
        exact hcap
  rcases updateValue_cases _ s s1 v h with
    ⟨hx, rfl⟩ | ⟨_, ⟨hfull, _, _⟩ | ⟨_, _, he⟩ | ⟨_, _, he⟩⟩
  · exact ⟨⟨hcap, hlen, hnd⟩, hx, fun e he => he⟩
  · exfalso
    have : (s.elems.length : Int) ≤ 4 := by exact_mod_cast hlen
    omega
  · exact happ (by rw [he])
  · apply happ
    rw [he, List.take_of_length_le]
    · exact Slice_perm _ _
    · rw [Slice_length]
      simp only [List.length_append, List.length_singleton]
      have h1 : (5 : Nat) ≤ ((2 : Int) ^ 63 - 1).toNat := by decide
      omega

/-- At capacity `2^63 - 1` `updateValue` returns on a list that holds the query text of
the payload or fewer than four entries. -/
theorem updateValue_maxInt_isSome {T : Type} [Value T] (s : Slice T) (v : T)
    (hs : FourSlots s)
    (h : (∃ x, x ∈ s.elems ∧ GetQ x = GetQ v) ∨ s.elems.length < 4) :
    ∃ s1, updateValue (2 ^ 63 - 1) s v = some s1 := by
  rcases h with h | h
  · exact ⟨s, updateValue_dup _ s v h⟩
  · apply updateValue_isSome_of_expand _ s v (by decide)
    rw [expandValues_maxInt s hs.1, if_neg (by omega)]
    exact ⟨s, rfl⟩
theorem fourSlots_fresh {T : Type} [Value T] :
    FourSlots (freshValues (2 ^ 63 - 1) : Slice T) := by
  refine ⟨?_, ?_, ?_⟩
  · show ((min 4 (2 ^ 63 - 1)).toNat : Nat) = 4
    decide
  · simp [freshValues]
  · simp [freshValues]

/-- A list of at most four entries that holds the query text of `v` and every query
text of a second list without that of `v` is longer than the second list. -/
theorem nested_length_lt {T : Type} [Value T] (big small : Slice T) (v : T)
    (hbig : FourSlots big) (hsmall : FourSlots small)
    (hnest : ∀ e, e ∈ small.elems → ∃ e2, e2 ∈ big.elems ∧ GetQ e2 = GetQ e)
    (hv : ∃ e, e ∈ big.elems ∧ GetQ e = GetQ v)
    (hdup : ¬ ∃ x, x ∈ small.elems ∧ GetQ x = GetQ v) : small.elems.length < 4 := by
  have hnd : (GetQ v :: small.elems.map GetQ).Nodup := by
    rw [List.nodup_cons]
    refine ⟨?_, hsmall.2.2⟩
    intro hmem
    obtain ⟨x, hx, hq⟩ := List.mem_map.mp hmem
    exact hdup ⟨x, hx, hq⟩
  have hsub : (GetQ v :: small.elems.map GetQ) ⊆ big.elems.map GetQ := by
    intro q hq
    rcases List.mem_cons.mp hq with rfl | hq
    · obtain ⟨e, he, heq⟩ := hv
      exact List.mem_map.mpr ⟨e, he, heq⟩
    · obtain ⟨x, hx, rfl⟩ := List.mem_map.mp hq
      obtain ⟨e2, he2, heq⟩ := hnest x hx
      exact List.mem_map.mpr ⟨e2, he2, heq⟩
  have hle := (List.subperm_of_subset hnd hsub).length_le
  simp only [List.length_cons, List.length_map] at hle
  have := hbig.2.1
  omega

/-- The invariant of the updated child: the loop below it only added the query text of
the payload to the lists under it. -/
theorem maxInt_child {T : Type} [Value T] (v : T) (c c2 : pathValueTrieNode T) (vals : Slice T)
    (hc : MaxIntInv c) (hu : updateValue (2 ^ 63 - 1) c.values v = some vals)
    (hvals : c2.values = vals)
    (hkids : ∀ c3, c3 ∈ c2.children → MaxIntInv c3 ∧
      (c3 ∈ c.children ∨ ∀ e, e ∈ c3.values.elems →
        GetQ e = GetQ v ∨ ∃ c4, c4 ∈ c.children ∧ e ∈ c4.values.elems)) :
    MaxIntInv c2 ∧ ∀ e, e ∈ c2.values.elems → GetQ e = GetQ v ∨ e ∈ c.values.elems := by
  obtain ⟨⟨hfour, hnest⟩, _⟩ := (all_iff _ _).mp hc
  obtain ⟨hfour1, hv1, hsup⟩ := updateValue_maxInt c.values vals v hfour hu
  constructor
  · refine (all_iff _ _).mpr ⟨⟨by rw [hvals]; exact hfour1, ?_⟩, fun c3 h3 => (hkids c3 h3).1⟩
    intro c3 h3 e he
    rw [hvals]
    have hold : ∀ c4, c4 ∈ c.children → e ∈ c4.values.elems →
        ∃ e2, e2 ∈ vals.elems ∧ GetQ e2 = GetQ e := by
      intro c4 h4 he4
      obtain ⟨e2, he2, hq⟩ := hnest c4 h4 e he4
      exact ⟨e2, hsup e2 he2, hq⟩
    rcases (hkids c3 h3).2 with hin | hnew
    · exact hold c3 hin he
    · rcases hnew e he with hq | ⟨c4, h4, he4⟩
      · obtain ⟨e2, he2, hq2⟩ := hv1
        exact ⟨e2, he2, hq2.trans hq.symm⟩
      · exact hold c4 h4 he4
  · intro e he
    rw [hvals] at he
    rcases updateValue_mem _ _ _ v hu e he with h | h
    · exact Or.inr h
    · exact Or.inl (by rw [h])

/-- At capacity `2^63 - 1` the `Put` loop keeps the invariant of the nodes below the node
it starts from, and only adds the query text of the payload to the lists of its
children. -/
theorem putLoop_maxInt {T : Type} [Value T] (v : T) :
    ∀ (rs : List rune) (node node1 : pathValueTrieNode T),
      (∀ c, c ∈ node.children → MaxIntInv c) →
      putLoop (2 ^ 63 - 1) v rs node = some node1 →
      node1.values = node.values ∧
      ∀ c1, c1 ∈ node1.children → MaxIntInv c1 ∧
        (c1 ∈ node.children ∨ ∀ e, e ∈ c1.values.elems →
          GetQ e = GetQ v ∨ ∃ c, c ∈ node.children ∧ e ∈ c.values.elems) := by
  intro rs
  induction rs with
  | nil =>
    intro node node1 hkids h
    cases h
    exact ⟨rfl, fun c1 h1 => ⟨hkids c1 h1, Or.inl h1⟩⟩
  | cons r rs ih =>
    intro node node1 hkids h
    rw [putLoop_cons] at h
    cases hc : childAt node.children r with
    | some c =>
      rw [hc] at h
      simp only at h
      have hcmem := (childAt_mem _ _ _ hc).1
      have hcinv := hkids c hcmem
      cases hu : updateValue (2 ^ 63 - 1) c.values v with
      | none => rw [hu] at h; exact Option.noConfusion h
      | some vals =>
        rw [hu, Option.some_bind] at h
        cases hp : putLoop (2 ^ 63 - 1) v rs (.mk c.r vals c.children) with
        | none => rw [hp] at h; exact Option.noConfusion h
        | some c2 =>
          rw [hp, Option.some_bind] at h
          cases h
          obtain ⟨hv2, hk2⟩ := ih (.mk c.r vals c.children) c2
            (fun c3 h3 => ((all_iff _ _).mp hcinv).2 c3 h3) hp
          obtain ⟨hinv2, hel2⟩ := maxInt_child v c c2 vals hcinv hu hv2 hk2
          refine ⟨rfl, ?_⟩
          intro c1 h1
          simp only [pathValueTrieNode.children] at h1
          rcases List.mem_or_eq_of_mem_set h1 with hin | heq
          · exact ⟨hkids c1 hin, Or.inl hin⟩
          · rw [heq]
            refine ⟨hinv2, Or.inr ?_⟩
            intro e he
            rcases hel2 e he with hq | hin
            · exact Or.inl hq
            · exact Or.inr ⟨c, hcmem, hin⟩
    | none =>
      rw [hc] at h
      simp only at h
      rw [newNode_eq (2 ^ 63 - 1) r (by decide), Option.some_bind] at h
      simp only [pathValueTrieNode.values, pathValueTrieNode.r, pathValueTrieNode.children] at h
      have hfinv : MaxIntInv (pathValueTrieNode.mk r (freshValues (2 ^ 63 - 1) : Slice T) []) :=
        (all_iff _ _).mpr ⟨⟨fourSlots_fresh, fun c hcm => absurd hcm (List.not_mem_nil _)⟩,
          fun c hcm => absurd hcm (List.not_mem_nil _)⟩
      cases hu : updateValue (2 ^ 63 - 1) (freshValues (2 ^ 63 - 1) : Slice T) v with
      | none => rw [hu] at h; exact Option.noConfusion h
      | some vals =>
        rw [hu, Option.some_bind] at h
        cases hp : putLoop (2 ^ 63 - 1) v rs (.mk r vals []) with
        | none => rw [hp] at h; exact Option.noConfusion h
        | some c2 =>
          rw [hp, Option.some_bind] at h
          cases h
          obtain ⟨hv2, hk2⟩ := ih (.mk r vals []) c2
            (fun c3 h3 => absurd h3 (List.not_mem_nil _)) hp
          obtain ⟨hinv2, hel2⟩ := maxInt_child v (.mk r (freshValues (2 ^ 63 - 1)) []) c2 vals
            hfinv hu hv2 hk2
          refine ⟨rfl, ?_⟩
          intro c1 h1
          simp only [pathValueTrieNode.children] at h1
          rcases List.mem_append.mp h1 with hin | hin
          · exact ⟨hkids c1 (List.mem_of_mem_take hin), Or.inl (List.mem_of_mem_take hin)⟩
          · rcases List.mem_cons.mp hin with heq | hin
            · rw [heq]
              refine ⟨hinv2, Or.inr ?_⟩
              intro e he
              rcases hel2 e he with hq | hin
              · exact Or.inl hq
              · exact absurd hin (List.not_mem_nil _)
            · exact ⟨hkids c1 (List.mem_of_mem_drop hin), Or.inl (List.mem_of_mem_drop hin)⟩
/-- At capacity `2^63 - 1`, from a node whose list holds the query text of the payload the
`Put` loop returns: every list below holds that query text too or has a free slot. -/
theorem putLoop_maxInt_isSome {T : Type} [Value T] (v : T) :
    ∀ (rs : List rune) (node : pathValueTrieNode T),
      MaxIntInv node → (∃ e, e ∈ node.values.elems ∧ GetQ e = GetQ v) →
      ∃ node1, putLoop (2 ^ 63 - 1) v rs node = some node1 := by
  intro rs
  induction rs with
  | nil => intro node _ _; exact ⟨node, rfl⟩
  | cons r rs ih =>
    intro node hinv hv
    obtain ⟨⟨hfour, hnest⟩, hkids⟩ := (all_iff _ _).mp hinv
    rw [putLoop_cons]
    cases hc : childAt node.children r with
    | some c =>
      simp only
      have hcmem := (childAt_mem _ _ _ hc).1
      have hcinv := hkids c hcmem
      obtain ⟨⟨hcfour, hcnest⟩, hckids⟩ := (all_iff _ _).mp hcinv
      have hfree : (∃ x, x ∈ c.values.elems ∧ GetQ x = GetQ v) ∨ c.values.elems.length < 4 := by
        by_cases hdup : ∃ x, x ∈ c.values.elems ∧ GetQ x = GetQ v
        · exact Or.inl hdup
        · exact Or.inr (nested_length_lt node.values c.values v hfour hcfour (hnest c hcmem)
            hv hdup)
      obtain ⟨vals, hu⟩ := updateValue_maxInt_isSome c.values v hcfour hfree
      obtain ⟨hfour1, hv1, hsup⟩ := updateValue_maxInt c.values vals v hcfour hu
      have hinv1 : MaxIntInv (.mk c.r vals c.children) := by
        refine (all_iff _ _).mpr ⟨⟨hfour1, ?_⟩, hckids⟩
        intro c3 h3 e he
        obtain ⟨e2, he2, hq⟩ := hcnest c3 h3 e he
        exact ⟨e2, hsup e2 he2, hq⟩
      obtain ⟨c2, hc2⟩ := ih (.mk c.r vals c.children) hinv1 hv1
      rw [hu, Option.some_bind, hc2, Option.some_bind]
      exact ⟨_, rfl⟩
    | none =>
      simp only
      rw [newNode_eq (2 ^ 63 - 1) r (by decide), Option.some_bind]
      simp only [pathValueTrieNode.values, pathValueTrieNode.r, pathValueTrieNode.children]
      obtain ⟨vals, hu⟩ := updateValue_maxInt_isSome (freshValues (2 ^ 63 - 1) : Slice T) v
        fourSlots_fresh (Or.inr (by simp [freshValues]))
      obtain ⟨hfour1, hv1, _⟩ := updateValue_maxInt _ vals v fourSlots_fresh hu
      have hinv1 : MaxIntInv (.mk r vals []) :=
        (all_iff _ _).mpr ⟨⟨hfour1, fun c hcm => absurd hcm (List.not_mem_nil _)⟩,
          fun c hcm => absurd hcm (List.not_mem_nil _)⟩
      obtain ⟨c2, hc2⟩ := ih (.mk r vals []) hinv1 hv1
      rw [hu, Option.some_bind, hc2, Option.some_bind]
      exact ⟨_, rfl⟩

/-- At capacity `2^63 - 1` a query text in the list of a node is in the list of every
node above it. -/
theorem maxInt_text_above {T : Type} [Value T] (v : T) :
    ∀ (ps : List rune) (c n : pathValueTrieNode T),
      MaxIntInv c → getLoop ps c = some n →
      (∃ e, e ∈ n.values.elems ∧ GetQ e = GetQ v) →
      ∃ e, e ∈ c.values.elems ∧ GetQ e = GetQ v := by
  intro ps
  induction ps with
  | nil =>
    intro c n _ h hv
    rw [getLoop_nil] at h
    cases h
    exact hv
  | cons r ps ih =>
    intro c n hinv h hv
    obtain ⟨⟨_, hnest⟩, hkids⟩ := (all_iff _ _).mp hinv
    rw [getLoop_cons] at h
    cases hc : childAt c.children r with
    | none => rw [hc] at h; exact Option.noConfusion h
    | some c1 =>
      rw [hc, Option.some_bind] at h
      have hmem := (childAt_mem _ _ _ hc).1
      obtain ⟨e, he, hq⟩ := ih c1 n (hkids c1 hmem) h hv
      obtain ⟨e2, he2, hq2⟩ := hnest c1 hmem e he
      exact ⟨e2, he2, hq2.trans hq⟩

/-- At capacity `2^63 - 1` the `Put` loop returns from the root when the list at a
non-empty initial segment of the key holds the query text of the payload. -/
theorem putLoop_maxInt_root {T : Type} [Value T] (v : T) (root : pathValueTrieNode T)
    (hkids : ∀ c, c ∈ root.children → MaxIntInv c)
    (p rs : List rune) (hp : p ≠ []) (hpre : p <+: rs) (s : Slice T)
    (hs : slot root p = some s) (hdup : ∃ e, e ∈ s.elems ∧ GetQ e = GetQ v) :
    ∃ root1, putLoop (2 ^ 63 - 1) v rs root = some root1 := by
  obtain ⟨rest, rfl⟩ := hpre
  cases p with
  | nil => exact absurd rfl hp
  | cons r ps =>
    unfold slot at hs
    rw [getLoop_cons] at hs
    rw [List.cons_append, putLoop_cons]
    cases hc : childAt root.children r with
    | none => rw [hc] at hs; exact Option.noConfusion hs
    | some c =>
      rw [hc, Option.some_bind] at hs
      simp only
      have hcinv := hkids c (childAt_mem _ _ _ hc).1
      cases hn : getLoop ps c with
      | none => rw [hn] at hs; exact Option.noConfusion hs
      | some n =>
        rw [hn] at hs
        cases hs
        have hv := maxInt_text_above v ps c n hcinv hn hdup
        rw [updateValue_dup _ c.values v hv, Option.some_bind, node_eta]
        obtain ⟨c2, hc2⟩ := putLoop_maxInt_isSome v (ps ++ rest) c hcinv hv
        rw [hc2, Option.some_bind]
        exact ⟨_, rfl⟩

/-- The invariant of capacity `2^63 - 1` holds of the children of the root after every
returning sequence of calls. -/
theorem PutAll_maxInt {T : Type} [Value T] :
    ∀ (calls : List (GoString × Option T)) (t t1 : PathValueTrie T) (bs : List Bool),
      t.maxLen = 2 ^ 63 - 1 → (∀ c, c ∈ t.root.children → MaxIntInv c) →
      t.PutAll calls = some (bs, t1) →
      ∀ c, c ∈ t1.root.children → MaxIntInv c := by
  intro calls
  induction calls with
  | nil =>
    intro t t1 bs _ hinv h
    rw [PutAll_nil] at h
    cases h
    exact hinv
  | cons call calls ih =>
    intro t t2 bs hm hinv h
    obtain ⟨key, value⟩ := call
    obtain ⟨b, t1, bs1, hput, hrest, _⟩ := PutAll_cons_some t t2 key value calls bs h
    rcases (Put_cases t t1 key value b hput).2 with ⟨_, ht⟩ | ⟨v, root, _, _, hp, ht⟩
    · rw [ht] at hrest
      exact ih t t2 bs1 hm hinv hrest
    · rw [hm] at hp
      rw [ht] at hrest
      have hroot := (putLoop_maxInt v (runes key) t.root root hinv hp).2
      exact ih { t with root := root } t2 bs1 hm (fun c hc => (hroot c hc).1) hrest

theorem reachable_maxInt {T : Type} [Value T] (t : PathValueTrie T) (hreach : Reachable t)
    (hm : t.maxLen = 2 ^ 63 - 1) : ∀ c, c ∈ t.root.children → MaxIntInv c := by
  obtain ⟨m, t0, calls, bs, _, hnew, hall⟩ := hreach
  obtain ⟨hwf0, hm0⟩ := New_wellFormed m t0 hnew
  have hmt := (PutAll_wellFormed calls t0 t bs hwf0 hall).2.1
  have hroot0 : t0.root.children = [] := by
    rw [(New_some m t0 hnew).2]; rfl
  refine PutAll_maxInt calls t0 t bs (by rw [← hmt]; exact hm) ?_ hall
  intro c hc
  rw [hroot0] at hc
  exact absurd hc (List.not_mem_nil _)

/-- On a reachable trie `Put` returns when the list at a non-empty code-point initial
segment of the key holds the query text of the payload: below the largest `int` it
always returns, and at `maxLen = 2^63 - 1`, where the expansion of a full array panics,
no array on the path of the key is both full and without that query text. -/
theorem Put_isSome_of_dup {T : Type} [Value T] (t : PathValueTrie T) (key : GoString) (v : T)
    (hreach : Reachable t) (p : List rune) (hp : p ≠ []) (hpre : p <+: runes key)
    (s : Slice T) (hs : slot t.root p = some s)
    (hdup : ∃ e, e ∈ s.elems ∧ GetQ e = GetQ v) :
    ∃ t1, t.Put key (some v) = some (accepts key (some v), t1) := by
  have hwf := reachable_wellFormed t hreach
  have hmax : 1 ≤ t.maxLen := by
    rcases hwf.2.2.2.2 with h | h
    · exact h
    · rw [slot_no_children t.root h _ hp] at hs; exact Option.noConfusion hs
  by_cases hint : t.maxLen < 2 ^ 63 - 1
  · exact Put_isSome t key (some v) hwf hmax hint
  · have hm : t.maxLen = 2 ^ 63 - 1 := by
      have := reachable_maxLen t hreach
      omega
    by_cases ha : accepts key (some v) = true
    · obtain ⟨root1, hroot⟩ := putLoop_maxInt_root v t.root (reachable_maxInt t hreach hm)
        p (runes key) hp hpre s hs hdup
      rw [Put_accepted t key v ha, hm, hroot, Option.some_bind, ha]
      exact ⟨_, rfl⟩
    · have ha' : accepts key (some v) = false := by simpa using ha
      rw [Put_rejected t key (some v) ha', ha']
      exact ⟨_, rfl⟩

/-- At `maxLen = 2^63 - 1` four insertions at a node return and the fifth panics: the
array of four slots is full, and the new capacity `trie.maxLen + 1` wraps around to
`-2^63`. -/
theorem put_panics_at_largest_capacity :
    ((NewPathValueTrie (2 ^ 63 - 1) : Option (PathValueTrie MyValue)).bind
      fun t => (t.PutAll (fiveCalls.take 4)).map Prod.fst) = some [true, true, true, true] ∧
    ((NewPathValueTrie (2 ^ 63 - 1) : Option (PathValueTrie MyValue)).bind
      fun t => t.PutAll fiveCalls).isNone = true := by
  decide

/-- At `maxLen = 2^63 - 1`, with the node `a` holding four entries, one of them with
query text `x`: `Put("ab", (x, 3.0))` returns `true`; it leaves the full node `a` as it
is and creates the node `ab`. -/
theorem dedup_at_largest_capacity :
    ((NewPathValueTrie (2 ^ 63 - 1) : Option (PathValueTrie MyValue)).bind
      fun t => (t.PutAll (fiveCalls.take 4 ++ [(keyAB, some payloadX3)])).map
        fun r => (r.1, r.2.Get keyA, r.2.Get keyAB))
      = some ([true, true, true, true, true],
          [payloadY, payloadZ, payloadX, payloadC0], [payloadX3]) := by
  decide

/-! ## C6: node-level dedup, the claim -/

/-- C6 (node-level dedup, first wins).  In every state reached by `Put`s, for every key,
every non-empty code-point initial segment `p` of it and every payload `v`: if `Get(p)`
already holds an entry with the query text of `v`, then `Put(key, v)` returns and
`Get(p)` is afterwards exactly what it was, whatever the score of `v`. -/
theorem dedup_first_wins {T : Type} [Value T] (t : PathValueTrie T) (key p : GoString) (v : T)
    (hreach : Reachable t) (hp : p ≠ []) (hpre : runes p <+: runes key)
    (hdup : ∃ e, e ∈ t.Get p ∧ GetQ e = GetQ v) :
    ∃ b t1, t.Put key (some v) = some (b, t1) ∧ t1.Get p = t.Get p := by
  have hwf := reachable_wellFormed t hreach
  have hpr := runes_ne_nil p hp
  -- the node of `p` exists and holds the entry
  obtain ⟨s, hs, hsdup⟩ : ∃ s, slot t.root (runes p) = some s ∧
      ∃ e, e ∈ s.elems ∧ GetQ e = GetQ v := by
    obtain ⟨e, he, hq⟩ := hdup
    rw [Get_eq_slot] at he
    cases hslot : slot t.root (runes p) with
    | none => rw [hslot] at he; exact absurd he (List.not_mem_nil _)
    | some s => rw [hslot] at he; exact ⟨s, rfl, e, he, hq⟩
  obtain ⟨t1, hput⟩ := Put_isSome_of_dup t key v hreach (runes p) hpr hpre s hs hsdup
  refine ⟨_, t1, hput, ?_⟩
  by_cases hacc : accepts key (some v) = true
  · obtain ⟨_, hupd, _⟩ := Put_spec t t1 key v _ hwf hacc hput
    obtain ⟨s1, hs1, hslot1⟩ := hupd (runes p) hpr hpre
    rw [hs, Option.getD_some, updateValue_dup t.maxLen s v hsdup] at hs1
    rw [Get_eq_slot, Get_eq_slot, hslot1, hs, ← Option.some.inj hs1]
  · rcases (Put_cases t t1 key (some v) _ hput).2 with ⟨_, h⟩ | ⟨_, _, _, hb, _, _⟩
    · rw [h]
    · exact absurd hb hacc

theorem dedup_first_wins_witness :
    (Reachable trieAX ∧ keyA ≠ [] ∧ runes keyA <+: runes keyAB ∧
      ∃ e, e ∈ trieAX.Get keyA ∧ GetQ e = GetQ payloadX3) ∧
    ∃ b t1, trieAX.Put keyAB (some payloadX3) = some (b, t1) ∧ t1.Get keyA = trieAX.Get keyA :=
  ⟨⟨trieAX_reachable, by decide, by decide, payloadX, by decide, by decide⟩,
    dedup_first_wins trieAX keyAB keyA payloadX3 trieAX_reachable (by decide) (by decide)
      ⟨payloadX, by decide, by decide⟩⟩

theorem childAt_getElem {T : Type} (cs : List (pathValueTrieNode T)) (r : rune)
    (c : pathValueTrieNode T) (h : childAt cs r = some c) :
    cs[searchChild cs r]? = some c := by
  unfold childAt at h
  cases hget : cs[searchChild cs r]? with
  | none => rw [hget] at h; exact Option.noConfusion h
  | some c1 =>
    rw [hget] at h
    simp only at h
    by_cases hr : c1.r = r
    · rw [if_pos hr] at h; exact h
    · rw [if_neg hr] at h; exact Option.noConfusion h

theorem set_of_getElem {α : Type} (a : α) :
    ∀ (l : List α) (i : Nat), l[i]? = some a → l.set i a = l := by
  intro l
  induction l with
  | nil => intro i _; rfl
  | cons x xs ih =>
    intro i h
    cases i with
    | zero =>
      simp only [List.getElem?_cons_zero, Option.some.injEq] at h
      rw [List.set_cons_zero, h]
    | succ j =>
      simp only [List.getElem?_cons_succ] at h
      rw [List.set_cons_succ, ih j h]

/-- When every node along the key already holds the candidate's query text, the `Put`
loop changes nothing. -/
theorem putLoop_noop {T : Type} [Value T] (m : Int) (v : T) :
    ∀ (rs : List rune) (node : pathValueTrieNode T),
      (∀ p, p ≠ [] → p <+: rs → ∃ s, slot node p = some s ∧
        ∃ e, e ∈ s.elems ∧ GetQ e = GetQ v) →
      putLoop m v rs node = some node := by
  intro rs
  induction rs with
  | nil => intro node _; rfl
  | cons r rs ih =>
    intro node h
    obtain ⟨s, hs, hdup⟩ := h [r] (by simp) (List.cons_prefix_cons.mpr ⟨rfl, List.nil_prefix⟩)
    unfold slot at hs
    rw [getLoop_cons] at hs
    cases hc : childAt node.children r with
    | none => rw [hc] at hs; exact Option.noConfusion hs
    | some c =>
      rw [hc] at hs
      simp only [Option.some_bind, getLoop_nil, Option.map_some'] at hs
      have hcv : c.values = s := Option.some.inj hs
      have hrec : putLoop m v rs c = some c := by
        apply ih
        intro p hp hpre
        have := h (r :: p) (by simp) (List.cons_prefix_cons.mpr ⟨rfl, hpre⟩)
        unfold slot at this ⊢
        rw [getLoop_cons, hc] at this
        exact this
      rw [putLoop_cons, hc]
      simp only
      rw [hcv, updateValue_dup m s v hdup, Option.some_bind, ← hcv, node_eta, hrec,
        Option.some_bind, set_of_getElem _ _ _ (childAt_getElem _ _ _ hc), node_eta]

/-! ## C7: re-insertion of a query text -/

theorem trieAY_reachable : Reachable trieAY :=
  ⟨1, trieEmpty1, [(keyA, some payloadY)], [true], by decide, rfl, rfl⟩

/-- C7, counterexample.  In the state `trieAY` (capacity 1, node `a` holding `(y, 2.0)`,
reached by `Put("a", y)` on a fresh trie),
`Put("a", (x, 1.0))` returns `true` and leaves the trie as it is (`x` is dropped, the
node is full), and then `Put("a", (x, 3.0))`, same query text and another score,
returns `true` and changes `Get("a")` from `[(y, 2.0)]` to `[(x, 3.0)]`. -/
theorem reinsert_changes_full_node :
    Reachable trieAY ∧ GetQ payloadX = GetQ payloadX3 ∧ GetQ payloadX ≠ [] ∧
    GetScore payloadX ≠ GetScore payloadX3 ∧ utf8.ValidString keyA = true ∧
    trieAY.Put keyA (some payloadX) = some (true, trieAY) ∧
    trieAY.Put keyA (some payloadX3) = some (true, trieAX3) ∧
    trieAY.Get keyA = [payloadY] ∧ trieAX3.Get keyA = [payloadX3] ∧
    trieAX3.Get keyA ≠ trieAY.Get keyA :=
  ⟨trieAY_reachable, by decide, by decide, by decide, by decide, rfl, rfl, by decide,
    by decide, by decide⟩

/-- C7 (amended).  For payloads `v1`, `v2` with the same query text and a call
`Put(key, v1)` that returned `true`: if afterwards the list of every non-empty
code-point initial segment `p` of `key` holds an entry with that query text, then
`Put(key, v2)` returns `true` and leaves the trie exactly as it was after
`Put(key, v1)` (so `Get(k)` is the same for every key `k`).  The condition holds when
the first call is made on a fresh trie with `maxLen ≥ 1`. -/
theorem reinsert_unchanged {T : Type} [Value T] (t t1 : PathValueTrie T) (key : GoString)
    (v1 v2 : T) (hq : GetQ v1 = GetQ v2) (h1 : t.Put key (some v1) = some (true, t1)) :
    ((∀ p : List rune, p ≠ [] → p <+: runes key →
        ∃ e, e ∈ t1.lookup p ∧ GetQ e = GetQ v1) →
      t1.Put key (some v2) = some (true, t1)) ∧
    (NewPathValueTrie t.maxLen = some t → 1 ≤ t.maxLen →
      t1.Put key (some v2) = some (true, t1)) := by
  have hacc1 : accepts key (some v1) = true := ((Put_cases t t1 key (some v1) true h1).1).symm
  have hacc2 : accepts key (some v2) = true := by
    unfold accepts at hacc1 ⊢
    simp only [← hq]
    exact hacc1
  have hm : t1.maxLen = t.maxLen := by
    rcases (Put_cases t t1 key (some v1) true h1).2 with ⟨_, h⟩ | ⟨_, _, _, _, _, h⟩
    · rw [h]
    · rw [h]
  have main : (∀ p : List rune, p ≠ [] → p <+: runes key →
        ∃ e, e ∈ t1.lookup p ∧ GetQ e = GetQ v1) →
      t1.Put key (some v2) = some (true, t1) := by
    intro hkept
    have hnoop : putLoop t1.maxLen v2 (runes key) t1.root = some t1.root := by
      apply putLoop_noop
      intro p hp hpre
      obtain ⟨e, he, heq⟩ := hkept p hp hpre
      rw [lookup_eq_slot] at he
      cases hslot : slot t1.root p with
      | none => rw [hslot] at he; exact absurd he (List.not_mem_nil _)
      | some s =>
        rw [hslot] at he
        exact ⟨s, rfl, e, he, by rw [heq, hq]⟩
    rw [Put_accepted t1 key v2 hacc2, hnoop, Option.some_bind]
  refine ⟨main, ?_⟩
  intro hnew hmax
  apply main
  intro p hp hpre
  obtain ⟨hwf, _⟩ := New_wellFormed t.maxLen t hnew
  obtain ⟨_, hroot⟩ := New_some t.maxLen t hnew
  obtain ⟨_, hupd, _⟩ := Put_spec t t1 key v1 true hwf hacc1 h1
  obtain ⟨s1, hs1, hslot⟩ := hupd p hp hpre
  have hfresh : slot t.root p = none := by
    rw [hroot]; exact slot_fresh _ _ hp
  rw [hfresh] at hs1
  have he := updateValue_fresh t.maxLen v1 s1 hs1
  rw [lookup_eq_slot, hslot]
  exact ⟨v1, by simp [he], rfl⟩

theorem reinsert_unchanged_witness :
    (GetQ payloadX = GetQ payloadX3 ∧
      trieEmpty1.Put keyA (some payloadX) = some (true, trieAX)) ∧
    (((∀ p : List rune, p ≠ [] → p <+: runes keyA →
        ∃ e, e ∈ trieAX.lookup p ∧ GetQ e = GetQ payloadX) →
      trieAX.Put keyA (some payloadX3) = some (true, trieAX)) ∧
    (NewPathValueTrie trieEmpty1.maxLen = some trieEmpty1 → 1 ≤ trieEmpty1.maxLen →
      trieAX.Put keyA (some payloadX3) = some (true, trieAX))) :=
  ⟨⟨by decide, rfl⟩, reinsert_unchanged trieEmpty1 trieAX keyA payloadX payloadX3 (by decide) rfl⟩

/-! ## C8: the comparator as an order -/

/-- C8, counterexample.  Three payloads with distinct query texts and finite scores
`0`, `2^-20`, `2^-19`: `c` compares better than `b` and `b` better than `a` (scores less
than `1e-6` apart, greater query text wins), yet `c` does not compare better than `a`
(scores `1e-6` or more apart, `a` has the higher score); `a` compares better than `c`. -/
theorem valueCompare_not_transitive :
    GetQ payloadC0 ≠ GetQ payloadB1 ∧ GetQ payloadB1 ≠ GetQ payloadA2 ∧
    GetQ payloadC0 ≠ GetQ payloadA2 ∧
    Float32.IsFinite payloadC0.Score ∧ Float32.IsFinite payloadB1.Score ∧
    Float32.IsFinite payloadA2.Score ∧
    valueCompare payloadC0 payloadB1 = true ∧ valueCompare payloadB1 payloadA2 = true ∧
    valueCompare payloadC0 payloadA2 = false ∧ valueCompare payloadA2 payloadC0 = true := by
  decide

/-- C8 (amended).  `valueCompare` is irreflexive and asymmetric on payloads whose scores
are finite (neither an infinity nor a NaN), and total on payloads with distinct query
texts, whatever the scores; when the scores are finite and pairwise equal or at least
`1e-6` apart it is transitive, hence a strict total order on payloads with distinct
query texts. -/
theorem valueCompare_strict_total_order {T : Type} [Value T] (a b c : T) :
    ((GetScore a).isFinite = true → valueCompare a a = false) ∧
    ((GetScore a).isFinite = true → (GetScore b).isFinite = true →
      valueCompare a b = true → valueCompare b a = false) ∧
    (GetQ a ≠ GetQ b → valueCompare a b = true ∨ valueCompare b a = true) ∧
    (Separated (GetScore a) (GetScore b) → Separated (GetScore b) (GetScore c) →
      Separated (GetScore a) (GetScore c) →
      valueCompare a b = true → valueCompare b c = true → valueCompare a c = true) :=
  ⟨valueCompare_irrefl a, valueCompare_asymm a b, valueCompare_total a b,
    valueCompare_trans_of_separated a b c⟩

theorem valueCompare_strict_total_order_witness :
    ((GetScore payloadY).isFinite = true ∧ (GetScore payloadZ).isFinite = true ∧
      GetQ payloadY ≠ GetQ payloadZ ∧
      Separated (GetScore payloadY) (GetScore payloadZ) ∧
      Separated (GetScore payloadZ) (GetScore payloadX) ∧
      Separated (GetScore payloadY) (GetScore payloadX)) ∧
    valueCompare payloadY payloadZ = true ∧ valueCompare payloadZ payloadX = true ∧
    (((GetScore payloadY).isFinite = true → valueCompare payloadY payloadY = false) ∧
      ((GetScore payloadY).isFinite = true → (GetScore payloadZ).isFinite = true →
        valueCompare payloadY payloadZ = true → valueCompare payloadZ payloadY = false) ∧
      (GetQ payloadY ≠ GetQ payloadZ →
        valueCompare payloadY payloadZ = true ∨ valueCompare payloadZ payloadY = true) ∧
      (Separated (GetScore payloadY) (GetScore payloadZ) →
        Separated (GetScore payloadZ) (GetScore payloadX) →
        Separated (GetScore payloadY) (GetScore payloadX) →
        valueCompare payloadY payloadZ = true → valueCompare payloadZ payloadX = true →
        valueCompare payloadY payloadX = true)) :=
  ⟨by decide, by decide, by decide,
    valueCompare_strict_total_order payloadY payloadZ payloadX⟩

/-! ## C9: validation of `Put` -/

/-- Validation of `Put` on a well-formed trie with `maxLen ≥ 1` below the largest `int`:
the call returns; it returns `false` exactly when the key is not valid UTF-8, the payload is nil or its
query text is empty, and then the trie is unchanged; otherwise it returns `true`. -/
theorem Put_validation {T : Type} [Value T] (t : PathValueTrie T) (key : GoString)
    (value : Option T) (hwf : WellFormed t) (hmax : 1 ≤ t.maxLen)
    (hint : t.maxLen < 2 ^ 63 - 1) :
    ∃ b t1, t.Put key value = some (b, t1) ∧
      (b = false ↔ (utf8.ValidString key = false ∨ value = none ∨
        ∃ v, value = some v ∧ (GetQ v).length = 0)) ∧
      (b = false → t1 = t) := by
  obtain ⟨t1, hput⟩ := Put_isSome t key value hwf hmax hint
  refine ⟨_, t1, hput, ?_, ?_⟩
  · unfold accepts
    cases value with
    | none => simp
    | some v =>
      cases hv : utf8.ValidString key <;> simp
  · intro hb
    rcases (Put_cases t t1 key value _ hput).2 with ⟨_, h⟩ | ⟨_, _, _, hb2, _, _⟩
    · exact h
    · rw [hb] at hb2; exact Bool.noConfusion hb2

/-- C9, failing input.  On `NewPathValueTrie(0)` the call `Put("a", (x, 1.0))` passes the
validation (valid key, non-nil payload, non-empty query text) but does not return:
`updateValue` reads `values[len(values)-1]` on the empty list of the new node. -/
theorem put_panics_at_capacity_zero :
    accepts keyA (some payloadX) = true ∧
    (NewPathValueTrie 0 : Option (PathValueTrie MyValue)).isSome = true ∧
    ((NewPathValueTrie 0 : Option (PathValueTrie MyValue)).bind
      fun t => t.Put keyA (some payloadX)).isNone = true ∧
    updateValue 0 (freshValues 0) payloadX = none := by
  refine ⟨by decide, by decide, by decide, ?_⟩
  exact updateValue_fresh_zero 0 (by decide) payloadX

/-! ## C4: sortedness -/

theorem all_mono {T : Type} (P Q : pathValueTrieNode T → Prop) (h : ∀ n, P n → Q n)
    (node : pathValueTrieNode T) (hall : pathValueTrieNode.All P node) :
    pathValueTrieNode.All Q node := by
  induction hall with
  | intro node hP _ ih => exact pathValueTrieNode.All.intro node (h node hP) ih

theorem ite_succ_le (c : Prop) [Decidable c] (q n : Nat) (h : q + 1 ≤ n) :
    (if c then q + 1 else q) ≤ n := by
  split <;> omega

theorem bitLen_eq_130 (x : Nat) (h1 : 2 ^ 129 ≤ x) (h2 : x < 2 ^ 130) : bitLen x x = 130 := by
  obtain ⟨hb1, hb2⟩ := bitLen_spec x x le_rfl
  have hx0 : x ≠ 0 := by
    have : 0 < 2 ^ 129 := by positivity
    omega
  have hb2 := hb2 hx0
  have hge : 130 ≤ bitLen x x := by
    by_contra hlt
    have : (2:Nat) ^ bitLen x x ≤ 2 ^ 129 := Nat.pow_le_pow_right (by norm_num) (by omega)
    omega
  have hle : bitLen x x ≤ 130 := by
    by_contra hgt
    have : (2:Nat) ^ 130 ≤ 2 ^ (bitLen x x - 1) := Nat.pow_le_pow_right (by norm_num) (by omega)
    omega
  omega

/-- The rounded magnitude reaches the threshold `1e-6` from some magnitude on: the set of
magnitudes that round below the threshold is closed downwards. -/
theorem roundNat_ge_mono (x y : Nat) (hx : 8796093 * 2 ^ 106 ≤ Float32.roundNat x)
    (hxy : x ≤ y) : 8796093 * 2 ^ 106 ≤ Float32.roundNat y := by
  by_cases hy : 8796093 * 2 ^ 106 ≤ y
  · exact roundNat_ge_epsilon y hy
  · have hylt : y < 8796093 * 2 ^ 106 := by omega
    have hE130 : 8796093 * 2 ^ 106 < (2:Nat) ^ 130 := by norm_num
    have h129E : (2:Nat) ^ 129 ≤ 8796093 * 2 ^ 106 := by norm_num
    have hx24 : ¬ x < 2 ^ 24 := by
      intro h
      unfold Float32.roundNat at hx
      rw [if_pos h] at hx
      omega
    -- the magnitude `x` lies in the binade of the threshold
    have hx129 : 2 ^ 129 ≤ x := by
      by_contra hlt
      have hxlt : x < 2 ^ 129 := by omega
      obtain ⟨hb1, hb2⟩ := bitLen_spec x x le_rfl
      have hx0 : x ≠ 0 := by
        intro h0; rw [h0] at hx24; exact hx24 (by positivity)
      have hb2 := hb2 hx0
      have hb24 : 25 ≤ bitLen x x := by
        by_contra hlt2
        have : (2:Nat) ^ bitLen x x ≤ 2 ^ 24 := Nat.pow_le_pow_right (by norm_num) (by omega)
        omega
      have hb129 : bitLen x x ≤ 129 := by
        by_contra hgt
        have : (2:Nat) ^ 129 ≤ 2 ^ (bitLen x x - 1) :=
          Nat.pow_le_pow_right (by norm_num) (by omega)
        omega
      have hq : x / 2 ^ (bitLen x x - 24) < 2 ^ 24 := by
        rw [Nat.div_lt_iff_lt_mul (by positivity), ← pow_add]
        have : 24 + (bitLen x x - 24) = bitLen x x := by omega
        rw [this]; exact hb1
      have hbound : Float32.roundNat x ≤ 2 ^ 24 * 2 ^ (bitLen x x - 24) := by
        unfold Float32.roundNat
        rw [if_neg hx24]
        apply Nat.mul_le_mul_right
        exact ite_succ_le _ _ _ hq
      have h2 : (2:Nat) ^ 24 * 2 ^ (bitLen x x - 24) ≤ 2 ^ 24 * 2 ^ 105 :=
        Nat.mul_le_mul_left _ (Nat.pow_le_pow_right (by norm_num) (by omega))
      have h3 : (2:Nat) ^ 24 * 2 ^ 105 < 8796093 * 2 ^ 106 := by norm_num
      omega
    have hbx : bitLen x x = 130 := bitLen_eq_130 x hx129 (by omega)
    have hby : bitLen y y = 130 := bitLen_eq_130 y (by omega) (by omega)
    have hy24 : ¬ y < 2 ^ 24 := by
      have : (2:Nat) ^ 24 ≤ 2 ^ 129 := by norm_num
      omega
    have hqx : x / 2 ^ 106 = 8796092 := by
      have h1 : x / 2 ^ 106 < 8796093 := by
        rw [Nat.div_lt_iff_lt_mul (by positivity)]; omega
      have h2 : 8796092 ≤ x / 2 ^ 106 := by
        by_contra hlt
        have hq : x / 2 ^ 106 ≤ 8796091 := by omega
        have hr : Float32.roundNat x ≤ 8796092 * 2 ^ 106 := by
          unfold Float32.roundNat
          rw [if_neg hx24]
          simp only [hbx]
          apply Nat.mul_le_mul_right
          exact ite_succ_le _ _ _ (by omega)
        have : 8796092 * 2 ^ 106 < 8796093 * 2 ^ 106 := by norm_num
        omega
      omega
    have hqy : y / 2 ^ 106 = 8796092 := by
      have h1 : y / 2 ^ 106 < 8796093 := by
        rw [Nat.div_lt_iff_lt_mul (by positivity)]; omega
      have h2 : x / 2 ^ 106 ≤ y / 2 ^ 106 := Nat.div_le_div_right hxy
      omega
    have hrx : 2 ^ 106 < 2 * (x % 2 ^ 106) := by
      by_contra hnot
      have hr : Float32.roundNat x = 8796092 * 2 ^ 106 := by
        unfold Float32.roundNat
        rw [if_neg hx24]
        simp only [hbx, hqx]
        have hc : ¬ (2 ^ 106 < 2 * (x % 2 ^ 106) ∨
            (2 * (x % 2 ^ 106) = 2 ^ 106 ∧ 8796092 % 2 = 1)) := by
          rintro (h | ⟨_, h⟩)
          · exact hnot h
          · omega
        rw [if_neg hc]
      have : 8796092 * 2 ^ 106 < 8796093 * 2 ^ 106 := by norm_num
      omega
    have hry : 2 ^ 106 < 2 * (y % 2 ^ 106) := by
      have ex := Nat.div_add_mod x (2 ^ 106)
      have ey := Nat.div_add_mod y (2 ^ 106)
      rw [hqx] at ex
      rw [hqy] at ey
      omega
    unfold Float32.roundNat
    rw [if_neg hy24]
    simp only [hby, hqy]
    rw [if_pos (Or.inl hry)]

theorem natAbs_sub_le (a b c : Int) (h1 : b < a) (h2 : a < c) :
    (c - a).natAbs ≤ (c - b).natAbs := by
  omega

theorem valueCompare_sameQ_iff {T : Type} [Value T] (a b : T) (hq : GetQ a = GetQ b)
    (ha : (GetScore a).isFinite = true) (hb : (GetScore b).isFinite = true) :
    valueCompare a b = true ↔
      floatEqual (GetScore a) (GetScore b) = false ∧ GetScore b < GetScore a := by
  rw [valueCompare_iff a b ha hb, hq]
  constructor
  · rintro (h | ⟨_, h⟩)
    · exact h
    · exact absurd h (lt_irrefl _)
  · intro h; exact Or.inl h

/-- Among payloads with one query text and finite scores: when `a` replaces `b` because
it compares better, a payload `c` that did not compare better than `b` does not compare
better than `a` either. -/
theorem valueCompare_sameQ_keep {T : Type} [Value T] (a b c : T) (hab : GetQ a = GetQ b)
    (hcb : GetQ c = GetQ b) (ha : (GetScore a).isFinite = true)
    (hb : (GetScore b).isFinite = true) (hc : (GetScore c).isFinite = true)
    (h1 : valueCompare c b = false) (h2 : valueCompare a b = true) :
    valueCompare c a = false := by
  by_contra h3
  have h3 : valueCompare c a = true := by simpa using h3
  rw [valueCompare_sameQ_iff a b hab ha hb] at h2
  rw [valueCompare_sameQ_iff c a (hcb.trans hab.symm) hc ha] at h3
  have h4 : valueCompare c b = true := by
    rw [valueCompare_sameQ_iff c b hcb hc hb]
    obtain ⟨x, hx⟩ := (isFinite_iff _).mp ha
    obtain ⟨y, hy⟩ := (isFinite_iff _).mp hb
    obtain ⟨z, hz⟩ := (isFinite_iff _).mp hc
    rw [hx, hy] at h2
    rw [hz, hx] at h3
    rw [hz, hy]
    rw [lt_finite] at h2 h3 ⊢
    obtain ⟨e2, l2⟩ := h2
    obtain ⟨e3, l3⟩ := h3
    refine ⟨?_, lt_trans l2 l3⟩
    rw [floatEqual_finite] at e3 ⊢
    simp only [decide_eq_false_iff_not, not_lt] at e3 ⊢
    apply roundNat_ge_mono _ _ e3
    exact natAbs_sub_le _ _ _ l2 l3
  rw [h1] at h4
  exact Bool.noConfusion h4

/-! ## The merged map of the group -/

theorem mapGet_mem {T : Type} : ∀ (m : List (GoString × T)) (q : GoString) (x : T),
    mapGet m q = some x → (q, x) ∈ m := by
  intro m
  induction m with
  | nil => intro q x h; exact Option.noConfusion h
  | cons e m ih =>
    intro q x h
    obtain ⟨k, y⟩ := e
    simp only [mapGet] at h
    by_cases hk : k = q
    · rw [if_pos hk] at h
      cases h
      rw [hk]; exact List.mem_cons_self _ _
    · rw [if_neg hk] at h
      exact List.mem_cons_of_mem _ (ih q x h)

theorem mapGet_of_mem {T : Type} : ∀ (m : List (GoString × T)) (q : GoString) (x : T),
    (m.map Prod.fst).Nodup → (q, x) ∈ m → mapGet m q = some x := by
  intro m
  induction m with
  | nil => intro q x _ h; exact absurd h (List.not_mem_nil _)
  | cons e m ih =>
    intro q x hnd h
    obtain ⟨k, y⟩ := e
    rw [List.map_cons, List.nodup_cons] at hnd
    simp only [mapGet]
    rcases List.mem_cons.mp h with h1 | h1
    · cases h1
      rw [if_pos rfl]
    · have hne : k ≠ q := by
        intro hk
        exact hnd.1 (List.mem_map.mpr ⟨(q, x), h1, hk.symm⟩)
      rw [if_neg hne]
      exact ih q x hnd.2 h1

theorem mapGet_none {T : Type} : ∀ (m : List (GoString × T)) (q : GoString),
    mapGet m q = none → q ∉ m.map Prod.fst := by
  intro m
  induction m with
  | nil => intro q _ h; exact absurd h (List.not_mem_nil _)
  | cons e m ih =>
    intro q h
    obtain ⟨k, y⟩ := e
    simp only [mapGet] at h
    by_cases hk : k = q
    · rw [if_pos hk] at h; exact Option.noConfusion h
    · rw [if_neg hk] at h
      rw [List.map_cons, List.mem_cons]
      rintro (h1 | h1)
      · exact hk h1.symm
      · exact ih q h h1

theorem mapSet_mem {T : Type} (q : GoString) (v : T) : ∀ (m : List (GoString × T)) (e : GoString × T),
    e ∈ mapSet m q v → e = (q, v) ∨ e ∈ m := by
  intro m
  induction m with
  | nil =>
    intro e h
    simp only [mapSet, List.mem_singleton] at h
    exact Or.inl h
  | cons f m ih =>
    intro e h
    obtain ⟨k, y⟩ := f
    simp only [mapSet] at h
    by_cases hk : k = q
    · rw [if_pos hk] at h
      rcases List.mem_cons.mp h with h1 | h1
      · exact Or.inl h1
      · exact Or.inr (List.mem_cons_of_mem _ h1)
    · rw [if_neg hk] at h
      rcases List.mem_cons.mp h with h1 | h1
      · exact Or.inr (by rw [h1]; exact List.mem_cons_self _ _)
      · rcases ih e h1 with h2 | h2
        · exact Or.inl h2
        · exact Or.inr (List.mem_cons_of_mem _ h2)

theorem mapSet_keys {T : Type} (q : GoString) (v : T) : ∀ (m : List (GoString × T)) (k : GoString),
    k ∈ (mapSet m q v).map Prod.fst → k = q ∨ k ∈ m.map Prod.fst := by
  intro m k h
  obtain ⟨e, he, rfl⟩ := List.mem_map.mp h
  rcases mapSet_mem q v m e he with h1 | h1
  · left; rw [h1]
  · right; exact List.mem_map.mpr ⟨e, h1, rfl⟩

theorem mapSet_nodup {T : Type} (q : GoString) (v : T) : ∀ (m : List (GoString × T)),
    (m.map Prod.fst).Nodup → ((mapSet m q v).map Prod.fst).Nodup := by
  intro m
  induction m with
  | nil => intro _; simp [mapSet]
  | cons f m ih =>
    intro hnd
    obtain ⟨k, y⟩ := f
    rw [List.map_cons, List.nodup_cons] at hnd
    simp only [mapSet]
    by_cases hk : k = q
    · rw [if_pos hk, List.map_cons, List.nodup_cons]
      exact ⟨by rw [← hk]; exact hnd.1, hnd.2⟩
    · rw [if_neg hk, List.map_cons, List.nodup_cons]
      refine ⟨?_, ih hnd.2⟩
      intro hmem
      rcases mapSet_keys q v m k hmem with h1 | h1
      · exact hk h1
      · exact hnd.1 h1

theorem mapGet_mapSet_same {T : Type} (q : GoString) (v : T) : ∀ (m : List (GoString × T)),
    mapGet (mapSet m q v) q = some v := by
  intro m
  induction m with
  | nil => simp [mapSet, mapGet]
  | cons f m ih =>
    obtain ⟨k, y⟩ := f
    simp only [mapSet]
    by_cases hk : k = q
    · rw [if_pos hk]; simp [mapGet]
    · rw [if_neg hk]; simp only [mapGet]; rw [if_neg hk]; exact ih

theorem mapGet_mapSet_other {T : Type} (q : GoString) (v : T) (p : GoString) (hp : p ≠ q) :
    ∀ (m : List (GoString × T)), mapGet (mapSet m q v) p = mapGet m p := by
  intro m
  induction m with
  | nil => simp [mapSet, mapGet, Ne.symm hp]
  | cons f m ih =>
    obtain ⟨k, y⟩ := f
    simp only [mapSet]
    by_cases hk : k = q
    · rw [if_pos hk]
      simp only [mapGet]
      rw [if_neg (Ne.symm hp), if_neg (by rw [hk]; exact Ne.symm hp)]
    · rw [if_neg hk]
      simp only [mapGet]
      by_cases hkp : k = p
      · rw [if_pos hkp, if_pos hkp]
      · rw [if_neg hkp, if_neg hkp]; exact ih

theorem mergeInv_congr {T : Type} [Value T] (m : List (GoString × T)) (S S' : T → Prop)
    (h : ∀ c, S c ↔ S' c) (hi : MergeInv m S) : MergeInv m S' :=
  ⟨hi.1, fun e he => ⟨(hi.2.1 e he).1, (h _).mp (hi.2.1 e he).2⟩,
    fun c hc => by
      obtain ⟨x, hx, hcx⟩ := hi.2.2 c ((h c).mpr hc)
      exact ⟨x, hx, fun hfin => hcx (fun d hd => hfin d ((h d).mp hd))⟩⟩

theorem mergeInv_nil {T : Type} [Value T] : MergeInv ([] : List (GoString × T)) (fun _ => False) :=
  ⟨List.nodup_nil, fun _ he => absurd he (List.not_mem_nil _), fun _ hc => hc.elim⟩

/-- One iteration of the merge loop keeps the invariant. -/
theorem mergeValue_inv {T : Type} [Value T] (m : List (GoString × T)) (S : T → Prop) (v : T)
    (hi : MergeInv m S) : MergeInv (mergeValue m v) (fun c => S c ∨ c = v) := by
  obtain ⟨h1, h2, h3⟩ := hi
  unfold mergeValue
  simp only []
  cases hg : mapGet m (GetQ v) with
  | none =>
    simp only []
    have hnot := mapGet_none m (GetQ v) hg
    refine ⟨mapSet_nodup _ _ m h1, ?_, ?_⟩
    · intro e he
      rcases mapSet_mem _ _ m e he with h | h
      · rw [h]; exact ⟨rfl, Or.inr rfl⟩
      · exact ⟨(h2 e h).1, Or.inl (h2 e h).2⟩
    · intro c hc
      rcases hc with hc | hc
      · obtain ⟨x, hx, hcx⟩ := h3 c hc
        have hne : GetQ c ≠ GetQ v := by
          intro heq
          rw [heq, hg] at hx
          exact Option.noConfusion hx
        exact ⟨x, by rw [mapGet_mapSet_other _ _ _ hne]; exact hx,
          fun hfin => hcx (fun d hd => hfin d (Or.inl hd))⟩
      · rw [hc]
        exact ⟨v, mapGet_mapSet_same _ _ m,
          fun hfin => valueCompare_irrefl v (hfin v (Or.inr rfl))⟩
  | some existing =>
    simp only []
    have hmem := mapGet_mem m _ _ hg
    have hq : GetQ existing = GetQ v := (h2 _ hmem).1
    have hseen : S existing := (h2 _ hmem).2
    by_cases hc : valueCompare v existing = true
    · rw [if_pos hc]
      refine ⟨mapSet_nodup _ _ m h1, ?_, ?_⟩
      · intro e he
        rcases mapSet_mem _ _ m e he with h | h
        · rw [h]; exact ⟨rfl, Or.inr rfl⟩
        · exact ⟨(h2 e h).1, Or.inl (h2 e h).2⟩
      · intro c hcS
        rcases hcS with hcS | hcS
        · obtain ⟨x, hx, hcx⟩ := h3 c hcS
          by_cases heq : GetQ c = GetQ v
          · rw [heq, hg] at hx
            cases hx
            refine ⟨v, by rw [heq]; exact mapGet_mapSet_same _ _ m, fun hfin => ?_⟩
            exact valueCompare_sameQ_keep v existing c hq.symm (heq.trans hq.symm)
              (hfin v (Or.inr rfl)) (hfin existing (Or.inl hseen)) (hfin c (Or.inl hcS))
              (hcx (fun d hd => hfin d (Or.inl hd))) hc
          · exact ⟨x, by rw [mapGet_mapSet_other _ _ _ heq]; exact hx,
              fun hfin => hcx (fun d hd => hfin d (Or.inl hd))⟩
        · rw [hcS]
          exact ⟨v, mapGet_mapSet_same _ _ m,
            fun hfin => valueCompare_irrefl v (hfin v (Or.inr rfl))⟩
    · rw [if_neg hc]
      refine ⟨h1, ?_, ?_⟩
      · intro e he
        exact ⟨(h2 e he).1, Or.inl (h2 e he).2⟩
      · intro c hcS
        rcases hcS with hcS | hcS
        · obtain ⟨x, hx, hcx⟩ := h3 c hcS
          exact ⟨x, hx, fun hfin => hcx (fun d hd => hfin d (Or.inl hd))⟩
        · rw [hcS]
          exact ⟨existing, hg, fun _ => by simpa using hc⟩

/-- Merging the list returned by one trie keeps the invariant. -/
theorem mergeValues_inv {T : Type} [Value T] : ∀ (vs : List T) (m : List (GoString × T))
    (S : T → Prop), MergeInv m S → MergeInv (vs.foldl mergeValue m) (fun c => S c ∨ c ∈ vs) := by
  intro vs
  induction vs with
  | nil =>
    intro m S hi
    exact mergeInv_congr m S _ (fun c => by simp) hi
  | cons v vs ih =>
    intro m S hi
    rw [List.foldl_cons]
    refine mergeInv_congr _ _ _ ?_ (ih _ _ (mergeValue_inv m S v hi))
    intro c
    simp only [List.mem_cons]
    tauto

/-- The merge loop over the member tries keeps the invariant. -/
theorem mergeTries_inv_from {T : Type} [Value T] (key : GoString) :
    ∀ (pvTries : List (PathValueTrie T)) (m : List (GoString × T)) (S : T → Prop),
    MergeInv m S →
    MergeInv (pvTries.foldl (fun resultsMap trie => (trie.Get key).foldl mergeValue resultsMap) m)
      (fun c => S c ∨ Candidate pvTries key c) := by
  intro pvTries
  induction pvTries with
  | nil =>
    intro m S hi
    refine mergeInv_congr m S _ (fun c => ?_) hi
    simp [Candidate]
  | cons t ts ih =>
    intro m S hi
    rw [List.foldl_cons]
    refine mergeInv_congr _ _ _ ?_ (ih _ _ (mergeValues_inv (t.Get key) m S hi))
    intro c
    simp only [Candidate, List.mem_cons]
    constructor
    · rintro ((h | h) | ⟨u, hu, hc⟩)
      · exact Or.inl h
      · exact Or.inr ⟨t, Or.inl rfl, h⟩
      · exact Or.inr ⟨u, Or.inr hu, hc⟩
    · rintro (h | ⟨u, hu | hu, hc⟩)
      · exact Or.inl (Or.inl h)
      · rw [hu] at hc; exact Or.inl (Or.inr hc)
      · exact Or.inr ⟨u, hu, hc⟩

/-- The map built by the group `Get` satisfies the invariant for the candidates. -/
theorem mergeTries_inv {T : Type} [Value T] (pvTries : List (PathValueTrie T)) (key : GoString) :
    MergeInv (mergeTries pvTries key) (Candidate pvTries key) := by
  unfold mergeTries
  refine mergeInv_congr _ _ _ ?_ (mergeTries_inv_from key pvTries [] _ mergeInv_nil)
  intro c
  simp

/-- The values of the merged map: distinct query texts, each a candidate that, when the
candidates' scores are all finite, no candidate with its query text compares better
than, and every candidate's query text present. -/
theorem merged_values {T : Type} [Value T] (pvTries : List (PathValueTrie T)) (key : GoString) :
    (((mergeTries pvTries key).map Prod.snd).map GetQ).Nodup ∧
    (∀ e, e ∈ (mergeTries pvTries key).map Prod.snd →
      Candidate pvTries key e ∧
      ((∀ d, Candidate pvTries key d → (GetScore d).isFinite = true) →
        ∀ c, Candidate pvTries key c → GetQ c = GetQ e → valueCompare c e = false)) ∧
    (∀ c, Candidate pvTries key c →
      ∃ e, e ∈ (mergeTries pvTries key).map Prod.snd ∧ GetQ e = GetQ c) := by
  obtain ⟨h1, h2, h3⟩ := mergeTries_inv pvTries key
  have hkeys : ((mergeTries pvTries key).map Prod.snd).map GetQ
      = (mergeTries pvTries key).map Prod.fst := by
    rw [List.map_map]
    apply List.map_congr_left
    intro e he
    exact (h2 e he).1
  refine ⟨by rw [hkeys]; exact h1, ?_, ?_⟩
  · intro e he
    obtain ⟨f, hf, rfl⟩ := List.mem_map.mp he
    refine ⟨(h2 f hf).2, ?_⟩
    intro hfin c hc hq
    obtain ⟨x, hx, hcx⟩ := h3 c hc
    have hxm := mapGet_mem _ _ _ hx
    have : mapGet (mergeTries pvTries key) f.1 = some f.2 := mapGet_of_mem _ _ _ h1 hf
    rw [hq, (h2 f hf).1, this] at hx
    cases hx
    exact hcx hfin
  · intro c hc
    obtain ⟨x, hx, _⟩ := h3 c hc
    have hxm := mapGet_mem _ _ _ hx
    exact ⟨x, List.mem_map.mpr ⟨_, hxm, rfl⟩, (h2 _ hxm).1⟩

theorem rankResults_some {T : Type} [Value T] (M : Int) (l : List T) (hM : 0 ≤ M) :
    rankResults M l = some ((sort.Slice l valueCompare).take M.toNat) := by
  unfold rankResults
  simp only []
  by_cases h : ((sort.Slice l valueCompare).length : Int) > M
  · rw [if_pos h, if_neg (by omega)]
  · rw [if_neg h]
    congr 1
    symm
    apply List.take_of_length_le
    omega

theorem rankResults_cases {T : Type} [Value T] (M : Int) (l res : List T)
    (h : rankResults M l = some res) :
    ∃ n, res = (sort.Slice l valueCompare).take n ∧ (0 ≤ M → n = M.toNat) := by
  by_cases hM : 0 ≤ M
  · rw [rankResults_some M l hM] at h
    cases h
    exact ⟨_, rfl, fun _ => rfl⟩
  · unfold rankResults at h
    simp only [] at h
    by_cases h1 : ((sort.Slice l valueCompare).length : Int) > M
    · rw [if_pos h1, if_pos (by omega)] at h
      exact Option.noConfusion h
    · exfalso; omega

/-- The group `Get` on a non-negative bound returns the first `maxResultsLen` entries
of the sorted values of the merged map. -/
theorem groupGet_some {T : Type} [Value T] (g : PathValueTries T) (key : GoString)
    (rangeOrder : List T → List T) (hperm : ∀ l, (rangeOrder l).Perm l)
    (hM : 0 ≤ g.maxResultsLen) :
    PathValueTries.Get (some g) key rangeOrder
      = some ((sort.Slice (rangeOrder ((mergeTries g.pvTries key).map Prod.snd))
          valueCompare).take g.maxResultsLen.toNat) := by
  unfold PathValueTries.Get
  simp only []
  by_cases h0 : g.pvTries.length = 0
  · rw [if_pos h0]
    have hnil : g.pvTries = [] := List.length_eq_zero.mp h0
    have hm : mergeTries g.pvTries key = [] := by rw [hnil]; rfl
    rw [hm, List.map_nil, List.Perm.eq_nil (hperm [])]
    have hs : sort.Slice ([] : List T) valueCompare = [] := rfl
    rw [hs, List.take_nil]
  · rw [if_neg h0]
    exact rankResults_some _ _ hM

/-- Whatever the group `Get` returns is an initial part of the sorted values of the
merged map. -/
theorem groupGet_cases {T : Type} [Value T] (g : PathValueTries T) (key : GoString)
    (rangeOrder : List T → List T) (res : List T)
    (h : PathValueTries.Get (some g) key rangeOrder = some res) :
    ∃ n, res = (sort.Slice (rangeOrder ((mergeTries g.pvTries key).map Prod.snd))
      valueCompare).take n := by
  unfold PathValueTries.Get at h
  simp only [] at h
  by_cases h0 : g.pvTries.length = 0
  · rw [if_pos h0] at h
    cases h
    exact ⟨0, by simp⟩
  · rw [if_neg h0] at h
    obtain ⟨n, hn, _⟩ := rankResults_cases _ _ _ h
    exact ⟨n, hn⟩

/-- The sorted values of the merged map, in any range order, are a permutation of the
values of the merged map. -/
theorem sorted_merged_perm {T : Type} [Value T] (pvTries : List (PathValueTrie T))
    (key : GoString) (rangeOrder : List T → List T) (hperm : ∀ l, (rangeOrder l).Perm l) :
    (sort.Slice (rangeOrder ((mergeTries pvTries key).map Prod.snd)) valueCompare).Perm
      ((mergeTries pvTries key).map Prod.snd) :=
  (Slice_perm _ _).trans (hperm _)

/-! ## C11: the merge keeps one best entry per query text -/

/-- The tries of the merge example are the ones `Put` builds, and the group is the one
`NewPathValueTries` returns. -/
theorem groupFoo_built :
    build 1 [(keyK, some payloadFoo5)] = some trieFoo5 ∧
    build 1 [(keyK, some payloadFoo8)] = some trieFoo8 ∧
    NewPathValueTries [trieFoo5, trieFoo8] 2 = some groupFoo :=
  ⟨rfl, rfl, rfl⟩

/-- The merge example: two tries holding `(foo, 5)` and `(foo, 8)` at key `K` give
exactly one `foo` entry, with score 8. -/
theorem merge_example :
    trieFoo5.Get keyK = [payloadFoo5] ∧ trieFoo8.Get keyK = [payloadFoo8] ∧
    PathValueTries.Get (some groupFoo) keyK id = some [payloadFoo8] :=
  ⟨rfl, rfl, rfl⟩

/-- C11, counterexample.  Two tries hold at key `K` a payload with query text `foo` and
score `+Inf` each (two payloads, told apart by `GameId`).  The group `Get(K)` returns
the one entry of the second trie, and the payload of the first trie, which has the same
query text, compares better than it: `+Inf - +Inf` is a NaN, so `floatEqual` is false
and `floatCompare` returns 1 in both directions. -/
theorem merge_keeps_beaten_entry :
    build 1 [(keyK, some payloadFooInfA)] = some trieFooInfA ∧
    build 1 [(keyK, some payloadFooInfB)] = some trieFooInfB ∧
    NewPathValueTries [trieFooInfA, trieFooInfB] 2 = some groupFooInf ∧
    trieFooInfA.Get keyK = [payloadFooInfA] ∧ trieFooInfB.Get keyK = [payloadFooInfB] ∧
    PathValueTries.Get (some groupFooInf) keyK id = some [payloadFooInfB] ∧
    GetQ payloadFooInfA = GetQ payloadFooInfB ∧
    valueCompare payloadFooInfA payloadFooInfB = true :=
  ⟨rfl, rfl, rfl, rfl, rfl, rfl, rfl, rfl⟩

/-- C11 (amended).  Merge keeps one best entry per query text.  For every group, every
key and every order in which the runtime enumerates the merge mapping: whatever the
group `Get` returns has pairwise distinct query texts and each entry of it is returned
by some member trie's `Get(key)`; when the scores of the payloads returned by the
member tries' `Get(key)` are all finite (neither an infinity nor a NaN), no payload with
the same query text returned by any member trie's `Get(key)` compares better than it
under `valueCompare`.  With a non-negative `maxResultsLen` the group `Get` does
return. -/
theorem merge_keeps_best {T : Type} [Value T] (g : PathValueTries T) (key : GoString)
    (rangeOrder : List T → List T) (hperm : ∀ l, (rangeOrder l).Perm l) :
    (0 ≤ g.maxResultsLen → ∃ res, PathValueTries.Get (some g) key rangeOrder = some res) ∧
    ∀ res, PathValueTries.Get (some g) key rangeOrder = some res →
      (res.map GetQ).Nodup ∧
      ∀ e, e ∈ res →
        (∃ t, t ∈ g.pvTries ∧ e ∈ t.Get key) ∧
        ((∀ t, t ∈ g.pvTries → ∀ d, d ∈ t.Get key → (GetScore d).isFinite = true) →
          ∀ t, t ∈ g.pvTries → ∀ c, c ∈ t.Get key → GetQ c = GetQ e →
            valueCompare c e = false) := by
  refine ⟨fun hM => ⟨_, groupGet_some g key rangeOrder hperm hM⟩, ?_⟩
  intro res hres
  obtain ⟨n, hn⟩ := groupGet_cases g key rangeOrder res hres
  obtain ⟨h1, h2, _⟩ := merged_values g.pvTries key
  have hp := sorted_merged_perm g.pvTries key rangeOrder hperm
  have hsub : res.Sublist
      (sort.Slice (rangeOrder ((mergeTries g.pvTries key).map Prod.snd)) valueCompare) := by
    rw [hn]; exact List.take_sublist _ _
  constructor
  · have hnd : ((sort.Slice (rangeOrder ((mergeTries g.pvTries key).map Prod.snd))
        valueCompare).map GetQ).Nodup := ((hp.map GetQ).nodup_iff).mpr h1
    exact hnd.sublist (hsub.map GetQ)
  · intro e he
    have hem : e ∈ (mergeTries g.pvTries key).map Prod.snd := hp.subset (hsub.subset he)
    obtain ⟨hc, hbest⟩ := h2 e hem
    refine ⟨hc, fun hfin t ht c hcm hq => ?_⟩
    exact hbest (fun d hd => by obtain ⟨u, hu, hdu⟩ := hd; exact hfin u hu d hdu)
      c ⟨t, ht, hcm⟩ hq

theorem groupFoo_candidates (a : MyValue) (h : Candidate groupFoo.pvTries keyK a) :
    a = payloadFoo5 ∨ a = payloadFoo8 := by
  obtain ⟨t, ht, ha⟩ := h
  have hg : groupFoo.pvTries = [trieFoo5, trieFoo8] := rfl
  rw [hg] at ht
  rcases List.mem_cons.mp ht with h1 | h1
  · rw [h1] at ha
    have h5 : trieFoo5.Get keyK = [payloadFoo5] := rfl
    rw [h5] at ha
    exact Or.inl (List.mem_singleton.mp ha)
  · rw [List.mem_singleton.mp h1] at ha
    have h8 : trieFoo8.Get keyK = [payloadFoo8] := rfl
    rw [h8] at ha
    exact Or.inr (List.mem_singleton.mp ha)

theorem groupFoo_separated (a : MyValue) (ha : Candidate groupFoo.pvTries keyK a)
    (b : MyValue) (hb : Candidate groupFoo.pvTries keyK b) :
    Separated (GetScore a) (GetScore b) := by
  rcases groupFoo_candidates a ha with h | h <;> rcases groupFoo_candidates b hb with h' | h' <;>
    rw [h, h'] <;> decide

theorem merge_keeps_best_witness :
    (∀ l : List MyValue, (id l).Perm l) ∧
    PathValueTries.Get (some groupFoo) keyK id = some [payloadFoo8] ∧
    (([payloadFoo8].map GetQ).Nodup ∧
      ∀ e, e ∈ [payloadFoo8] →
        (∃ t, t ∈ groupFoo.pvTries ∧ e ∈ t.Get keyK) ∧
        ((∀ t, t ∈ groupFoo.pvTries → ∀ d, d ∈ t.Get keyK → (GetScore d).isFinite = true) →
          ∀ t, t ∈ groupFoo.pvTries → ∀ c, c ∈ t.Get keyK → GetQ c = GetQ e →
            valueCompare c e = false)) ∧
    (∀ t, t ∈ groupFoo.pvTries → ∀ d, d ∈ t.Get keyK → (GetScore d).isFinite = true) :=
  ⟨fun l => List.Perm.refl l, rfl,
    (merge_keeps_best groupFoo keyK id (fun l => List.Perm.refl l)).2 [payloadFoo8] rfl,
    fun t ht d hd => (separated_isFinite _ _
      (groupFoo_separated d ⟨t, ht, hd⟩ d ⟨t, ht, hd⟩)).1⟩

/-! ## C13: the merge cap -/

/-- C13. Merge cap. For every group constructed by `NewPathValueTries` with a
non-negative `maxResultsLen = M`, every key and every order in which the runtime
enumerates the merge mapping, the group `Get` returns, and the length of its result
does not exceed `M`. -/
theorem merge_cap {T : Type} [Value T] (tries : List (PathValueTrie T)) (M : Int)
    (g : PathValueTries T) (hnew : NewPathValueTries tries M = some g) (hM : 0 ≤ M)
    (key : GoString) (rangeOrder : List T → List T) :
    ∃ res, PathValueTries.Get (some g) key rangeOrder = some res ∧ (res.length : Int) ≤ M := by
  unfold NewPathValueTries at hnew
  by_cases h0 : tries.length = 0
  · rw [if_pos h0] at hnew
    exact Option.noConfusion hnew
  · rw [if_neg h0] at hnew
    cases hnew
    unfold PathValueTries.Get
    simp only []
    rw [if_neg h0, rankResults_some _ _ hM]
    refine ⟨_, rfl, ?_⟩
    rw [List.length_take]
    omega

theorem merge_cap_witness :
    NewPathValueTries [trieFoo5, trieFoo8] 2 = some groupFoo ∧ (0 : Int) ≤ 2 ∧
    ∃ res, PathValueTries.Get (some groupFoo) keyK id = some res ∧ (res.length : Int) ≤ 2 :=
  ⟨rfl, by decide, merge_cap [trieFoo5, trieFoo8] 2 groupFoo rfl (by decide) keyK id⟩

/-! ## C15: construction of a group -/

/-- C15. Group construction validation. `NewPathValueTries(tries, maxResultsLen)`
returns nil exactly when the list of member tries is empty, and whenever it does not
return nil it returns the group holding those tries and that cap. -/
theorem new_group_validation {T : Type} (tries : List (PathValueTrie T)) (maxResultsLen : Int) :
    (NewPathValueTries tries maxResultsLen = none ↔ tries = []) ∧
    (NewPathValueTries tries maxResultsLen = none ∨
      NewPathValueTries tries maxResultsLen
        = some { pvTries := tries, maxResultsLen := maxResultsLen }) := by
  unfold NewPathValueTries
  cases tries with
  | nil => simp
  | cons t ts => simp

/-! ## The ranked union of the candidates -/

theorem valueCompare_rankKey {T : Type} [Value T] (a b : T) :
    valueCompare (rankKey a) (rankKey b) = valueCompare a b := rfl

/-- Two best candidates of one query text have the same score when the scores involved
are equal or at least `1e-6` apart. -/
theorem best_score_unique {T : Type} [Value T] (a b : T) (hq : GetQ a = GetQ b)
    (hsep : Separated (GetScore a) (GetScore b))
    (h1 : valueCompare a b = false) (h2 : valueCompare b a = false) :
    GetScore a = GetScore b := by
  by_contra hne
  obtain ⟨ha, hb⟩ := separated_isFinite _ _ hsep
  have hfe : floatEqual (GetScore a) (GetScore b) = false := by
    rw [floatEqual_of_separated _ _ hsep]; simpa using hne
  have hfe2 : floatEqual (GetScore b) (GetScore a) = false := by
    rw [floatEqual_comm]; exact hfe
  have hlt : GetScore a < GetScore b ∨ GetScore b < GetScore a := by
    obtain ⟨x, hx⟩ := (isFinite_iff _).mp ha
    obtain ⟨y, hy⟩ := (isFinite_iff _).mp hb
    rw [hx, hy, lt_finite, lt_finite]
    have hxy : x ≠ y := by
      intro h; apply hne; rw [hx, hy, h]
    omega
  rcases hlt with hl | hl
  · have := (valueCompare_sameQ_iff b a hq.symm hb ha).mpr ⟨hfe2, hl⟩
    rw [h2] at this; exact Bool.noConfusion this
  · have := (valueCompare_sameQ_iff a b hq ha hb).mpr ⟨hfe, hl⟩
    rw [h1] at this; exact Bool.noConfusion this

/-- The ranking keys of a list that fits the merge specification are contained in those
of any other list that fits it. -/
theorem rankedUnion_keys_subset {T : Type} [Value T] (pvTries : List (PathValueTrie T))
    (key : GoString)
    (hsep : ∀ a, Candidate pvTries key a → ∀ b, Candidate pvTries key b →
      Separated (GetScore a) (GetScore b))
    (L1 L2 : List T) (h1 : RankedUnion pvTries key L1) (h2 : RankedUnion pvTries key L2) :
    ∀ p, p ∈ L1.map rankKey → p ∈ L2.map rankKey := by
  intro p hp
  obtain ⟨e, he, rfl⟩ := List.mem_map.mp hp
  obtain ⟨hc, hbest⟩ := h1.2.2.2 e he
  have hq2 : GetQ e ∈ L2.map GetQ := (h2.2.2.1 _).mpr ⟨e, hc, rfl⟩
  obtain ⟨f, hf, hfq⟩ := List.mem_map.mp hq2
  obtain ⟨hcf, hbestf⟩ := h2.2.2.2 f hf
  have hs : GetScore f = GetScore e :=
    best_score_unique f e hfq (hsep f hcf e hc) (hbest f hcf hfq) (hbestf e hc hfq.symm)
  refine List.mem_map.mpr ⟨f, hf, ?_⟩
  unfold rankKey
  rw [hfq, hs]

/-- A list that fits the merge specification is determined up to the ranking keys of
its entries. -/
theorem rankedUnion_unique {T : Type} [Value T] (pvTries : List (PathValueTrie T))
    (key : GoString)
    (hsep : ∀ a, Candidate pvTries key a → ∀ b, Candidate pvTries key b →
      Separated (GetScore a) (GetScore b))
    (L1 L2 : List T) (h1 : RankedUnion pvTries key L1) (h2 : RankedUnion pvTries key L2) :
    L1.map rankKey = L2.map rankKey := by
  have hnd : ∀ L : List T, RankedUnion pvTries key L → (L.map rankKey).Nodup := by
    intro L hL
    have h := hL.2.1
    have hm : L.map GetQ = (L.map rankKey).map Prod.fst := by
      rw [List.map_map]; rfl
    rw [hm] at h
    exact List.Nodup.of_map _ h
  have hsorted : ∀ L : List T, RankedUnion pvTries key L →
      (L.map rankKey).Pairwise (fun a b => valueCompare a b = true) := by
    intro L hL
    rw [List.pairwise_map]
    exact hL.1
  have hfin : ∀ p, p ∈ L1.map rankKey → (GetScore p).isFinite = true := by
    intro p hp
    obtain ⟨e, he, rfl⟩ := List.mem_map.mp hp
    have hc := (h1.2.2.2 e he).1
    exact (separated_isFinite _ _ (hsep e hc e hc)).1
  apply sorted_unique _ _ _ hfin (hsorted L1 h1) (hsorted L2 h2)
  rw [List.perm_ext_iff_of_nodup (hnd L1 h1) (hnd L2 h2)]
  intro p
  exact ⟨rankedUnion_keys_subset pvTries key hsep L1 L2 h1 h2 p,
    rankedUnion_keys_subset pvTries key hsep L2 L1 h2 h1 p⟩

/-- The sorted values of the merged map fit the merge specification, in whatever order
the map is enumerated. -/
theorem sorted_merged_rankedUnion {T : Type} [Value T] (pvTries : List (PathValueTrie T))
    (key : GoString)
    (hsep : ∀ a, Candidate pvTries key a → ∀ b, Candidate pvTries key b →
      Separated (GetScore a) (GetScore b))
    (rangeOrder : List T → List T) (hperm : ∀ l, (rangeOrder l).Perm l) :
    RankedUnion pvTries key
      (sort.Slice (rangeOrder ((mergeTries pvTries key).map Prod.snd)) valueCompare) := by
  obtain ⟨h1, h2, h3⟩ := merged_values pvTries key
  have hp := sorted_merged_perm pvTries key rangeOrder hperm
  have hnd0 : ((rangeOrder ((mergeTries pvTries key).map Prod.snd)).map GetQ).Nodup :=
    (((hperm _).map GetQ).nodup_iff).mpr h1
  refine ⟨?_, ?_, ?_, ?_⟩
  · apply Slice_sorted_on _ hnd0
    intro a ha b hb
    exact hsep a (h2 a ((hperm _).subset ha)).1 b (h2 b ((hperm _).subset hb)).1
  · exact ((hp.map GetQ).nodup_iff).mpr h1
  · intro q
    constructor
    · intro hq
      obtain ⟨e, he, rfl⟩ := List.mem_map.mp hq
      exact ⟨e, (h2 e (hp.subset he)).1, rfl⟩
    · rintro ⟨c, hc, rfl⟩
      obtain ⟨e, he, heq⟩ := h3 c hc
      exact List.mem_map.mpr ⟨e, hp.symm.subset he, heq⟩
  · intro e he
    obtain ⟨hc, hbest⟩ := h2 e (hp.subset he)
    exact ⟨hc, hbest (fun d hd => (separated_isFinite _ _ (hsep d hd d hd)).1)⟩

/-- With scores equal or at least `1e-6` apart the sorted values of the merged map do
not depend on the order in which the map is enumerated. -/
theorem sorted_merged_order {T : Type} [Value T] (pvTries : List (PathValueTrie T))
    (key : GoString)
    (hsep : ∀ a, Candidate pvTries key a → ∀ b, Candidate pvTries key b →
      Separated (GetScore a) (GetScore b))
    (r1 r2 : List T → List T) (h1 : ∀ l, (r1 l).Perm l) (h2 : ∀ l, (r2 l).Perm l) :
    sort.Slice (r1 ((mergeTries pvTries key).map Prod.snd)) valueCompare
      = sort.Slice (r2 ((mergeTries pvTries key).map Prod.snd)) valueCompare :=
  sorted_unique _ _
    ((sorted_merged_perm pvTries key r1 h1).trans (sorted_merged_perm pvTries key r2 h2).symm)
    (fun a ha => by
      have hc := ((sorted_merged_rankedUnion pvTries key hsep r1 h1).2.2.2 a ha).1
      exact (separated_isFinite _ _ (hsep a hc a hc)).1)
    (sorted_merged_rankedUnion pvTries key hsep r1 h1).1
    (sorted_merged_rankedUnion pvTries key hsep r2 h2).1

/-! ## C12: the merge is the truncated ranked union -/

/-- C12, counterexample.  A trie holds at key `K` the payloads `(a, +Inf)` and
`(b, +Inf)`, whose scores are equal.  In the group of that trie with
`maxResultsLen = 2`, the group `Get(K)` is `[b, a]` when the runtime enumerates the
merge mapping as `a, b`, and `[a, b]` when it enumerates it as `b, a`: the result is not
one list determined by the member tries' results. -/
theorem merge_infinite_scores :
    build 3 [(keyK, some payloadInfA), (keyK, some payloadInfB)] = some trieInf ∧
    NewPathValueTries [trieInf] 2 = some groupInf ∧
    trieInf.Get keyK = [payloadInfA, payloadInfB] ∧
    GetScore payloadInfA = GetScore payloadInfB ∧
    (mergeTries groupInf.pvTries keyK).map Prod.snd = [payloadInfA, payloadInfB] ∧
    [payloadInfA, payloadInfB].rotate 1 = [payloadInfB, payloadInfA] ∧
    (∀ l : List MyValue, (l.rotate 1).Perm l) ∧
    PathValueTries.Get (some groupInf) keyK id = some [payloadInfB, payloadInfA] ∧
    PathValueTries.Get (some groupInf) keyK (fun l => l.rotate 1)
      = some [payloadInfA, payloadInfB] :=
  ⟨rfl, rfl, rfl, rfl, rfl, rfl, fun l => List.rotate_perm l 1, rfl, rfl⟩

/-- C12 (amended). Merge equals the truncated ranked union. For every group with a
non-negative `maxResultsLen = M` and every key, when the scores of the payloads returned
by the member tries' `Get(key)` are finite (neither an infinity nor a NaN) and pairwise
equal or at least `1e-6` apart, there is a list
`L` that fits the merge specification (one best candidate for each query text occurring
in some member trie's `Get(key)`, sorted descending by the comparator), every list that
fits it has the same query texts and scores in the same order, and in every order in
which the runtime enumerates the merge mapping the group `Get(key)` returns the first
`M` entries of `L`; when `M` is at least the length of `L`, the number of distinct
query texts, the query texts of the result are exactly those of the member tries'
results. -/
theorem merge_ranked_union {T : Type} [Value T] (g : PathValueTries T) (key : GoString)
    (hM : 0 ≤ g.maxResultsLen)
    (hsep : ∀ a, Candidate g.pvTries key a → ∀ b, Candidate g.pvTries key b →
      Separated (GetScore a) (GetScore b)) :
    ∃ L, RankedUnion g.pvTries key L ∧
      (∀ L2, RankedUnion g.pvTries key L2 → L2.map rankKey = L.map rankKey) ∧
      (∀ rangeOrder : List T → List T, (∀ l, (rangeOrder l).Perm l) →
        PathValueTries.Get (some g) key rangeOrder = some (L.take g.maxResultsLen.toNat)) ∧
      ((L.length : Int) ≤ g.maxResultsLen →
        ∀ rangeOrder : List T → List T, (∀ l, (rangeOrder l).Perm l) →
          ∃ res, PathValueTries.Get (some g) key rangeOrder = some res ∧
            ∀ q, q ∈ res.map GetQ ↔ ∃ c, Candidate g.pvTries key c ∧ GetQ c = q) := by
  have hid : ∀ l : List T, (id l).Perm l := fun l => List.Perm.refl l
  have hL := sorted_merged_rankedUnion g.pvTries key hsep id hid
  have hget : ∀ rangeOrder : List T → List T, (∀ l, (rangeOrder l).Perm l) →
      PathValueTries.Get (some g) key rangeOrder
        = some ((sort.Slice (id ((mergeTries g.pvTries key).map Prod.snd))
            valueCompare).take g.maxResultsLen.toNat) := by
    intro r hr
    rw [groupGet_some g key r hr hM, sorted_merged_order g.pvTries key hsep r id hr hid]
  refine ⟨_, hL, ?_, hget, ?_⟩
  · intro L2 hL2
    exact rankedUnion_unique g.pvTries key hsep L2 _ hL2 hL
  · intro hlen r hr
    refine ⟨_, hget r hr, ?_⟩
    rw [List.take_of_length_le (by omega)]
    exact hL.2.2.1

theorem groupRank_built :
    build 3 (capacityCalls.map fun c => (c.1, some c.2)) = some trieCap3 ∧
    build 3 [(keyAB, some payloadX3)] = some trieABX3 ∧
    NewPathValueTries [trieCap3, trieABX3] 2 = some groupRank ∧
    trieCap3.Get keyAB = [payloadY, payloadZ, payloadX] ∧
    trieABX3.Get keyAB = [payloadX3] ∧
    PathValueTries.Get (some groupRank) keyAB id = some [payloadX3, payloadY] :=
  ⟨rfl, rfl, rfl, rfl, rfl, rfl⟩

theorem groupRank_candidates (a : MyValue) (h : Candidate groupRank.pvTries keyAB a) :
    a = payloadY ∨ a = payloadZ ∨ a = payloadX ∨ a = payloadX3 := by
  obtain ⟨t, ht, ha⟩ := h
  have hg : groupRank.pvTries = [trieCap3, trieABX3] := rfl
  rw [hg] at ht
  rcases List.mem_cons.mp ht with h1 | h1
  · rw [h1] at ha
    have h3 : trieCap3.Get keyAB = [payloadY, payloadZ, payloadX] := rfl
    rw [h3] at ha
    simp only [List.mem_cons, List.mem_singleton, List.not_mem_nil, or_false] at ha
    tauto
  · rw [List.mem_singleton.mp h1] at ha
    have h3 : trieABX3.Get keyAB = [payloadX3] := rfl
    rw [h3] at ha
    exact Or.inr (Or.inr (Or.inr (List.mem_singleton.mp ha)))

theorem groupRank_separated (a : MyValue) (ha : Candidate groupRank.pvTries keyAB a)
    (b : MyValue) (hb : Candidate groupRank.pvTries keyAB b) :
    Separated (GetScore a) (GetScore b) := by
  rcases groupRank_candidates a ha with h | h | h | h <;>
    rcases groupRank_candidates b hb with h' | h' | h' | h' <;>
    rw [h, h'] <;> decide

theorem merge_ranked_union_witness :
    ((0 : Int) ≤ groupRank.maxResultsLen ∧
      ∀ a, Candidate groupRank.pvTries keyAB a → ∀ b, Candidate groupRank.pvTries keyAB b →
        Separated (GetScore a) (GetScore b)) ∧
    PathValueTries.Get (some groupRank) keyAB id = some [payloadX3, payloadY] ∧
    ∃ L, RankedUnion groupRank.pvTries keyAB L ∧
      (∀ L2, RankedUnion groupRank.pvTries keyAB L2 → L2.map rankKey = L.map rankKey) ∧
      (∀ rangeOrder : List MyValue → List MyValue, (∀ l, (rangeOrder l).Perm l) →
        PathValueTries.Get (some groupRank) keyAB rangeOrder
          = some (L.take groupRank.maxResultsLen.toNat)) ∧
      ((L.length : Int) ≤ groupRank.maxResultsLen →
        ∀ rangeOrder : List MyValue → List MyValue, (∀ l, (rangeOrder l).Perm l) →
          ∃ res, PathValueTries.Get (some groupRank) keyAB rangeOrder = some res ∧
            ∀ q, q ∈ res.map GetQ ↔ ∃ c, Candidate groupRank.pvTries keyAB c ∧ GetQ c = q) :=
  ⟨⟨by decide, groupRank_separated⟩, rfl,
    merge_ranked_union groupRank keyAB (by decide) groupRank_separated⟩

/-! ## C14: determinism of the merge -/

theorem childAt_nil {T : Type} (r : rune) :
    childAt ([] : List (pathValueTrieNode T)) r = none := by
  unfold childAt
  simp

/-- C16, failing inputs. On the trie `NewPathValueTrie(0)` every `Put` of a non-nil
payload with a non-empty query text under a valid non-empty key does not return: the
loop creates the child of the first code point with an empty list, and the capacity
fast-reject of `updateValue` reads the last entry of that empty list. -/
theorem put_unsafe_at_capacity_zero {T : Type} [Value T] (t0 : PathValueTrie T)
    (hnew : NewPathValueTrie 0 = some t0) (key : GoString) (v : T)
    (ha : accepts key (some v) = true) (hne : key ≠ []) :
    t0.Put key (some v) = none := by
  rw [Put_accepted t0 key v ha, (New_some 0 t0 hnew).2]
  cases hr : runes key with
  | nil => exact absurd hr (runes_ne_nil key hne)
  | cons r rs =>
    simp only []
    rw [putLoop_cons]
    simp only [pathValueTrieNode.children]
    rw [childAt_nil r]
    simp only []
    rw [newNode_eq 0 r (le_refl 0), Option.some_bind]
    simp only [pathValueTrieNode.values]
    rw [updateValue_fresh_zero 0 (le_refl 0) v]
    rfl

theorem put_unsafe_at_capacity_zero_witness :
    NewPathValueTrie 0
      = some ({ root := .mk 0 (freshValues 0) [], maxLen := 0 } : PathValueTrie MyValue) ∧
    accepts keyAB (some payloadY) = true ∧ keyAB ≠ [] ∧
    ({ root := .mk 0 (freshValues 0) [], maxLen := 0 } : PathValueTrie MyValue).Put keyAB
      (some payloadY) = none :=
  ⟨rfl, by decide, by decide,
    put_unsafe_at_capacity_zero _ rfl keyAB payloadY (by decide) (by decide)⟩

/-! ## C17: the frame of `Put` -/

/-- C17. Frame property of `Put`. In every state reached from a fresh trie, for every
key and payload: when `Put(key, v)` returns, `Get(k)` is unchanged for every key `k`
that is not a non-empty code-point prefix of `key`, and along every non-empty code-point
path that is not a prefix of `key` the search reaches the same node (with the same list
and the same subtree) as before, or no node as before. With `maxLen` at least one and
below the largest `int` the call does return. -/
theorem put_frame {T : Type} [Value T] (t : PathValueTrie T) (key : GoString)
    (value : Option T) (hreach : Reachable t) :
    (∀ b t1, t.Put key value = some (b, t1) →
      (∀ k : GoString, ¬ (k ≠ [] ∧ runes k <+: runes key) → t1.Get k = t.Get k) ∧
      (∀ p : List rune, p ≠ [] → ¬ p <+: runes key →
        getLoop p t1.root = getLoop p t.root)) ∧
    (1 ≤ t.maxLen → t.maxLen < 2 ^ 63 - 1 → ∃ b t1, t.Put key value = some (b, t1)) := by
  have hwf := reachable_wellFormed t hreach
  refine ⟨?_, fun hm hint => ?_⟩
  · intro b t1 hput
    rcases Put_cases t t1 key value b hput with ⟨hb, ⟨_, ht⟩ | ⟨v, root, hv, hbt, _, _⟩⟩
    · rw [ht]
      exact ⟨fun _ _ => rfl, fun _ _ _ => rfl⟩
    · subst hv
      rw [hbt] at hb
      obtain ⟨hframe, _, hroot⟩ := Put_spec t t1 key v b hwf hb.symm hput
      refine ⟨?_, hframe⟩
      intro k hk
      unfold PathValueTrie.Get
      by_cases hnil : k = []
      · subst hnil
        have hr : runes [] = [] := rfl
        rw [hr, getLoop_nil, getLoop_nil]
        exact congrArg Slice.elems hroot
      · have hp : ¬ runes k <+: runes key := fun h => hk ⟨hnil, h⟩
        rw [hframe (runes k) (runes_ne_nil k hnil) hp]
  · obtain ⟨t1, h⟩ := Put_isSome t key value hwf hm hint
    exact ⟨_, t1, h⟩

theorem put_frame_witness :
    Reachable trieAX ∧
    ((∀ b t1, trieAX.Put keyAB (some payloadY) = some (b, t1) →
      (∀ k : GoString, ¬ (k ≠ [] ∧ runes k <+: runes keyAB) → t1.Get k = trieAX.Get k) ∧
      (∀ p : List rune, p ≠ [] → ¬ p <+: runes keyAB →
        getLoop p t1.root = getLoop p trieAX.root)) ∧
    ((1 : Int) ≤ trieAX.maxLen → trieAX.maxLen < 2 ^ 63 - 1 →
      ∃ b t1, trieAX.Put keyAB (some payloadY) = some (b, t1))) :=
  ⟨trieAX_reachable, put_frame trieAX keyAB (some payloadY) trieAX_reachable⟩

/-! ## C18: the sorted-children invariant -/

/-- In a strictly ascending children sequence the binary search selects a child for `r`
exactly when a child with code point `r` exists, and it selects that child. -/
theorem childAt_iff {T : Type} (cs : List (pathValueTrieNode T)) (hs : ChildrenSorted cs)
    (r : rune) (c : pathValueTrieNode T) :
    childAt cs r = some c ↔ c ∈ cs ∧ c.r = r := by
  constructor
  · exact childAt_mem cs r c
  · rintro ⟨hc, hr⟩
    rw [childAt_eq_find cs hs r]
    have hnd : (cs.map pathValueTrieNode.r).Nodup := by
      unfold ChildrenSorted at hs
      exact hs.imp (fun h => ne_of_lt h)
    cases hf : cs.find? (fun c => decide (c.r = r)) with
    | none =>
      rw [List.find?_eq_none] at hf
      have := hf c hc
      simp only [decide_eq_true_eq] at this
      exact absurd hr this
    | some c1 =>
      have h1 : c1.r = r := by simpa using List.find?_some hf
      have h2 : c1 ∈ cs := List.mem_of_find?_eq_some hf
      rw [List.inj_on_of_nodup_map hnd h2 hc (h1.trans hr.symm)]

/-- C18. Sorted-children invariant. After any sequence of `Put` calls that returned on
a fresh trie, every node's children sequence is strictly ascending by code point, and
at every node the binary search of `Put` and `Get` selects a child for the character
`r` exactly when a child with code point `r` exists, and then selects that child. With
`maxLen` at least one and below the largest `int` every sequence of calls returns. -/
theorem sorted_children_invariant {T : Type} [Value T] (maxLen : Int) (t0 : PathValueTrie T)
    (calls : List (GoString × Option T)) (hnew : NewPathValueTrie maxLen = some t0) :
    (∀ bs t, t0.PutAll calls = some (bs, t) →
      pathValueTrieNode.All (fun n =>
        (n.children.map pathValueTrieNode.r).Pairwise (· < ·) ∧
        ∀ r c, childAt n.children r = some c ↔ c ∈ n.children ∧ c.r = r) t.root) ∧
    (1 ≤ maxLen → maxLen < 2 ^ 63 - 1 → ∃ bs t, t0.PutAll calls = some (bs, t)) := by
  obtain ⟨hwf0, hm0⟩ := New_wellFormed maxLen t0 hnew
  refine ⟨?_, fun hm hint => PutAll_isSome calls t0 hwf0 (by rw [hm0]; exact hm)
    (by rw [hm0]; exact hint)⟩
  intro bs t hall
  have hwf := (PutAll_wellFormed calls t0 t bs hwf0 hall).1
  refine all_mono _ _ ?_ t.root hwf.2.2.1
  intro n hn
  exact ⟨hn, fun r c => childAt_iff n.children hn r c⟩

/-- A trie whose root has two children: after `Put("ab", x)` and `Put("K", y)` the
children of the root are `K` and `a`, in this order, and the binary search finds both
and no child for `b`. -/
theorem two_children_example :
    ((build 1 [(keyAB, some payloadX), (keyK, some payloadY)]).map
      fun t => t.root.children.map pathValueTrieNode.r) = some [0x4B, 0x61] ∧
    ((build 1 [(keyAB, some payloadX), (keyK, some payloadY)]).map
      fun t => ((childAt t.root.children 0x4B).map pathValueTrieNode.r,
        (childAt t.root.children 0x61).map pathValueTrieNode.r,
        (childAt t.root.children 0x62).map pathValueTrieNode.r))
      = some (some 0x4B, some 0x61, none) := by
  decide

theorem sorted_children_invariant_witness :
    NewPathValueTrie 1 = some trieEmpty1 ∧
    ((∀ bs t, trieEmpty1.PutAll [(keyAB, some payloadX), (keyK, some payloadY)] = some (bs, t) →
      pathValueTrieNode.All (fun n =>
        (n.children.map pathValueTrieNode.r).Pairwise (· < ·) ∧
        ∀ r c, childAt n.children r = some c ↔ c ∈ n.children ∧ c.r = r) t.root) ∧
    ((1 : Int) ≤ 1 → (1 : Int) < 2 ^ 63 - 1 →
      ∃ bs t, trieEmpty1.PutAll [(keyAB, some payloadX), (keyK, some payloadY)] = some (bs, t))) :=
  ⟨rfl, sorted_children_invariant 1 trieEmpty1 [(keyAB, some payloadX), (keyK, some payloadY)] rfl⟩

/-! ## C19: the definition of the comparator -/

theorem abs_eq (d : Float32) :
    (if d < Float32.finite 0 then -d else d) = d.abs := by
  cases d with
  | finite z =>
    by_cases hz : z < 0
    · rw [if_pos ((lt_finite _ _).mpr hz)]
      show Float32.finite (-z) = Float32.finite |z|
      rw [abs_of_neg hz]
    · rw [if_neg (fun h => hz ((lt_finite _ _).mp h))]
      show Float32.finite z = Float32.finite |z|
      rw [abs_of_nonneg (not_lt.mp hz)]
  | inf s => cases s <;> rfl
  | nan => rfl

theorem floatEqual_abs (a b : Float32) :
    floatEqual a b = decide ((a - b).abs < epsilon) := by
  unfold floatEqual
  simp only [abs_eq]

theorem le_finite (x y : Int) : Float32.finite x ≤ Float32.finite y ↔ x ≤ y := by
  show Float32.le (Float32.finite x) (Float32.finite y) = true ↔ x ≤ y
  simp [Float32.le]

theorem sub_def (a b : Float32) : a - b = Float32.sub a b := rfl

theorem lt_def (a b : Float32) : a < b ↔ Float32.lt a b = true := Iff.rfl

theorem le_def (a b : Float32) : a ≤ b ↔ Float32.le a b = true := Iff.rfl

/-- The score branch of the comparator, for all scores: the scores are not epsilon-equal
and `a < b` is false exactly when the `float32` difference is a NaN or at least the
`float32` constant. -/
theorem score_branch_iff (sa sb : Float32) :
    (floatEqual sa sb = false ∧ ¬ sa < sb) ↔
      (sa - sb = Float32.nan ∨ epsilon ≤ sa - sb) := by
  by_cases hfin : sa.isFinite = true ∧ sb.isFinite = true
  · obtain ⟨x, rfl⟩ := (isFinite_iff sa).mp hfin.1
    obtain ⟨y, rfl⟩ := (isFinite_iff sb).mp hfin.2
    rw [floatEqual_finite, sub_finite, lt_finite]
    simp only [decide_eq_false_iff_not, not_lt]
    by_cases hr : Float32.roundNat (x - y).natAbs < 2 ^ 128 * 2 ^ 149
    · rw [round_of_lt _ hr, epsilon_eq]
      simp only [le_finite, reduceCtorEq, false_or]
      constructor
      · rintro ⟨h1, h2⟩
        have hneg : ¬ (x - y < 0) := by omega
        rw [if_neg hneg]
        exact_mod_cast h1
      · intro h
        by_cases hneg : x - y < 0
        · rw [if_pos hneg] at h
          have hR : (0 : Int) ≤ (Float32.roundNat (x - y).natAbs : Int) :=
            Int.natCast_nonneg _
          have hpos : (0 : Nat) < 8796093 * 2 ^ 106 := by norm_num
          have : (0 : Int) < ((8796093 * 2 ^ 106 : Nat) : Int) := by exact_mod_cast hpos
          omega
        · rw [if_neg hneg] at h
          exact ⟨by exact_mod_cast h, by omega⟩
    · rw [round_of_ge _ hr]
      have hge : 8796093 * 2 ^ 106 ≤ Float32.roundNat (x - y).natAbs := by
        have : (8796093 * 2 ^ 106 : Nat) ≤ 2 ^ 128 * 2 ^ 149 := by norm_num
        omega
      by_cases hneg : x - y < 0
      · simp only [hneg, decide_True]
        constructor
        · rintro ⟨_, h2⟩; omega
        · rintro (h | h)
          · exact Float32.noConfusion h
          · exact absurd h (by decide)
      · simp only [hneg, decide_False]
        constructor
        · intro _; right; decide
        · intro _; exact ⟨hge, by omega⟩
  · have hnf : sa.isFinite = false ∨ sb.isFinite = false := by
      by_cases ha : sa.isFinite = true
      · right
        by_contra hb
        exact hfin ⟨ha, by simpa using hb⟩
      · left; simpa using ha
    rw [floatEqual_not_finite sa sb hnf]
    simp only [sub_def, lt_def, le_def, epsilon_eq, true_and]
    cases sa with
    | finite x =>
      cases sb with
      | finite y => simp [Float32.isFinite] at hnf
      | inf s => cases s <;> simp [Float32.sub, Float32.lt, Float32.le]
      | nan => simp [Float32.sub, Float32.lt, Float32.le]
    | inf s =>
      cases sb with
      | finite y => cases s <;> simp [Float32.sub, Float32.lt, Float32.le]
      | inf s2 => cases s <;> cases s2 <;> simp [Float32.sub, Float32.lt, Float32.le]
      | nan => simp [Float32.sub, Float32.lt, Float32.le]
    | nan => cases sb <;> simp [Float32.sub, Float32.lt, Float32.le]

/-- C19, counterexample.  A payload with score `+Inf` compares better than itself, and
two payloads with score `+Inf` and different query texts compare better than each
other: the `float32` difference `+Inf - +Inf` is a NaN, which is neither `>= 1e-6` nor
`< 1e-6` in absolute value.  And with scores `float32(1e-6)` and `0` the comparator
decides by the scores although their difference is less than the real number `1e-6`
and the query text of the first payload is the smaller one: the constant the code
compares with is `8796093 * 2^-43`. -/
theorem comparator_definition_fails :
    valueCompare payloadInfA payloadInfA = true ∧
    GetScore payloadInfA - GetScore payloadInfA = Float32.nan ∧
    ¬ epsilon ≤ GetScore payloadInfA - GetScore payloadInfA ∧
    ¬ (GetScore payloadInfA - GetScore payloadInfA).abs < epsilon ∧
    GetQ payloadInfA ≠ GetQ payloadInfB ∧
    valueCompare payloadInfA payloadInfB = true ∧
    valueCompare payloadInfB payloadInfA = true ∧
    GetScore payloadEps - GetScore payloadC0 = Float32.finite (8796093 * 2 ^ 106) ∧
    (10 ^ 6 * (8796093 * 2 ^ 106) : Int) < 2 ^ 149 ∧
    ¬ GetQ payloadC0 < GetQ payloadEps ∧
    valueCompare payloadEps payloadC0 = true := by
  decide

/-- C19 (amended).  Comparator definition.  For all payloads `a` and `b`, with the
difference of the scores computed in `float32` and `1e-6` the `float32` constant of the
source (`8796093 * 2^-43`): `valueCompare(a, b)` is true if and only if the difference
`score(a) - score(b)` is a NaN, or `score(a) - score(b) >= 1e-6`, or
`|score(a) - score(b)| < 1e-6` and the query text of `a` is lexicographically greater
than the query text of `b`.  Consequently for two payloads with finite scores and
different query texts exactly one of `valueCompare(a, b)` and `valueCompare(b, a)` is
true, and for equal query texts with scores less than `1e-6` apart neither is. -/
theorem comparator_definition {T : Type} [Value T] (a b : T) :
    (valueCompare a b = true ↔
      GetScore a - GetScore b = Float32.nan ∨
      epsilon ≤ GetScore a - GetScore b ∨
      ((GetScore a - GetScore b).abs < epsilon ∧ GetQ b < GetQ a)) ∧
    ((GetScore a).isFinite = true → (GetScore b).isFinite = true → GetQ a ≠ GetQ b →
      (valueCompare a b = true ∧ valueCompare b a = false) ∨
      (valueCompare a b = false ∧ valueCompare b a = true)) ∧
    (GetQ a = GetQ b → (GetScore a - GetScore b).abs < epsilon →
      valueCompare a b = false ∧ valueCompare b a = false) := by
  have hiff : ∀ x y : T, valueCompare x y = true ↔
      GetScore x - GetScore y = Float32.nan ∨
      epsilon ≤ GetScore x - GetScore y ∨
      ((GetScore x - GetScore y).abs < epsilon ∧ GetQ y < GetQ x) := by
    intro x y
    rw [valueCompare_iff_all, score_branch_iff, floatEqual_abs, decide_eq_true_eq, or_assoc]
  refine ⟨hiff a b, ?_, ?_⟩
  · intro ha hb hne
    rcases valueCompare_total a b hne with h | h
    · exact Or.inl ⟨h, valueCompare_asymm a b ha hb h⟩
    · exact Or.inr ⟨valueCompare_asymm b a hb ha h, h⟩
  · intro hq hlt
    have hfe : floatEqual (GetScore a) (GetScore b) = true := by
      rw [floatEqual_abs]; exact decide_eq_true hlt
    have hfe2 : floatEqual (GetScore b) (GetScore a) = true := by
      rw [floatEqual_comm]; exact hfe
    constructor
    · by_contra h
      have h1 := (valueCompare_iff_all a b).mp (by simpa using h)
      rw [hfe, hq] at h1
      rcases h1 with ⟨h2, _⟩ | ⟨_, h2⟩
      · exact Bool.noConfusion h2
      · exact lt_irrefl _ h2
    · by_contra h
      have h1 := (valueCompare_iff_all b a).mp (by simpa using h)
      rw [hfe2, hq] at h1
      rcases h1 with ⟨h2, _⟩ | ⟨_, h2⟩
      · exact Bool.noConfusion h2
      · exact lt_irrefl _ h2

theorem comparator_definition_witness :
    ((GetScore payloadC0 - GetScore payloadB1).abs < epsilon ∧
      GetQ payloadB1 < GetQ payloadC0) ∧
    valueCompare payloadC0 payloadB1 = true ∧
    ((GetScore payloadC0).isFinite = true ∧ (GetScore payloadB1).isFinite = true ∧
      GetQ payloadC0 ≠ GetQ payloadB1) ∧
    ((valueCompare payloadC0 payloadB1 = true ∧ valueCompare payloadB1 payloadC0 = false) ∨
      (valueCompare payloadC0 payloadB1 = false ∧ valueCompare payloadB1 payloadC0 = true)) ∧
    (GetQ payloadFoo5 = GetQ payloadFoo5 ∧
      (GetScore payloadFoo5 - GetScore payloadFoo5).abs < epsilon) ∧
    (valueCompare payloadFoo5 payloadFoo5 = false ∧
      valueCompare payloadFoo5 payloadFoo5 = false) :=
  ⟨⟨by decide, by decide⟩,
    (comparator_definition payloadC0 payloadB1).1.mpr (Or.inr (Or.inr ⟨by decide, by decide⟩)),
    ⟨by decide, by decide, by decide⟩,
    (comparator_definition payloadC0 payloadB1).2.1 (by decide) (by decide) (by decide),
    ⟨rfl, by decide⟩,
    (comparator_definition payloadFoo5 payloadFoo5).2.2 rfl (by decide)⟩

/-! ## C20: the root holds no payloads -/

/-- C20. The root never holds payloads. After every sequence of `Put` calls that
returned on a fresh trie, `Get("")` returns an empty sequence, and a further `Put` with
the empty key and a payload with a non-empty query text returns true and leaves the
trie as it is. With `maxLen` at least one and below the largest `int` every sequence of
calls returns. -/
theorem root_holds_no_payloads {T : Type} [Value T] (maxLen : Int) (t0 : PathValueTrie T)
    (calls : List (GoString × Option T)) (hnew : NewPathValueTrie maxLen = some t0) :
    (∀ bs t, t0.PutAll calls = some (bs, t) →
      t.Get [] = [] ∧
      ∀ v : T, (GetQ v).length ≠ 0 → t.Put [] (some v) = some (true, t)) ∧
    (1 ≤ maxLen → maxLen < 2 ^ 63 - 1 → ∃ bs t, t0.PutAll calls = some (bs, t)) := by
  obtain ⟨hwf0, hm0⟩ := New_wellFormed maxLen t0 hnew
  refine ⟨?_, fun hm hint => PutAll_isSome calls t0 hwf0 (by rw [hm0]; exact hm)
    (by rw [hm0]; exact hint)⟩
  intro bs t hall
  have hwf := (PutAll_wellFormed calls t0 t bs hwf0 hall).1
  constructor
  · unfold PathValueTrie.Get
    have hr : runes [] = [] := rfl
    rw [hr, getLoop_nil]
    simp only []
    rw [hwf.2.1]
    rfl
  · intro v hv
    have ha : accepts ([] : GoString) (some v) = true := by
      unfold accepts
      have hvalid : utf8.ValidString [] = true := by decide
      rw [hvalid]
      simpa using hv
    rw [Put_accepted t [] v ha]
    rfl

theorem root_holds_no_payloads_witness :
    NewPathValueTrie 1 = some trieEmpty1 ∧
    ((∀ bs t, trieEmpty1.PutAll [(([] : GoString), some payloadX), (keyA, some payloadY)]
        = some (bs, t) →
      t.Get [] = [] ∧
      ∀ v : MyValue, (GetQ v).length ≠ 0 → t.Put [] (some v) = some (true, t)) ∧
    ((1 : Int) ≤ 1 → (1 : Int) < 2 ^ 63 - 1 →
      ∃ bs t, trieEmpty1.PutAll [(([] : GoString), some payloadX), (keyA, some payloadY)]
        = some (bs, t))) :=
  ⟨rfl, root_holds_no_payloads 1 trieEmpty1
    [(([] : GoString), some payloadX), (keyA, some payloadY)] rfl⟩

end trie
